import Mathlib

/-!
# The buddy allocator of `src/lab.c`

A shallow embedding of `btok`, `buddy_calc`, `buddy_malloc`, `buddy_free`,
`buddy_realloc` and `buddy_init`, followed by the properties proved of them.

Memory model.  The allocator only ever looks at `struct avail` headers, through
three kinds of pointer: `NULL`, the address of a sentinel `&pool->avail[k]`, and an
address inside the mapped region.  A state `Pool` therefore holds the scalar fields
of `struct buddy_pool`, one header per pointer (`hdr`), and the bytes of the region
(`data`).  Storing into a header that lives in the region overwrites the
`sizeof(struct avail)` bytes at its address, which the model records by marking
those bytes `none`.

Machine arithmetic.  Sizes are `size_t`: the sum `size + sizeof(struct avail)` and the
differences in `buddy_realloc` are taken modulo `2 ^ 64`.  A shift `1 << k` has a value
only for `k < 64`; `btok` and `buddy_init`, where the count comes from the caller, return
an `Option`.  Elsewhere the count is the order of a block, which is below 64 in every
pool that `buddy_init` builds, and the shift is written `2 ^ k`.  Addresses are natural
numbers; `buddy_calc` subtracts `base` from an address that is not below it.

Loops are recursions on a counter that is as large as the number of iterations the loop
can make: the search loop runs over `needed_k .. kval_m`, the split loop lowers
`block->kval` by one per round, the coalescing loop raises it by one per round.

The header `lab.h` is not among the sources, so its constants and the size of
`struct avail` are the fields of `Config`.  The array `avail` has a sentinel for every
order; its length, which `lab.h` fixes, is not modelled.
-/

namespace Buddy

/-- The constants of `lab.h` (which is not part of the sources) as parameters:
`sizeof(struct avail)`, the four order constants and the three tag values. -/
structure Config where
  sizeof_avail : Nat
  SMALLEST_K : Nat
  MIN_K : Nat
  MAX_K : Nat
  DEFAULT_K : Nat
  BLOCK_AVAIL : Nat
  BLOCK_RESERVED : Nat
  BLOCK_UNUSED : Nat

/-- A `struct avail *`: `NULL`, `&pool->avail[k]`, or a pointer into the mapped
region, given by its address. -/
inductive Ptr where
  | NULL : Ptr
  | sentinel (k : Nat) : Ptr
  | block (addr : Nat) : Ptr
  deriving DecidableEq

/-- A `struct buddy_pool *` argument: `NULL`, or the address of the pool of the state. -/
inductive PoolPtr where
  | NULL : PoolPtr
  | valid : PoolPtr
  deriving DecidableEq

/-- The two values the allocator stores into `errno`. -/
inductive Errno where
  | EINVAL : Errno
  | ENOMEM : Errno
  deriving DecidableEq

/-- The header `struct avail`. -/
structure Avail where
  tag : Nat
  kval : Nat
  next : Ptr
  prev : Ptr
  deriving DecidableEq

/-- An all-zero header, as left by `memset` and by a fresh anonymous mapping. -/
def Avail.zero : Avail := ⟨0, 0, Ptr.NULL, Ptr.NULL⟩

/-- The state: the fields of `struct buddy_pool`, the header found behind each pointer
(`hdr (Ptr.sentinel k)` is `pool->avail[k]`, `hdr (Ptr.block a)` is the header stored at
address `a`) and the bytes of the region (`none`: overwritten by a header store).
Dereferencing `NULL` is undefined in C; the model gives `NULL` a header of its own so
that every access is total. -/
structure Pool where
  kval_m : Nat
  numbytes : Nat
  base : Nat
  hdr : Ptr → Avail
  data : Nat → Option Nat

/-- Bytes after a header store through `p`: a header in the region covers the
`H` bytes from its address on. -/
def clobber (H : Nat) (d : Nat → Option Nat) (p : Ptr) : Nat → Option Nat :=
  match p with
  | Ptr.block a => fun x => if a ≤ x ∧ x < a + H then none else d x
  | _ => d

/-- Store of a whole header through `p`. -/
def Pool.store (cfg : Config) (s : Pool) (p : Ptr) (h : Avail) : Pool :=
  { s with hdr := fun q => if q = p then h else s.hdr q,
           data := clobber cfg.sizeof_avail s.data p }

/-- The assignment `p->next = v`. -/
def Pool.set_next (cfg : Config) (s : Pool) (p v : Ptr) : Pool :=
  s.store cfg p { s.hdr p with next := v }

/-- The assignment `p->prev = v`. -/
def Pool.set_prev (cfg : Config) (s : Pool) (p v : Ptr) : Pool :=
  s.store cfg p { s.hdr p with prev := v }

/-- The assignment `p->tag = v`. -/
def Pool.set_tag (cfg : Config) (s : Pool) (p : Ptr) (v : Nat) : Pool :=
  s.store cfg p { s.hdr p with tag := v }

/-- The assignment `p->kval = v`. -/
def Pool.set_kval (cfg : Config) (s : Pool) (p : Ptr) (v : Nat) : Pool :=
  s.store cfg p { s.hdr p with kval := v }

/-- Pointer arithmetic `(char *)p + n` on a pointer into the region. -/
def Ptr.add (p : Ptr) (n : Nat) : Ptr :=
  match p with
  | Ptr.block a => Ptr.block (a + n)
  | _ => Ptr.NULL

/-- The comparison `p < q` of two pointers into the region. -/
def Ptr.below (p q : Ptr) : Bool :=
  match p, q with
  | Ptr.block a, Ptr.block b => decide (a < b)
  | _, _ => false

/-- The address carried by a pointer into the region; `none` stands for `NULL`. -/
def Ptr.addr (p : Ptr) : Option Nat :=
  match p with
  | Ptr.block a => some a
  | _ => none

/-- The shift `UINT64_C(1) << k`, which C defines for `k < 64` only. -/
def shl1 (k : Nat) : Option Nat :=
  if k < 64 then some (2 ^ k) else none

/-- The loop of `btok`, entered with `mult = 1 << k_val`; `none` when the shift count
reaches 64, where the C program has no defined result. -/
def btok_loop (bytes : Nat) : Nat → Nat → Option Nat
  | 0, _ => none
  | fuel + 1, k_val =>
    match shl1 k_val with
    | none => none
    | some mult => if bytes > mult then btok_loop bytes fuel (k_val + 1) else some k_val

/-- The function `btok` of lab.c. -/
def btok (bytes : Nat) : Option Nat :=
  if bytes = 0 then some 0 else btok_loop bytes 65 0

/-- The function `buddy_calc` of lab.c for a block of the region; addresses are natural
numbers and the shift count is the order read from the header.  The shift is written
`2 ^ kval` and the sum is not reduced modulo `2 ^ 64`, which is what the C function
computes when `kval < 64` and the block and its buddy lie in the mapped region, as they
do in every state that `buddy_init` and the calls after it build. -/
def buddy_calc (s : Pool) (pool : PoolPtr) (buddy : Ptr) : Ptr :=
  match pool, buddy with
  | PoolPtr.valid, Ptr.block a =>
    let address := a - s.base
    let operand := 2 ^ (s.hdr buddy).kval
    Ptr.block ((address ^^^ operand) + s.base)
  | _, _ => Ptr.NULL

/-- The two stores `b->prev->next = b->next; b->next->prev = b->prev;` that take `b`
out of its list (lab.c lines 82-83 and 133-134). -/
def list_unlink (cfg : Config) (s : Pool) (b : Ptr) : Pool :=
  let s1 := s.set_next cfg (s.hdr b).prev (s.hdr b).next
  s1.set_prev cfg (s1.hdr b).next (s1.hdr b).prev

/-- The four stores that put `b` at the head of `avail[k]` (lab.c lines 103-107 and
143-147). -/
def list_push (cfg : Config) (s : Pool) (k : Nat) (b : Ptr) : Pool :=
  let sentinel := Ptr.sentinel k
  let s1 := s.set_next cfg b (s.hdr sentinel).next
  let s2 := s1.set_prev cfg b sentinel
  let s3 := s2.set_prev cfg (s2.hdr sentinel).next b
  s3.set_next cfg sentinel b

/-- The search loop of `buddy_malloc` (lines 78-86), from order `k` on: the state after
the loop and the value of `block`. -/
def malloc_scan (cfg : Config) (s : Pool) : Nat → Nat → Pool × Ptr
  | 0, _ => (s, Ptr.NULL)
  | fuel + 1, k =>
    if k ≤ s.kval_m then
      let sentinel := Ptr.sentinel k
      if (s.hdr sentinel).next ≠ sentinel then
        let block := (s.hdr sentinel).next
        (list_unlink cfg s block, block)
      else malloc_scan cfg s fuel (k + 1)
    else (s, Ptr.NULL)

/-- The split loop of `buddy_malloc` (lines 93-108). -/
def malloc_split (cfg : Config) (block : Ptr) (needed_k : Nat) : Nat → Pool → Pool
  | 0, s => s
  | fuel + 1, s =>
    if (s.hdr block).kval > needed_k then
      let s1 := s.set_kval cfg block ((s.hdr block).kval - 1)
      let new_k := (s1.hdr block).kval
      let buddy := block.add (2 ^ new_k)
      let s2 := s1.set_tag cfg buddy cfg.BLOCK_AVAIL
      let s3 := s2.set_kval cfg buddy new_k
      malloc_split cfg block needed_k fuel (list_push cfg s3 new_k buddy)
    else s

/-- What a call of `buddy_malloc` or `buddy_realloc` leaves: the state, the returned
pointer (`none` for `NULL`) and the value stored into `errno`, if any. -/
structure Result where
  pool : Pool
  ret : Option Nat
  errno : Option Errno

/-- The function `buddy_malloc` of lab.c.  `size + sizeof(struct avail)` is computed in
`size_t`, that is modulo `2 ^ 64`; the result is `none` when `btok` has none. -/
def buddy_malloc (cfg : Config) (s : Pool) (pool : PoolPtr) (size : Nat) : Option Result :=
  if pool = PoolPtr.NULL ∨ size = 0 then some ⟨s, none, some Errno.EINVAL⟩
  else
    match btok ((size + cfg.sizeof_avail) % 2 ^ 64) with
    | none => none
    | some k0 =>
      let needed_k := if k0 < cfg.SMALLEST_K then cfg.SMALLEST_K else k0
      if needed_k > s.kval_m then some ⟨s, none, some Errno.ENOMEM⟩
      else
        let found := malloc_scan cfg s (s.kval_m + 1 - needed_k) needed_k
        let block := found.2
        if block = Ptr.NULL then some ⟨found.1, none, some Errno.ENOMEM⟩
        else
          let s2 := malloc_split cfg block needed_k (found.1.hdr block).kval found.1
          let s3 := s2.set_tag cfg block cfg.BLOCK_RESERVED
          some ⟨s3, (block.add cfg.sizeof_avail).addr, none⟩

/-- The coalescing loop of `buddy_free` (lines 125-140): the state after the loop and
the value of `block`. -/
def free_loop (cfg : Config) : Nat → Pool → Ptr → Pool × Ptr
  | 0, s, block => (s, block)
  | fuel + 1, s, block =>
    if (s.hdr block).kval < s.kval_m then
      let buddy := buddy_calc s PoolPtr.valid block
      if (s.hdr buddy).tag ≠ cfg.BLOCK_AVAIL ∨ (s.hdr buddy).kval ≠ (s.hdr block).kval then
        (s, block)
      else
        let s1 := list_unlink cfg s buddy
        let block1 := if buddy.below block then buddy else block
        free_loop cfg fuel (s1.set_kval cfg block1 ((s1.hdr block1).kval + 1)) block1
    else (s, block)

/-- The function `buddy_free` of lab.c; `ptr` is `none` for `NULL`. -/
def buddy_free (cfg : Config) (s : Pool) (pool : PoolPtr) (ptr : Option Nat) : Pool :=
  match pool, ptr with
  | PoolPtr.valid, some p =>
    let block := Ptr.block (p - cfg.sizeof_avail)
    let s1 := s.set_tag cfg block cfg.BLOCK_AVAIL
    let merged := free_loop cfg (s1.kval_m - (s1.hdr block).kval) s1 block
    list_push cfg merged.1 (merged.1.hdr merged.2).kval merged.2
  | _, _ => s

/-- The call `memcpy(dst, src, n)` on the bytes of the region. -/
def memcpy (s : Pool) (dst src n : Nat) : Pool :=
  { s with data := fun x => if dst ≤ x ∧ x < dst + n then s.data (src + (x - dst)) else s.data x }

/-- The function `buddy_realloc` of lab.c; the subtractions of `sizeof(struct avail)`
are those of `size_t`. -/
def buddy_realloc (cfg : Config) (s : Pool) (pool : PoolPtr) (ptr : Option Nat)
    (size : Nat) : Option Result :=
  match pool, ptr with
  | PoolPtr.NULL, _ => some ⟨s, none, none⟩
  | PoolPtr.valid, none => buddy_malloc cfg s pool size
  | PoolPtr.valid, some p =>
    if size = 0 then some ⟨buddy_free cfg s pool ptr, none, none⟩
    else
      let block := Ptr.block (p - cfg.sizeof_avail)
      let allocated := 2 ^ (s.hdr block).kval
      let old_payload := (allocated + 2 ^ 64 - cfg.sizeof_avail) % 2 ^ 64
      let min_req :=
        if (s.hdr block).kval > 0 then
          (2 ^ ((s.hdr block).kval - 1) + 2 ^ 64 - cfg.sizeof_avail + 1) % 2 ^ 64
        else 0
      if size > min_req then
        match buddy_malloc cfg s pool size with
        | none => none
        | some r =>
          match r.ret with
          | none => some ⟨r.pool, none, r.errno⟩
          | some new_ptr =>
            let copy_size := if old_payload < size then old_payload else size
            let s1 := memcpy r.pool new_ptr p copy_size
            some ⟨buddy_free cfg s1 pool ptr, some new_ptr, none⟩
      else some ⟨s, ptr, none⟩

/-- The loop of `buddy_init` that makes `avail[i]` an empty list for `i <= kval`
(lines 235-240). -/
def init_loop (cfg : Config) (kval : Nat) : Nat → Nat → Pool → Pool
  | 0, _, s => s
  | fuel + 1, i, s =>
    if i ≤ kval then
      let s1 := s.set_prev cfg (Ptr.sentinel i) (Ptr.sentinel i)
      let s2 := s1.set_next cfg (Ptr.sentinel i) (s1.hdr (Ptr.sentinel i)).prev
      let s3 := s2.set_kval cfg (Ptr.sentinel i) i
      init_loop cfg kval fuel (i + 1) (s3.set_tag cfg (Ptr.sentinel i) cfg.BLOCK_UNUSED)
    else s

/-- The function `buddy_init` of lab.c.  `mmap` is what the call of `mmap` returns
(`none` for `MAP_FAILED`, after which the process is killed); the result is `none` when
the function does not return or a shift is undefined.  The pool and the fresh mapping
start out all zero. -/
def buddy_init (cfg : Config) (mmap : Option Nat) (size : Nat) : Option Pool :=
  match (if size = 0 then some cfg.DEFAULT_K else btok size) with
  | none => none
  | some k0 =>
    let k1 := if k0 < cfg.MIN_K then cfg.MIN_K else k0
    let kval := if k1 > cfg.MAX_K then (cfg.MAX_K + 2 ^ 64 - 1) % 2 ^ 64 else k1
    match shl1 kval, mmap with
    | some numbytes, some base =>
      let s0 : Pool := ⟨kval, numbytes, base, fun _ => Avail.zero, fun _ => some 0⟩
      let s1 := init_loop cfg kval (kval + 1) 0 s0
      let s2 := s1.set_prev cfg (Ptr.sentinel kval) (Ptr.block base)
      let s3 := s2.set_next cfg (Ptr.sentinel kval) (s2.hdr (Ptr.sentinel kval)).prev
      let m := (s3.hdr (Ptr.sentinel kval)).next
      let s4 := s3.set_tag cfg m cfg.BLOCK_AVAIL
      let s5 := s4.set_kval cfg m kval
      let s6 := s5.set_prev cfg m (Ptr.sentinel kval)
      some (s6.set_next cfg m (s6.hdr m).prev)
    | _, _ => none

/-- The constants of the stock `lab.h` of this assignment on an LP64 machine, used for
concrete evaluations. -/
def cfg0 : Config := ⟨24, 6, 20, 48, 30, 1, 0, 3⟩

/-! ## Specification vocabulary -/

/-- The pointer to the block at offset `o` of the region. -/
def Pool.blk (s : Pool) (o : Nat) : Ptr := Ptr.block (s.base + o)

/-- The offset of the buddy of the block of order `k` at offset `o`. -/
def bud (o k : Nat) : Nat := o ^^^ 2 ^ k

/-- The value of the local variable `needed_k` of `buddy_malloc` after line 68. -/
def needed_k (cfg : Config) (size : Nat) : Option Nat :=
  (btok ((size + cfg.sizeof_avail) % 2 ^ 64)).map
    (fun k0 => if k0 < cfg.SMALLEST_K then cfg.SMALLEST_K else k0)

/-- A doubly linked stretch: following `next` from `x` visits exactly the pointers of the
list and then `y`, and `prev` leads back. -/
def Seg (s : Pool) : Ptr → List Ptr → Ptr → Prop
  | x, [], y => (s.hdr x).next = y ∧ (s.hdr y).prev = x
  | x, a :: l, y => (s.hdr x).next = a ∧ (s.hdr a).prev = x ∧ Seg s a l y

/-- The blocks of an abstract state: `F k` lists the offsets of the free blocks of order
`k` in list order, `R o k` says that the block of order `k` at offset `o` is reserved, and
`T o k` that a running operation holds the block of order `k` at offset `o`, taken out of
the lists and not yet handed to the caller. -/
def Blk (F : Nat → List Nat) (R T : Nat → Nat → Prop) (o k : Nat) : Prop :=
  o ∈ F k ∨ R o k ∨ T o k

/-- The blocks `B` tile the region of `2 ^ K` bytes: each is aligned to its size and
inside the region, two different blocks do not overlap, every byte is in a block. -/
structure Tiling (K : Nat) (B : Nat → Nat → Prop) : Prop where
  aligned : ∀ o k, B o k → 2 ^ k ∣ o ∧ o + 2 ^ k ≤ 2 ^ K
  disjoint : ∀ o k o2 k2, B o k → B o2 k2 → (o ≠ o2 ∨ k ≠ k2) →
    o + 2 ^ k ≤ o2 ∨ o2 + 2 ^ k2 ≤ o
  cover : ∀ x, x < 2 ^ K → ∃ o k, B o k ∧ o ≤ x ∧ x < o + 2 ^ k

/-- The state `s` represents the abstract state `F`, `R`, `T`: the lists `avail[k]` hold
the blocks of `F k` in order, every block carries its order and the tag of its kind, the
blocks tile the region, and no free block has a free buddy of its own order. -/
structure Inv (cfg : Config) (s : Pool) (F : Nat → List Nat) (R T : Nat → Nat → Prop) :
    Prop where
  lists : ∀ k, k ≤ s.kval_m → Seg s (Ptr.sentinel k) ((F k).map s.blk) (Ptr.sentinel k)
  sentinels : ∀ k, k ≤ s.kval_m →
    (s.hdr (Ptr.sentinel k)).tag = cfg.BLOCK_UNUSED ∧ (s.hdr (Ptr.sentinel k)).kval = k
  nodup : ∀ k, (F k).Nodup
  free_hdr : ∀ o k, o ∈ F k →
    (s.hdr (s.blk o)).tag = cfg.BLOCK_AVAIL ∧ (s.hdr (s.blk o)).kval = k
  res_hdr : ∀ o k, R o k →
    (s.hdr (s.blk o)).tag = cfg.BLOCK_RESERVED ∧ (s.hdr (s.blk o)).kval = k
  hand_hdr : ∀ o k, T o k →
    (s.hdr (s.blk o)).tag = cfg.BLOCK_AVAIL ∧ (s.hdr (s.blk o)).kval = k ∧ o ∉ F k
  tiling : Tiling s.kval_m (Blk F R T)
  nobuddy : ∀ o k, o ∈ F k → k < s.kval_m → bud o k ∉ F k

/-- The block `b` of order `k` and nothing else. -/
def single (b k : Nat) : Nat → Nat → Prop := fun x j => x = b ∧ j = k

/-- No block at all. -/
def nothing : Nat → Nat → Prop := fun _ _ => False

/-- The free lists after the split loop has cut the block at offset `b` from order `j`
down to order `needed`: each upper half went to the head of the list of its order. -/
def split_lists (F : Nat → List Nat) (b needed j : Nat) : Nat → List Nat :=
  fun i => if needed ≤ i ∧ i < j then (b + 2 ^ i) :: F i else F i

/-- The coalescing loop on the abstract state: the free lists of a pool of top order `K`,
and the offset and order of the block held. -/
def merge_lists (K : Nat) : Nat → (Nat → List Nat) → Nat → Nat → (Nat → List Nat) × Nat × Nat
  | 0, F, b, k => (F, b, k)
  | fuel + 1, F, b, k =>
    if k < K ∧ bud b k ∈ F k then
      merge_lists K fuel (Function.update F k ((F k).erase (bud b k))) (min b (bud b k)) (k + 1)
    else (F, b, k)

/-- The reserved blocks that the outstanding allocations `O` (payload pointer and
requested size) stand for in a pool based at `base`. -/
def Rof (cfg : Config) (base : Nat) (O : List (Nat × Nat)) : Nat → Nat → Prop :=
  fun o k => ∃ n, (base + o + cfg.sizeof_avail, n) ∈ O ∧ needed_k cfg n = some k

/-- What `mmap` guarantees of a successful mapping of `numbytes` bytes at `base`: the
address is not null and the region ends inside the 64-bit address space. -/
def mapped (base numbytes : Nat) : Prop := base ≠ 0 ∧ base + numbytes ≤ 2 ^ 64

/-- The states a program reaches with `buddy_init` followed by calls of `buddy_malloc`
and `buddy_free` that return, each `buddy_free` on a pointer that was returned by
`buddy_malloc` and not freed since.  The list holds the outstanding allocations:
payload pointer and requested size. -/
inductive Reach (cfg : Config) : Pool → List (Nat × Nat) → Prop where
  | init (base size : Nat) (s : Pool) :
      buddy_init cfg (some base) size = some s → mapped base s.numbytes → Reach cfg s []
  | malloc (s : Pool) (O : List (Nat × Nat)) (n p : Nat) (r : Result) :
      Reach cfg s O → buddy_malloc cfg s PoolPtr.valid n = some r → r.ret = some p →
      Reach cfg r.pool ((p, n) :: O)
  | malloc_null (s : Pool) (O : List (Nat × Nat)) (n : Nat) (r : Result) :
      Reach cfg s O → buddy_malloc cfg s PoolPtr.valid n = some r → r.ret = none →
      Reach cfg r.pool O
  | free (s : Pool) (O : List (Nat × Nat)) (p n : Nat) :
      Reach cfg s O → (p, n) ∈ O →
      Reach cfg (buddy_free cfg s PoolPtr.valid (some p)) (O.erase (p, n))

/-- What holds of every reachable state: the outstanding pointers are pairwise different,
each is the payload of a block, and the state represents these reserved blocks. -/
structure Good (cfg : Config) (s : Pool) (O : List (Nat × Nat)) : Prop where
  nodup : (O.map Prod.fst).Nodup
  payload : ∀ pn, pn ∈ O → ∃ o k, pn.1 = s.base + o + cfg.sizeof_avail ∧
    needed_k cfg pn.2 = some k ∧ pn.2 ≠ 0
  inv : ∃ F, Inv cfg s F (Rof cfg s.base O) nothing

/-- The pool as `check_buddy_pool_full` wants it: every list below the top order is an
empty self-loop with tag `BLOCK_UNUSED` and its own order, and `avail[kval_m]` holds the
block at `base`, tagged `BLOCK_AVAIL`, and nothing else. -/
def IsFull (cfg : Config) (s : Pool) : Prop :=
  (∀ i, i < s.kval_m →
    (s.hdr (Ptr.sentinel i)).next = Ptr.sentinel i ∧
    (s.hdr (Ptr.sentinel i)).prev = Ptr.sentinel i ∧
    (s.hdr (Ptr.sentinel i)).tag = cfg.BLOCK_UNUSED ∧
    (s.hdr (Ptr.sentinel i)).kval = i) ∧
  (s.hdr (Ptr.sentinel s.kval_m)).next = Ptr.block s.base ∧
  (s.hdr (Ptr.sentinel s.kval_m)).prev = Ptr.block s.base ∧
  (s.hdr (Ptr.block s.base)).tag = cfg.BLOCK_AVAIL ∧
  (s.hdr (Ptr.block s.base)).next = Ptr.sentinel s.kval_m ∧
  (s.hdr (Ptr.block s.base)).prev = Ptr.sentinel s.kval_m

/-- A fresh pool of 2 ^ 20 bytes mapped at address 4096, under the stock constants. -/
def pool0 : Pool :=
  (buddy_init cfg0 (some 4096) (2 ^ 20)).getD ⟨0, 0, 0, fun _ => Avail.zero, fun _ => none⟩

/-- The state and the result of `buddy_malloc` on a state, when it returns; the state
itself and `NULL` otherwise. -/
def run_malloc (cfg : Config) (s : Pool) (n : Nat) : Result :=
  (buddy_malloc cfg s PoolPtr.valid n).getD ⟨s, none, none⟩

/-- The call `buddy_free(pool, p)` on a state. -/
def run_free (cfg : Config) (s : Pool) (p : Nat) : Pool :=
  buddy_free cfg s PoolPtr.valid (some p)

/-- The fresh pool `pool0` after four calls `buddy_malloc(pool, 1)`, which return 4120,
4184, 4248 and 4312, and the calls `buddy_free(pool, 4248)` and `buddy_free(pool, 4184)`. -/
def pool_gap : Pool :=
  let s1 := (run_malloc cfg0 pool0 1).pool
  let s2 := (run_malloc cfg0 s1 1).pool
  let s3 := (run_malloc cfg0 s2 1).pool
  let s4 := (run_malloc cfg0 s3 1).pool
  run_free cfg0 (run_free cfg0 s4 4248) 4184

/-- The value of the local variable `min_req` of `buddy_realloc(pool, p, size)`. -/
def min_req (cfg : Config) (s : Pool) (p : Nat) : Nat :=
  if (s.hdr (Ptr.block (p - cfg.sizeof_avail))).kval > 0 then
    (2 ^ ((s.hdr (Ptr.block (p - cfg.sizeof_avail))).kval - 1) + 2 ^ 64 - cfg.sizeof_avail + 1)
      % 2 ^ 64
  else 0

/-- A fresh pool of 2 ^ 20 bytes mapped at the address 2 ^ 20, under the stock constants. -/
def pool_aligned : Pool :=
  (buddy_init cfg0 (some (2 ^ 20)) (2 ^ 20)).getD ⟨0, 0, 0, fun _ => Avail.zero, fun _ => none⟩

/-- The fresh pool `pool0` after `buddy_malloc` of 1, 1, 100, 100 and 100 bytes, which
return 4120, 4184, 4248, 4376 and 4504, and the calls `buddy_free(pool, 4248)` and
`buddy_free(pool, 4184)`: the blocks at offsets 64 (order 6) and 128 (order 7) are free,
the block at offset 256 (order 7, payload 4376) is reserved. -/
def pool_resize : Pool :=
  let s1 := (run_malloc cfg0 pool0 1).pool
  let s2 := (run_malloc cfg0 s1 1).pool
  let s3 := (run_malloc cfg0 s2 100).pool
  let s4 := (run_malloc cfg0 s3 100).pool
  let s5 := (run_malloc cfg0 s4 100).pool
  run_free cfg0 (run_free cfg0 s5 4248) 4184

/-- The state that `buddy_init` leaves for a region mapped at `base`, as the loop and the
stores of lines 227-245 build it: `numbytes` is `2 ^ kval_m`, every list below the top
order is an empty self-loop, every sentinel has tag `BLOCK_UNUSED` and its own order, and
`avail[kval_m]` holds one element, the block at `base`, with tag `BLOCK_AVAIL`, the top
order, and both links on the sentinel. -/
def InitPost (cfg : Config) (base : Nat) (s : Pool) : Prop :=
  s.base = base ∧ s.numbytes = 2 ^ s.kval_m ∧
  (∀ i, i < s.kval_m →
    (s.hdr (Ptr.sentinel i)).next = Ptr.sentinel i ∧
    (s.hdr (Ptr.sentinel i)).prev = Ptr.sentinel i ∧
    (s.hdr (Ptr.sentinel i)).tag = cfg.BLOCK_UNUSED ∧
    (s.hdr (Ptr.sentinel i)).kval = i) ∧
  (s.hdr (Ptr.sentinel s.kval_m)).tag = cfg.BLOCK_UNUSED ∧
  (s.hdr (Ptr.sentinel s.kval_m)).kval = s.kval_m ∧
  (s.hdr (Ptr.sentinel s.kval_m)).next = Ptr.block base ∧
  (s.hdr (Ptr.sentinel s.kval_m)).prev = Ptr.block base ∧
  (s.hdr (Ptr.block base)).tag = cfg.BLOCK_AVAIL ∧
  (s.hdr (Ptr.block base)).kval = s.kval_m ∧
  (s.hdr (Ptr.block base)).next = Ptr.sentinel s.kval_m ∧
  (s.hdr (Ptr.block base)).prev = Ptr.sentinel s.kval_m

/-- The state and the result of `buddy_realloc` on a state, when it returns; the state
itself and `NULL` otherwise. -/
def run_realloc (cfg : Config) (s : Pool) (p n : Nat) : Result :=
  (buddy_realloc cfg s PoolPtr.valid (some p) n).getD ⟨s, none, none⟩

/-- The states a program reaches when it also calls `buddy_realloc` on outstanding
payloads.  A resize that returns its argument or `NULL` keeps the outstanding
allocations; a resize that returns another payload `q` replaces the old allocation by
`(q, n)`, and is followed here only when `n + sizeof(struct avail)` does not wrap, since
otherwise its `memcpy` runs past the block of `q`.  The calls `buddy_realloc(pool, p, 0)`
and `buddy_realloc(pool, NULL, n)` leave the states of `buddy_free(pool, p)` and
`buddy_malloc(pool, n)`. -/
inductive ReachR (cfg : Config) : Pool → List (Nat × Nat) → Prop where
  | init (base size : Nat) (s : Pool) :
      buddy_init cfg (some base) size = some s → mapped base s.numbytes → ReachR cfg s []
  | malloc (s : Pool) (O : List (Nat × Nat)) (n p : Nat) (r : Result) :
      ReachR cfg s O → buddy_malloc cfg s PoolPtr.valid n = some r → r.ret = some p →
      ReachR cfg r.pool ((p, n) :: O)
  | malloc_null (s : Pool) (O : List (Nat × Nat)) (n : Nat) (r : Result) :
      ReachR cfg s O → buddy_malloc cfg s PoolPtr.valid n = some r → r.ret = none →
      ReachR cfg r.pool O
  | free (s : Pool) (O : List (Nat × Nat)) (p n : Nat) :
      ReachR cfg s O → (p, n) ∈ O →
      ReachR cfg (buddy_free cfg s PoolPtr.valid (some p)) (O.erase (p, n))
  | realloc_keep (s : Pool) (O : List (Nat × Nat)) (p n0 n : Nat) (r : Result) :
      ReachR cfg s O → (p, n0) ∈ O →
      buddy_realloc cfg s PoolPtr.valid (some p) n = some r → r.ret = some p →
      ReachR cfg r.pool O
  | realloc_null (s : Pool) (O : List (Nat × Nat)) (p n0 n : Nat) (r : Result) :
      ReachR cfg s O → (p, n0) ∈ O → n ≠ 0 →
      buddy_realloc cfg s PoolPtr.valid (some p) n = some r → r.ret = none →
      ReachR cfg r.pool O
  | realloc_move (s : Pool) (O : List (Nat × Nat)) (p n0 n q : Nat) (r : Result) :
      ReachR cfg s O → (p, n0) ∈ O → n + cfg.sizeof_avail < 2 ^ 64 →
      buddy_realloc cfg s PoolPtr.valid (some p) n = some r → r.ret = some q → q ≠ p →
      ReachR cfg r.pool ((q, n) :: O.erase (p, n0))

/-- The blocks of a state whose free lists hold the offsets `F` and whose outstanding
allocations are `O`: the block of order `k` at offset `o` is on the list `avail[k]`, or
it is the block of an outstanding payload and its header holds the order `k`. -/
def PoolBlock (cfg : Config) (s : Pool) (O : List (Nat × Nat)) (F : Nat → List Nat)
    (o k : Nat) : Prop :=
  o ∈ F k ∨ ((∃ n, (s.base + o + cfg.sizeof_avail, n) ∈ O) ∧ (s.hdr (s.blk o)).kval = k)

/-- The number of rounds the search loop of `buddy_malloc` (lines 78-86) makes from order
`k` on, the round that leaves by `break` included; `none` when the counter of the
recursion runs out before the loop has ended. -/
def malloc_scan_rounds (s : Pool) : Nat → Nat → Option Nat
  | 0, _ => none
  | fuel + 1, k =>
    if k ≤ s.kval_m then
      let sentinel := Ptr.sentinel k
      if (s.hdr sentinel).next ≠ sentinel then some 1
      else (malloc_scan_rounds s fuel (k + 1)).map Nat.succ
    else some 0

/-- The number of rounds the split loop of `buddy_malloc` (lines 93-108) makes; `none`
when the counter of the recursion runs out before the loop has ended. -/
def malloc_split_rounds (cfg : Config) (block : Ptr) (needed_k : Nat) :
    Nat → Pool → Option Nat
  | 0, _ => none
  | fuel + 1, s =>
    if (s.hdr block).kval > needed_k then
      let s1 := s.set_kval cfg block ((s.hdr block).kval - 1)
      let new_k := (s1.hdr block).kval
      let buddy := block.add (2 ^ new_k)
      let s2 := s1.set_tag cfg buddy cfg.BLOCK_AVAIL
      let s3 := s2.set_kval cfg buddy new_k
      (malloc_split_rounds cfg block needed_k fuel (list_push cfg s3 new_k buddy)).map Nat.succ
    else some 0

/-- The number of rounds the coalescing loop of `buddy_free` (lines 125-140) makes, the
round that leaves by `break` included; `none` when the counter of the recursion runs out
before the loop has ended. -/
def free_loop_rounds (cfg : Config) : Nat → Pool → Ptr → Option Nat
  | 0, _, _ => none
  | fuel + 1, s, block =>
    if (s.hdr block).kval < s.kval_m then
      let buddy := buddy_calc s PoolPtr.valid block
      if (s.hdr buddy).tag ≠ cfg.BLOCK_AVAIL ∨ (s.hdr buddy).kval ≠ (s.hdr block).kval then
        some 1
      else
        let s1 := list_unlink cfg s buddy
        let block1 := if buddy.below block then buddy else block
        (free_loop_rounds cfg fuel (s1.set_kval cfg block1 ((s1.hdr block1).kval + 1))
          block1).map Nat.succ
    else some 0

/-- The loop of `btok` as a machine runs it whose shift instruction takes the count
modulo 64 (x86-64, AArch64), which is what the undefined `UINT64_C(1) << 64` comes to
when the loop is compiled as written; `k_val` is a `size_t` and wraps at `2 ^ 64`.
`none` when the counter of the recursion runs out before the loop has ended. -/
def btok_loop_masked (bytes : Nat) : Nat → Nat → Option Nat
  | 0, _ => none
  | fuel + 1, k_val =>
    if bytes > 2 ^ (k_val % 64) then btok_loop_masked bytes fuel ((k_val + 1) % 2 ^ 64)
    else some k_val

/-- The order `needed_k` of the specification, `max(SMALLEST_K, k)` for the smallest `k`
with `2 ^ k >= n + sizeof(struct avail)`: the smallest order at or above the allocation
floor whose block holds the header and `n` payload bytes.  The sum is that of the
integers and does not wrap. -/
def needed_k_spec (cfg : Config) (n : Nat) : Nat :=
  max cfg.SMALLEST_K (Nat.clog 2 (n + cfg.sizeof_avail))

/-! ## Arithmetic of aligned blocks -/

theorem xor_one_eq (m : Nat) : m ^^^ 1 = if m % 2 = 0 then m + 1 else m - 1 := by
  have h1 : (m ^^^ 1) / 2 = m / 2 := by simp [Nat.xor_div_two]
  have h2 := @Nat.xor_mod_two_eq_one m 1
  split <;> omega

theorem two_pow_mul_xor (k m : Nat) : (2 ^ k * m) ^^^ 2 ^ k = 2 ^ k * (m ^^^ 1) := by
  apply Nat.eq_of_testBit_eq
  intro j
  rw [Nat.testBit_xor, Nat.testBit_mul_pow_two, Nat.testBit_mul_pow_two, Nat.testBit_xor,
    Nat.testBit_two_pow]
  by_cases h : k ≤ j
  · by_cases h2 : k = j
    · subst h2; simp
    · have : j - k ≠ 0 := by omega
      have h3 : Nat.testBit 1 (j - k) = false := by
        rw [show (1 : Nat) = 2 ^ 0 by rfl, Nat.testBit_two_pow]; simpa using Ne.symm this
      simp [h, h2, h3]
  · have h2 : ¬ k = j := by omega
    simp [h, h2]

theorem bud_cases (o k : Nat) (h : 2 ^ k ∣ o) :
    (2 ^ (k + 1) ∣ o ∧ bud o k = o + 2 ^ k) ∨
    (2 ^ k ≤ o ∧ 2 ^ (k + 1) ∣ (o - 2 ^ k) ∧ bud o k = o - 2 ^ k) := by
  obtain ⟨m, rfl⟩ := h
  unfold bud
  rw [two_pow_mul_xor, xor_one_eq]
  have hP : 0 < 2 ^ k := Nat.two_pow_pos _
  split
  · left
    refine ⟨⟨m / 2, ?_⟩, by ring⟩
    have : m = 2 * (m / 2) := by omega
    rw [pow_succ]; nth_rewrite 1 [this]; ring
  · right
    have hm : 1 ≤ m := by omega
    obtain ⟨c, rfl⟩ : ∃ c, m = c + 1 := ⟨m - 1, by omega⟩
    refine ⟨by nlinarith, ?_, ?_⟩
    · have h1 : 2 ^ k * (c + 1) - 2 ^ k = 2 ^ k * c := by
        rw [Nat.mul_succ]; omega
      rw [h1]
      refine ⟨c / 2, ?_⟩
      have : c = 2 * (c / 2) := by omega
      rw [pow_succ]; nth_rewrite 1 [this]; ring
    · simp only [Nat.add_sub_cancel]
      rw [Nat.mul_succ]; omega

theorem dyadic_nested {k k2 o o2 : Nat} (hk : k ≤ k2) (ha : 2 ^ k ∣ o) (ha2 : 2 ^ k2 ∣ o2)
    (h1 : o < o2 + 2 ^ k2) (h2 : o2 < o + 2 ^ k) : o2 ≤ o ∧ o + 2 ^ k ≤ o2 + 2 ^ k2 := by
  obtain ⟨d, rfl⟩ : ∃ d, k2 = k + d := ⟨k2 - k, by omega⟩
  obtain ⟨a, rfl⟩ := ha
  obtain ⟨c, rfl⟩ := ha2
  have hP : 0 < 2 ^ k := Nat.two_pow_pos _
  rw [pow_add] at *
  generalize 2 ^ k = P at *
  generalize 2 ^ d = M at *
  have e1 : P * M * c + P * M = P * (M * c + M) := by ring
  have e2 : P * a + P = P * (a + 1) := by ring
  have e3 : P * M * c = P * (M * c) := by ring
  rw [e1] at h1
  rw [e2, e3] at h2
  have g1 := Nat.lt_of_mul_lt_mul_left h1
  have g2 := Nat.lt_of_mul_lt_mul_left h2
  rw [e1, e2, e3]
  exact ⟨Nat.mul_le_mul_left _ (by omega), Nat.mul_le_mul_left _ (by omega)⟩

theorem aligned_fit {j K m : Nat} (hd : 2 ^ j ∣ m) (hj : j ≤ K) (hm : m < 2 ^ K) :
    m + 2 ^ j ≤ 2 ^ K := by
  have h := @dyadic_nested j K m 0 hj hd (dvd_zero _) (by simpa using hm)
    (Nat.add_pos_right _ (Nat.two_pow_pos _))
  simpa using h.2

theorem bud_bud (o k : Nat) : bud (bud o k) k = o := by
  unfold bud
  rw [Nat.xor_assoc, Nat.xor_self, Nat.xor_zero]

theorem bud_spec {o k K : Nat} (ha : 2 ^ k ∣ o) (hin : o + 2 ^ k ≤ 2 ^ K) (hk : k < K) :
    ∃ m, 2 ^ (k + 1) ∣ m ∧ m + 2 ^ (k + 1) ≤ 2 ^ K ∧ 2 ^ k ∣ bud o k ∧
      ((o = m ∧ bud o k = m + 2 ^ k) ∨ (bud o k = m ∧ o = m + 2 ^ k)) := by
  have hP : 0 < 2 ^ k := Nat.two_pow_pos _
  have hS : 2 ^ (k + 1) = 2 * 2 ^ k := by rw [pow_succ]; ring
  have hdk : (2 : Nat) ^ k ∣ 2 ^ (k + 1) := ⟨2, by rw [hS]; ring⟩
  rcases bud_cases o k ha with ⟨h1, h2⟩ | ⟨h0, h1, h2⟩
  · refine ⟨o, h1, aligned_fit h1 (by omega) (by omega), ?_, Or.inl ⟨rfl, h2⟩⟩
    rw [h2]; exact Dvd.dvd.add ha (dvd_refl _)
  · refine ⟨o - 2 ^ k, h1, aligned_fit h1 (by omega) (by omega), ?_, Or.inr ⟨h2, by omega⟩⟩
    rw [h2]; exact Dvd.dvd.trans hdk h1

theorem Tiling.buddy_block {K : Nat} {B : Nat → Nat → Prop} (ht : Tiling K B) {o k : Nat}
    (hb : B o k) (hk : k < K) : ∃ k2, k2 ≤ k ∧ B (bud o k) k2 := by
  obtain ⟨ha, hin⟩ := ht.aligned o k hb
  obtain ⟨m, hm1, hm2, hm3, hm4⟩ := bud_spec ha hin hk
  have hP : 0 < 2 ^ k := Nat.two_pow_pos _
  have hS : 2 ^ (k + 1) = 2 * 2 ^ k := by rw [pow_succ]; ring
  obtain ⟨o2, k2, hb2, hl, hr⟩ := ht.cover (bud o k) (by omega)
  obtain ⟨ha2, hin2⟩ := ht.aligned o2 k2 hb2
  by_cases hle : k2 ≤ k
  · have h := dyadic_nested hle ha2 hm3 (by omega) (by omega)
    have : o2 = bud o k := by omega
    exact ⟨k2, hle, this ▸ hb2⟩
  · exfalso
    have h := @dyadic_nested (k + 1) k2 m o2 (by omega) hm1 ha2 (by omega) (by omega)
    have hd := ht.disjoint o k o2 k2 hb hb2 (Or.inr (by omega))
    omega

theorem Tiling.merge_blocks {K : Nat} {B B2 : Nat → Nat → Prop} (ht : Tiling K B) {o k : Nat}
    (hb : B o k) (hb2 : B (bud o k) k) (hk : k < K)
    (hB : ∀ x j, B2 x j ↔ (B x j ∧ ¬ (x = o ∧ j = k) ∧ ¬ (x = bud o k ∧ j = k)) ∨
      (x = min o (bud o k) ∧ j = k + 1)) : Tiling K B2 := by
  obtain ⟨ha, hin⟩ := ht.aligned o k hb
  obtain ⟨m, hm1, hm2, hm3, hm4⟩ := bud_spec ha hin hk
  have hP : 0 < 2 ^ k := Nat.two_pow_pos _
  have hS : 2 ^ (k + 1) = 2 * 2 ^ k := by rw [pow_succ]; ring
  have hmin : min o (bud o k) = m := by omega
  rw [hmin] at hB
  have key : ∀ x j, B x j → ¬ (x = o ∧ j = k) → ¬ (x = bud o k ∧ j = k) →
      x + 2 ^ j ≤ m ∨ m + 2 ^ (k + 1) ≤ x := by
    intro x j hx n1 n2
    have hJ : 0 < 2 ^ j := Nat.two_pow_pos _
    have d1 := ht.disjoint o k x j hb hx (by omega)
    have d2 := ht.disjoint (bud o k) k x j hb2 hx (by omega)
    omega
  constructor
  · intro x j hx
    rcases (hB x j).1 hx with ⟨h1, -, -⟩ | ⟨rfl, rfl⟩
    · exact ht.aligned x j h1
    · exact ⟨hm1, hm2⟩
  · intro x j x2 j2 hx hx2 hne
    rcases (hB x j).1 hx with ⟨h1, n1, n2⟩ | ⟨rfl, rfl⟩
    · rcases (hB x2 j2).1 hx2 with ⟨h3, n3, n4⟩ | ⟨rfl, rfl⟩
      · exact ht.disjoint x j x2 j2 h1 h3 hne
      · exact key x j h1 n1 n2
    · rcases (hB x2 j2).1 hx2 with ⟨h3, n3, n4⟩ | ⟨rfl, rfl⟩
      · have := key x2 j2 h3 n3 n4
        omega
      · omega
  · intro x hx
    obtain ⟨o2, k2, h2, hl, hr⟩ := ht.cover x hx
    by_cases c1 : o2 = o ∧ k2 = k
    · obtain ⟨e1, e2⟩ := c1
      subst e2
      exact ⟨m, k2 + 1, (hB _ _).2 (Or.inr ⟨rfl, rfl⟩), by omega, by omega⟩
    · by_cases c2 : o2 = bud o k ∧ k2 = k
      · obtain ⟨e1, e2⟩ := c2
        subst e2
        exact ⟨m, k2 + 1, (hB _ _).2 (Or.inr ⟨rfl, rfl⟩), by omega, by omega⟩
      · exact ⟨o2, k2, (hB _ _).2 (Or.inl ⟨h2, c1, c2⟩), hl, hr⟩

theorem Tiling.split_block {K : Nat} {B B2 : Nat → Nat → Prop} (ht : Tiling K B) {o k : Nat}
    (hb : B o (k + 1))
    (hB : ∀ x j, B2 x j ↔ (B x j ∧ ¬ (x = o ∧ j = k + 1)) ∨ (x = o ∧ j = k) ∨
      (x = o + 2 ^ k ∧ j = k)) : Tiling K B2 := by
  obtain ⟨ha, hin⟩ := ht.aligned o (k + 1) hb
  have hP : 0 < 2 ^ k := Nat.two_pow_pos _
  have hS : 2 ^ (k + 1) = 2 * 2 ^ k := by rw [pow_succ]; ring
  have hdk : (2 : Nat) ^ k ∣ 2 ^ (k + 1) := ⟨2, by rw [hS]; ring⟩
  have key : ∀ x j, B x j → ¬ (x = o ∧ j = k + 1) →
      x + 2 ^ j ≤ o ∨ o + 2 ^ (k + 1) ≤ x := by
    intro x j hx n1
    have d1 := ht.disjoint o (k + 1) x j hb hx (by omega)
    omega
  constructor
  · intro x j hx
    rcases (hB x j).1 hx with ⟨h1, -⟩ | ⟨rfl, rfl⟩ | ⟨rfl, rfl⟩
    · exact ht.aligned x j h1
    · exact ⟨Dvd.dvd.trans hdk ha, by omega⟩
    · exact ⟨Dvd.dvd.add (Dvd.dvd.trans hdk ha) (dvd_refl _), by omega⟩
  · intro x j x2 j2 hx hx2 hne
    have hJ : 0 < 2 ^ j := Nat.two_pow_pos _
    have hJ2 : 0 < 2 ^ j2 := Nat.two_pow_pos _
    rcases (hB x j).1 hx with ⟨h1, n1⟩ | ⟨rfl, rfl⟩ | ⟨rfl, rfl⟩ <;>
    rcases (hB x2 j2).1 hx2 with ⟨h3, n3⟩ | ⟨rfl, rfl⟩ | ⟨rfl, rfl⟩
    · exact ht.disjoint x j x2 j2 h1 h3 hne
    · have := key x j h1 n1; omega
    · have := key x j h1 n1; omega
    · have := key x2 j2 h3 n3; omega
    · omega
    · omega
    · have := key x2 j2 h3 n3; omega
    · omega
    · omega
  · intro x hx
    obtain ⟨o2, k2, h2, hl, hr⟩ := ht.cover x hx
    by_cases c1 : o2 = o ∧ k2 = k + 1
    · obtain ⟨rfl, rfl⟩ := c1
      by_cases c2 : x < o2 + 2 ^ k
      · exact ⟨o2, k, (hB _ _).2 (Or.inr (Or.inl ⟨rfl, rfl⟩)), hl, c2⟩
      · exact ⟨o2 + 2 ^ k, k, (hB _ _).2 (Or.inr (Or.inr ⟨rfl, rfl⟩)), by omega, by omega⟩
    · exact ⟨o2, k2, (hB _ _).2 (Or.inl ⟨h2, c1⟩), hl, hr⟩

theorem Tiling.no_small {K : Nat} {B : Nat → Nat → Prop} (ht : Tiling K B)
    (hn : ∀ o k, B o k → k < K → ¬ B (bud o k) k) :
    ∀ n o k, B o k → k < K → k ≤ n → False := by
  intro n
  induction n with
  | zero =>
    intro o k hb hk hle
    obtain ⟨k2, h1, h2⟩ := ht.buddy_block hb hk
    have : k2 = k := by omega
    exact hn o k hb hk (this ▸ h2)
  | succ n ih =>
    intro o k hb hk hle
    obtain ⟨k2, h1, h2⟩ := ht.buddy_block hb hk
    by_cases h : k2 = k
    · exact hn o k hb hk (h ▸ h2)
    · exact ih _ k2 h2 (by omega) (by omega)

theorem Tiling.whole {K : Nat} {B : Nat → Nat → Prop} (ht : Tiling K B)
    (hn : ∀ o k, B o k → k < K → ¬ B (bud o k) k) :
    B 0 K ∧ ∀ o k, B o k → o = 0 ∧ k = K := by
  have all : ∀ o k, B o k → o = 0 ∧ k = K := by
    intro o k hb
    have h1 : ¬ k < K := fun h => ht.no_small hn k o k hb h (le_refl _)
    obtain ⟨-, hin⟩ := ht.aligned o k hb
    have h2 : 2 ^ K ≤ 2 ^ k := Nat.pow_le_pow_right (by norm_num) (by omega)
    have hP : 0 < 2 ^ k := Nat.two_pow_pos _
    have h3 : 2 ^ k = 2 ^ K := by omega
    have h4 : k = K := Nat.pow_right_injective (le_refl 2) h3
    exact ⟨by omega, h4⟩
  obtain ⟨o, k, hb, -, -⟩ := ht.cover 0 (Nat.two_pow_pos _)
  obtain ⟨rfl, rfl⟩ := all o k hb
  exact ⟨hb, all⟩

/-! ## Header stores -/

section stores
variable (cfg : Config) (s : Pool) (p q v : Ptr) (n : Nat)

@[simp] theorem set_next_base : (s.set_next cfg p v).base = s.base := rfl
@[simp] theorem set_prev_base : (s.set_prev cfg p v).base = s.base := rfl
@[simp] theorem set_tag_base : (s.set_tag cfg p n).base = s.base := rfl
@[simp] theorem set_kval_base : (s.set_kval cfg p n).base = s.base := rfl
@[simp] theorem set_next_kval_m : (s.set_next cfg p v).kval_m = s.kval_m := rfl
@[simp] theorem set_prev_kval_m : (s.set_prev cfg p v).kval_m = s.kval_m := rfl
@[simp] theorem set_tag_kval_m : (s.set_tag cfg p n).kval_m = s.kval_m := rfl
@[simp] theorem set_kval_kval_m : (s.set_kval cfg p n).kval_m = s.kval_m := rfl

@[simp] theorem set_next_next :
    ((s.set_next cfg p v).hdr q).next = if q = p then v else (s.hdr q).next := by
  unfold Pool.set_next Pool.store; dsimp only; split <;> simp_all
@[simp] theorem set_next_prev : ((s.set_next cfg p v).hdr q).prev = (s.hdr q).prev := by
  unfold Pool.set_next Pool.store; dsimp only; split <;> simp_all
@[simp] theorem set_next_tag : ((s.set_next cfg p v).hdr q).tag = (s.hdr q).tag := by
  unfold Pool.set_next Pool.store; dsimp only; split <;> simp_all
@[simp] theorem set_next_kval : ((s.set_next cfg p v).hdr q).kval = (s.hdr q).kval := by
  unfold Pool.set_next Pool.store; dsimp only; split <;> simp_all

@[simp] theorem set_prev_prev :
    ((s.set_prev cfg p v).hdr q).prev = if q = p then v else (s.hdr q).prev := by
  unfold Pool.set_prev Pool.store; dsimp only; split <;> simp_all
@[simp] theorem set_prev_next : ((s.set_prev cfg p v).hdr q).next = (s.hdr q).next := by
  unfold Pool.set_prev Pool.store; dsimp only; split <;> simp_all
@[simp] theorem set_prev_tag : ((s.set_prev cfg p v).hdr q).tag = (s.hdr q).tag := by
  unfold Pool.set_prev Pool.store; dsimp only; split <;> simp_all
@[simp] theorem set_prev_kval : ((s.set_prev cfg p v).hdr q).kval = (s.hdr q).kval := by
  unfold Pool.set_prev Pool.store; dsimp only; split <;> simp_all

@[simp] theorem set_tag_tag :
    ((s.set_tag cfg p n).hdr q).tag = if q = p then n else (s.hdr q).tag := by
  unfold Pool.set_tag Pool.store; dsimp only; split <;> simp_all
@[simp] theorem set_tag_next : ((s.set_tag cfg p n).hdr q).next = (s.hdr q).next := by
  unfold Pool.set_tag Pool.store; dsimp only; split <;> simp_all
@[simp] theorem set_tag_prev : ((s.set_tag cfg p n).hdr q).prev = (s.hdr q).prev := by
  unfold Pool.set_tag Pool.store; dsimp only; split <;> simp_all
@[simp] theorem set_tag_kval : ((s.set_tag cfg p n).hdr q).kval = (s.hdr q).kval := by
  unfold Pool.set_tag Pool.store; dsimp only; split <;> simp_all

@[simp] theorem set_kval_kval :
    ((s.set_kval cfg p n).hdr q).kval = if q = p then n else (s.hdr q).kval := by
  unfold Pool.set_kval Pool.store; dsimp only; split <;> simp_all
@[simp] theorem set_kval_next : ((s.set_kval cfg p n).hdr q).next = (s.hdr q).next := by
  unfold Pool.set_kval Pool.store; dsimp only; split <;> simp_all
@[simp] theorem set_kval_prev : ((s.set_kval cfg p n).hdr q).prev = (s.hdr q).prev := by
  unfold Pool.set_kval Pool.store; dsimp only; split <;> simp_all
@[simp] theorem set_kval_tag : ((s.set_kval cfg p n).hdr q).tag = (s.hdr q).tag := by
  unfold Pool.set_kval Pool.store; dsimp only; split <;> simp_all

@[simp] theorem list_unlink_base : (list_unlink cfg s p).base = s.base := rfl
@[simp] theorem list_unlink_kval_m : (list_unlink cfg s p).kval_m = s.kval_m := rfl
@[simp] theorem list_push_base : (list_push cfg s n p).base = s.base := rfl
@[simp] theorem list_push_kval_m : (list_push cfg s n p).kval_m = s.kval_m := rfl

theorem list_unlink_next : ((list_unlink cfg s p).hdr q).next =
    if q = (s.hdr p).prev then (s.hdr p).next else (s.hdr q).next := by
  simp [list_unlink]
theorem list_unlink_prev : ((list_unlink cfg s p).hdr q).prev =
    if q = (s.hdr p).next then (s.hdr p).prev else (s.hdr q).prev := by
  simp only [list_unlink, set_prev_prev, set_next_next, set_next_prev, ite_self]
@[simp] theorem list_unlink_tag : ((list_unlink cfg s p).hdr q).tag = (s.hdr q).tag := by
  simp [list_unlink]
@[simp] theorem list_unlink_kval : ((list_unlink cfg s p).hdr q).kval = (s.hdr q).kval := by
  simp [list_unlink]

@[simp] theorem list_push_tag : ((list_push cfg s n p).hdr q).tag = (s.hdr q).tag := by
  simp [list_push]
@[simp] theorem list_push_kval : ((list_push cfg s n p).hdr q).kval = (s.hdr q).kval := by
  simp [list_push]

end stores

theorem list_push_next (cfg : Config) (s : Pool) (k a : Nat) (q : Ptr) :
    ((list_push cfg s k (Ptr.block a)).hdr q).next =
      if q = Ptr.sentinel k then Ptr.block a
      else if q = Ptr.block a then (s.hdr (Ptr.sentinel k)).next else (s.hdr q).next := by
  simp [list_push]

theorem list_push_prev (cfg : Config) (s : Pool) (k a : Nat) (q : Ptr) :
    ((list_push cfg s k (Ptr.block a)).hdr q).prev =
      if q = (s.hdr (Ptr.sentinel k)).next then Ptr.block a
      else if q = Ptr.block a then Ptr.sentinel k else (s.hdr q).prev := by
  simp [list_push]

/-! ## Doubly linked lists -/

theorem Seg.frame {s s2 : Pool} : ∀ (l : List Ptr) (x y : Ptr),
    (∀ q, (q = x ∨ q ∈ l) → (s2.hdr q).next = (s.hdr q).next) →
    (∀ q, (q ∈ l ∨ q = y) → (s2.hdr q).prev = (s.hdr q).prev) →
    Seg s x l y → Seg s2 x l y := by
  intro l
  induction l with
  | nil =>
    intro x y hn hp h
    exact ⟨(hn x (Or.inl rfl)).trans h.1, (hp y (Or.inr rfl)).trans h.2⟩
  | cons a l ih =>
    intro x y hn hp h
    refine ⟨(hn x (Or.inl rfl)).trans h.1, (hp a (Or.inl (List.mem_cons_self _ _))).trans h.2.1,
      ih a y ?_ ?_ h.2.2⟩
    · intro q hq
      exact hn q (Or.inr (by rcases hq with rfl | hq <;> simp [*]))
    · intro q hq
      exact hp q (by rcases hq with hq | rfl <;> simp [*])

theorem seg_unlink (cfg : Config) (s : Pool) (a y : Ptr) (l2 : List Ptr) :
    ∀ (l1 : List Ptr) (x : Ptr), Seg s x (l1 ++ a :: l2) y →
      (x :: (l1 ++ a :: l2)).Nodup → y ∉ l1 ++ a :: l2 →
      (s.hdr a).prev ∈ x :: l1 ∧ (s.hdr a).next ∈ l2 ++ [y] ∧
        Seg (list_unlink cfg s a) x (l1 ++ l2) y := by
  intro l1
  induction l1 with
  | nil =>
    intro x h hnd hy
    simp only [List.nil_append] at *
    obtain ⟨hxa, hax, hrest⟩ := h
    refine ⟨by simp [hax], ?_⟩
    cases l2 with
    | nil =>
      obtain ⟨h1, h2⟩ := hrest
      refine ⟨by simp [h1], ?_, ?_⟩
      · rw [list_unlink_next]; simp [hax, h1]
      · rw [list_unlink_prev]; simp [hax, h1]
    | cons c l2 =>
      obtain ⟨h1, h2, h3⟩ := hrest
      simp only [List.nodup_cons, List.mem_cons, not_or] at hnd hy
      refine ⟨by simp [h1], ?_, ?_, ?_⟩
      · rw [list_unlink_next]; simp [hax, h1]
      · rw [list_unlink_prev]; simp [hax, h1]
      · refine Seg.frame l2 c y ?_ ?_ h3
        · intro q hq
          rw [list_unlink_next, hax, if_neg]
          rcases hq with rfl | hq
          · exact fun h => hnd.1.2.1 h.symm
          · exact fun h => hnd.1.2.2 (h ▸ hq)
        · intro q hq
          rw [list_unlink_prev, h1, if_neg]
          rcases hq with hq | rfl
          · exact fun h => hnd.2.2.1 (h ▸ hq)
          · exact hy.2.1
  | cons d l1 ih =>
    intro x h hnd hy
    obtain ⟨hxd, hdx, hrest⟩ := h
    have hnd2 : (d :: (l1 ++ a :: l2)).Nodup := (List.nodup_cons.1 hnd).2
    have hy2 : y ∉ l1 ++ a :: l2 := fun h => hy (List.mem_cons_of_mem _ h)
    obtain ⟨h1, h2, h3⟩ := ih d hrest hnd2 hy2
    refine ⟨List.mem_cons_of_mem _ h1, h2, ?_, ?_, h3⟩
    · rw [list_unlink_next, if_neg, hxd]
      intro hx
      have hxn := (List.nodup_cons.1 hnd).1
      apply hxn
      rw [hx]
      rcases List.mem_cons.1 h1 with h | h
      · simp [h]
      · simp [h]
    · rw [list_unlink_prev, if_neg, hdx]
      intro hx
      rcases List.mem_append.1 h2 with h | h
      · have := (List.nodup_cons.1 hnd2).1
        apply this
        rw [hx]; simp [h]
      · simp only [List.mem_singleton] at h
        apply hy
        rw [← h, ← hx]; simp

theorem seg_push (cfg : Config) (s : Pool) (k a : Nat) (l : List Ptr)
    (h : Seg s (Ptr.sentinel k) l (Ptr.sentinel k)) (hs : Ptr.sentinel k ∉ l)
    (ha : Ptr.block a ∉ l) (hnd : l.Nodup) :
    Seg (list_push cfg s k (Ptr.block a)) (Ptr.sentinel k) (Ptr.block a :: l)
      (Ptr.sentinel k) := by
  cases l with
  | nil =>
    obtain ⟨h1, h2⟩ := h
    refine ⟨?_, ?_, ?_, ?_⟩
    · rw [list_push_next]; simp
    · rw [list_push_prev]; simp [h1]
    · rw [list_push_next]; simp [h1]
    · rw [list_push_prev]; simp [h1]
  | cons c l =>
    obtain ⟨h1, h2, h3⟩ := h
    simp only [List.mem_cons, not_or, List.nodup_cons] at hs ha hnd
    refine ⟨?_, ?_, ?_, ?_, ?_⟩
    · rw [list_push_next]; simp
    · rw [list_push_prev]; simp [h1, ha.1]
    · rw [list_push_next]; simp [h1]
    · rw [list_push_prev]; simp [h1]
    · refine Seg.frame l c _ ?_ ?_ h3
      · intro q hq
        rw [list_push_next, if_neg, if_neg]
        · rcases hq with rfl | hq
          · exact fun h => ha.1 h.symm
          · exact fun h => ha.2 (h ▸ hq)
        · rcases hq with rfl | hq
          · exact fun h => hs.1 h.symm
          · exact fun h => hs.2 (h ▸ hq)
      · intro q hq
        rw [list_push_prev, h1, if_neg, if_neg]
        · rcases hq with hq | rfl
          · exact fun h => ha.2 (h ▸ hq)
          · simp
        · rcases hq with hq | rfl
          · exact fun h => hnd.1 (h ▸ hq)
          · exact hs.1

/-! ## The representation invariant -/

@[simp] theorem blk_set_next (cfg : Config) (s : Pool) (p v : Ptr) :
    (s.set_next cfg p v).blk = s.blk := rfl
@[simp] theorem blk_set_prev (cfg : Config) (s : Pool) (p v : Ptr) :
    (s.set_prev cfg p v).blk = s.blk := rfl
@[simp] theorem blk_set_tag (cfg : Config) (s : Pool) (p : Ptr) (n : Nat) :
    (s.set_tag cfg p n).blk = s.blk := rfl
@[simp] theorem blk_set_kval (cfg : Config) (s : Pool) (p : Ptr) (n : Nat) :
    (s.set_kval cfg p n).blk = s.blk := rfl
@[simp] theorem blk_list_unlink (cfg : Config) (s : Pool) (p : Ptr) :
    (list_unlink cfg s p).blk = s.blk := rfl
@[simp] theorem blk_list_push (cfg : Config) (s : Pool) (k : Nat) (p : Ptr) :
    (list_push cfg s k p).blk = s.blk := rfl

@[simp] theorem blk_inj (s : Pool) (a b : Nat) : s.blk a = s.blk b ↔ a = b := by
  simp [Pool.blk]

@[simp] theorem blk_ne_sentinel (s : Pool) (a k : Nat) : s.blk a ≠ Ptr.sentinel k := by
  simp [Pool.blk]

@[simp] theorem sentinel_ne_blk (s : Pool) (a k : Nat) : Ptr.sentinel k ≠ s.blk a := by
  simp [Pool.blk]

theorem mem_map_blk (s : Pool) (l : List Nat) (a : Nat) : s.blk a ∈ l.map s.blk ↔ a ∈ l := by
  simp [List.mem_map]

theorem Tiling.of_iff {K : Nat} {B B2 : Nat → Nat → Prop} (h : ∀ o k, B2 o k ↔ B o k)
    (ht : Tiling K B) : Tiling K B2 := by
  have : B2 = B := by funext o k; exact propext (h o k)
  rw [this]; exact ht

section derived
variable {cfg : Config} {s : Pool} {F : Nat → List Nat} {R T : Nat → Nat → Prop}

theorem Inv.kval_of_blk (h : Inv cfg s F R T) {o k : Nat} (hb : Blk F R T o k) :
    (s.hdr (s.blk o)).kval = k := by
  rcases hb with hb | hb | hb
  · exact (h.free_hdr o k hb).2
  · exact (h.res_hdr o k hb).2
  · exact (h.hand_hdr o k hb).2.1

theorem Inv.unique (h : Inv cfg s F R T) {o k k2 : Nat} (hb : Blk F R T o k)
    (hb2 : Blk F R T o k2) : k = k2 :=
  (h.kval_of_blk hb).symm.trans (h.kval_of_blk hb2)

theorem Inv.le_K (h : Inv cfg s F R T) {o k : Nat} (hb : Blk F R T o k) : k ≤ s.kval_m := by
  obtain ⟨-, hin⟩ := h.tiling.aligned o k hb
  by_contra hlt
  have h2 : 2 ^ (s.kval_m + 1) ≤ 2 ^ k := Nat.pow_le_pow_right (by norm_num) (by omega)
  have hP : 0 < 2 ^ s.kval_m := Nat.two_pow_pos _
  rw [pow_succ] at h2
  omega

theorem Inv.T_notin_F (h : Inv cfg s F R T) {o k : Nat} (hT : T o k) (j : Nat) : o ∉ F j := by
  intro hj
  have := h.unique (Or.inl hj) (Or.inr (Or.inr hT))
  subst this
  exact (h.hand_hdr o j hT).2.2 hj

theorem Inv.F_cross (h : Inv cfg s F R T) {x j j2 : Nat} (h1 : x ∈ F j) (h2 : x ∈ F j2) :
    j = j2 :=
  h.unique (Or.inl h1) (Or.inl h2)

theorem Inv.R_notin_F (h : Inv cfg s F R T) (hne : cfg.BLOCK_AVAIL ≠ cfg.BLOCK_RESERVED)
    {o k : Nat} (hR : R o k) (j : Nat) : o ∉ F j := by
  intro hj
  exact hne ((h.free_hdr o j hj).1.symm.trans (h.res_hdr o k hR).1)

theorem Inv.R_not_T (h : Inv cfg s F R T) (hne : cfg.BLOCK_AVAIL ≠ cfg.BLOCK_RESERVED)
    {o k : Nat} (hR : R o k) (j : Nat) : ¬ T o j := by
  intro hj
  exact hne ((h.hand_hdr o j hj).1.symm.trans (h.res_hdr o k hR).1)

end derived

/-! ## The free lists under unlinking and pushing -/

theorem lists_unlink (cfg : Config) (s : Pool) (F : Nat → List Nat) (k o : Nat)
    (hl : ∀ j, j ≤ s.kval_m → Seg s (Ptr.sentinel j) ((F j).map s.blk) (Ptr.sentinel j))
    (hnd : ∀ j, (F j).Nodup) (hx : ∀ x j j2, x ∈ F j → x ∈ F j2 → j = j2)
    (ho : o ∈ F k) (hk : k ≤ s.kval_m) :
    ∀ j, j ≤ s.kval_m → Seg (list_unlink cfg s (s.blk o)) (Ptr.sentinel j)
      ((Function.update F k ((F k).erase o) j).map s.blk) (Ptr.sentinel j) := by
  obtain ⟨l1, l2, hF⟩ := List.append_of_mem ho
  have hndk := hnd k
  rw [hF] at hndk
  have ho1 : o ∉ l1 := by
    intro h
    have := List.nodup_append.1 hndk
    exact this.2.2 h (List.mem_cons_self _ _)
  have ho2 : o ∉ l2 := by
    have := (List.nodup_append.1 hndk).2.1
    exact (List.nodup_cons.1 this).1
  have herase : (F k).erase o = l1 ++ l2 := by
    rw [hF, List.erase_append_right _ ho1, List.erase_cons_head]
  have hseg := hl k hk
  rw [hF, List.map_append, List.map_cons] at hseg
  have hnodes : (Ptr.sentinel k :: (l1.map s.blk ++ s.blk o :: l2.map s.blk)).Nodup := by
    rw [List.nodup_cons]
    constructor
    · simp
    · have h2 : ((l1 ++ o :: l2).map s.blk).Nodup :=
        List.Nodup.map (fun a b h => (blk_inj s a b).1 h) hndk
      simpa using h2
  have hy : Ptr.sentinel k ∉ l1.map s.blk ++ s.blk o :: l2.map s.blk := by simp
  obtain ⟨hp, hn, hres⟩ := seg_unlink cfg s (s.blk o) (Ptr.sentinel k) (l2.map s.blk)
    (l1.map s.blk) (Ptr.sentinel k) hseg hnodes hy
  intro j hj
  by_cases hjk : j = k
  · subst hjk
    rw [Function.update_same, herase, List.map_append]
    exact hres
  · rw [Function.update_noteq hjk]
    refine Seg.frame _ _ _ ?_ ?_ (hl j hj)
    · intro q hq
      rw [list_unlink_next, if_neg]
      intro hqe
      rw [← hqe] at hp
      rcases hq with rfl | hq
      · simp at hp
        exact hjk hp
      · obtain ⟨x, hx1, rfl⟩ := List.mem_map.1 hq
        simp only [List.mem_cons, blk_ne_sentinel, false_or] at hp
        rw [mem_map_blk] at hp
        have : x ∈ F k := by rw [hF]; simp [hp]
        exact hjk (hx x j k hx1 this)
    · intro q hq
      rw [list_unlink_prev, if_neg]
      intro hqe
      rw [← hqe] at hn
      rcases hq with hq | rfl
      · obtain ⟨x, hx1, rfl⟩ := List.mem_map.1 hq
        simp only [List.mem_append, List.mem_singleton, blk_ne_sentinel, or_false] at hn
        rw [mem_map_blk] at hn
        have : x ∈ F k := by rw [hF]; simp [hn]
        exact hjk (hx x j k hx1 this)
      · simp at hn
        exact hjk hn

theorem seg_head (s : Pool) (x y : Ptr) (l : List Ptr) (h : Seg s x l y) :
    (s.hdr x).next = (l ++ [y]).head (by simp) := by
  cases l with
  | nil => exact h.1
  | cons a l => exact h.1

theorem lists_push (cfg : Config) (s : Pool) (F : Nat → List Nat) (k b : Nat)
    (hl : ∀ j, j ≤ s.kval_m → Seg s (Ptr.sentinel j) ((F j).map s.blk) (Ptr.sentinel j))
    (hnd : ∀ j, (F j).Nodup) (hx : ∀ x j j2, x ∈ F j → x ∈ F j2 → j = j2)
    (hb : ∀ j, b ∉ F j) (hk : k ≤ s.kval_m) :
    ∀ j, j ≤ s.kval_m → Seg (list_push cfg s k (s.blk b)) (Ptr.sentinel j)
      ((Function.update F k (b :: F k) j).map s.blk) (Ptr.sentinel j) := by
  intro j hj
  by_cases hjk : j = k
  · subst hjk
    rw [Function.update_same, List.map_cons]
    refine seg_push cfg s j (s.base + b) _ (hl j hj) (by simp) ?_ ?_
    · have := hb j
      rw [← mem_map_blk s] at this
      exact this
    · exact List.Nodup.map (fun a b h => (blk_inj s a b).1 h) (hnd j)
  · rw [Function.update_noteq hjk]
    have hhead := seg_head s _ _ _ (hl k hk)
    refine Seg.frame _ _ _ ?_ ?_ (hl j hj)
    · intro q hq
      show ((list_push cfg s k (Ptr.block (s.base + b))).hdr q).next = _
      rw [list_push_next, if_neg, if_neg]
      · rcases hq with rfl | hq
        · simp
        · obtain ⟨x, hx1, rfl⟩ := List.mem_map.1 hq
          intro h
          have : x = b := (blk_inj s x b).1 h
          exact hb j (this ▸ hx1)
      · rcases hq with rfl | hq
        · simpa using hjk
        · obtain ⟨x, hx1, rfl⟩ := List.mem_map.1 hq
          simp
    · intro q hq
      show ((list_push cfg s k (Ptr.block (s.base + b))).hdr q).prev = _
      rw [list_push_prev, if_neg, if_neg]
      · rcases hq with hq | rfl
        · obtain ⟨x, hx1, rfl⟩ := List.mem_map.1 hq
          intro h
          have : x = b := (blk_inj s x b).1 h
          exact hb j (this ▸ hx1)
        · simp
      · rw [hhead]
        intro hqe
        cases hFk : F k with
        | nil =>
          simp only [hFk, List.map_nil, List.nil_append, List.head_cons] at hqe
          rcases hq with hq | rfl
          · obtain ⟨x, hx1, rfl⟩ := List.mem_map.1 hq
            simp at hqe
          · simp at hqe
            exact hjk hqe
        | cons c l =>
          simp only [hFk, List.map_cons, List.cons_append, List.head_cons] at hqe
          rcases hq with hq | rfl
          · obtain ⟨x, hx1, rfl⟩ := List.mem_map.1 hq
            have : x = c := (blk_inj s x c).1 hqe
            have hc : c ∈ F k := by rw [hFk]; simp
            exact hjk (hx x j k hx1 (this ▸ hc))
          · simp at hqe

/-! ## The six steps of the allocator on the abstract state -/

section steps
variable {cfg : Config} {s : Pool} {F : Nat → List Nat} {R T : Nat → Nat → Prop}

/-- Taking the free block `o` out of `avail[k]`. -/
theorem Inv.unlink (h : Inv cfg s F R T) {o k : Nat} (ho : o ∈ F k) :
    Inv cfg (list_unlink cfg s (s.blk o)) (Function.update F k ((F k).erase o)) R
      (fun x j => T x j ∨ (x = o ∧ j = k)) := by
  have hk : k ≤ s.kval_m := h.le_K (Or.inl ho)
  have hsub : ∀ x j, x ∈ Function.update F k ((F k).erase o) j → x ∈ F j := by
    intro x j hx
    by_cases hjk : j = k
    · subst hjk
      rw [Function.update_same] at hx
      exact List.mem_of_mem_erase hx
    · rwa [Function.update_noteq hjk] at hx
  have hno : o ∉ Function.update F k ((F k).erase o) k := by
    rw [Function.update_same]
    exact fun hm => ((h.nodup k).mem_erase_iff.1 hm).1 rfl
  constructor
  · exact lists_unlink cfg s F k o h.lists h.nodup (fun x j j2 => h.F_cross) ho hk
  · intro j hj
    simpa using h.sentinels j hj
  · intro j
    by_cases hjk : j = k
    · subst hjk
      rw [Function.update_same]
      exact (h.nodup j).erase o
    · rw [Function.update_noteq hjk]
      exact h.nodup j
  · intro x j hx
    simpa using h.free_hdr x j (hsub x j hx)
  · intro x j hx
    simpa using h.res_hdr x j hx
  · intro x j hx
    rcases hx with hx | ⟨rfl, rfl⟩
    · have := h.hand_hdr x j hx
      refine ⟨by simpa using this.1, by simpa using this.2.1, fun hm => this.2.2 (hsub x j hm)⟩
    · have := h.free_hdr x j ho
      exact ⟨by simpa using this.1, by simpa using this.2, hno⟩
  · refine h.tiling.of_iff ?_
    intro x j
    unfold Blk
    by_cases hjk : j = k
    · subst hjk
      rw [Function.update_same]
      by_cases hxo : x = o
      · subst hxo
        simp [ho]
      · simp [hxo, List.mem_erase_of_ne hxo]
    · rw [Function.update_noteq hjk]
      simp [hjk]
  · intro x j hx hj hb
    exact h.nobuddy x j (hsub x j hx) hj (hsub _ j hb)

/-- Putting the held block `b` at the head of `avail[k]`. -/
theorem Inv.push (h : Inv cfg s F R T) {b k : Nat} (hT : T b k)
    (hbud : k < s.kval_m → bud b k ∉ F k) :
    Inv cfg (list_push cfg s k (s.blk b)) (Function.update F k (b :: F k)) R
      (fun x j => T x j ∧ ¬ (x = b ∧ j = k)) := by
  have hk : k ≤ s.kval_m := h.le_K (Or.inr (Or.inr hT))
  have hbF : ∀ j, b ∉ F j := h.T_notin_F hT
  have hmem : ∀ x j, x ∈ Function.update F k (b :: F k) j ↔ (x ∈ F j ∨ (x = b ∧ j = k)) := by
    intro x j
    by_cases hjk : j = k
    · subst hjk
      rw [Function.update_same]
      simp [or_comm]
    · rw [Function.update_noteq hjk]
      simp [hjk]
  constructor
  · exact lists_push cfg s F k b h.lists h.nodup (fun x j j2 => h.F_cross) hbF hk
  · intro j hj
    simpa using h.sentinels j hj
  · intro j
    by_cases hjk : j = k
    · subst hjk
      rw [Function.update_same]
      exact List.nodup_cons.2 ⟨hbF j, h.nodup j⟩
    · rw [Function.update_noteq hjk]
      exact h.nodup j
  · intro x j hx
    rcases (hmem x j).1 hx with hx | ⟨rfl, rfl⟩
    · simpa using h.free_hdr x j hx
    · have := h.hand_hdr x j hT
      exact ⟨by simpa using this.1, by simpa using this.2.1⟩
  · intro x j hx
    simpa using h.res_hdr x j hx
  · intro x j hx
    have := h.hand_hdr x j hx.1
    refine ⟨by simpa using this.1, by simpa using this.2.1, ?_⟩
    intro hm
    rcases (hmem x j).1 hm with hm | hm
    · exact this.2.2 hm
    · exact hx.2 hm
  · refine h.tiling.of_iff ?_
    intro x j
    unfold Blk
    rw [hmem]
    by_cases hxb : x = b ∧ j = k
    · obtain ⟨rfl, rfl⟩ := hxb
      simp [hT]
    · simp [hxb]
  · intro x j hx0 hj hb0
    rcases (hmem x j).1 hx0 with hx | ⟨rfl, rfl⟩
    · rcases (hmem _ j).1 hb0 with hb | ⟨hb1, hb2⟩
      · exact h.nobuddy x j hx hj hb
      · subst hb2
        apply hbud hj
        rw [← hb1, bud_bud]
        exact hx
    · rcases (hmem _ j).1 hb0 with hb | ⟨hb1, -⟩
      · exact hbud hj hb
      · have hal := (h.tiling.aligned x j (Or.inr (Or.inr hT)))
        obtain ⟨m, -, -, -, hm⟩ := bud_spec hal.1 hal.2 hj
        have hP : 0 < 2 ^ j := Nat.two_pow_pos _
        omega

end steps

section steps2
variable {cfg : Config} {s : Pool} {F : Nat → List Nat} {R T : Nat → Nat → Prop}

theorem lists_same (s s2 : Pool) {F : Nat → List Nat}
    (hn : ∀ q, (s2.hdr q).next = (s.hdr q).next) (hp : ∀ q, (s2.hdr q).prev = (s.hdr q).prev)
    (hb : s2.blk = s.blk) (hK : s2.kval_m = s.kval_m)
    (hl : ∀ j, j ≤ s.kval_m → Seg s (Ptr.sentinel j) ((F j).map s.blk) (Ptr.sentinel j)) :
    ∀ j, j ≤ s2.kval_m → Seg s2 (Ptr.sentinel j) ((F j).map s2.blk) (Ptr.sentinel j) := by
  intro j hj
  rw [hb]
  exact Seg.frame _ _ _ (fun q _ => hn q) (fun q _ => hp q) (hl j (hK ▸ hj))

/-- Joining the two held buddies `b` and `bud b k` into one held block. -/
theorem Inv.merge (h : Inv cfg s F R T) (hne : cfg.BLOCK_AVAIL ≠ cfg.BLOCK_RESERVED)
    {b k : Nat} (hb : T b k) (hb2 : T (bud b k) k) (hk : k < s.kval_m) :
    Inv cfg (s.set_kval cfg (s.blk (min b (bud b k))) (k + 1)) F R
      (fun x j => (T x j ∧ ¬ (x = b ∧ j = k) ∧ ¬ (x = bud b k ∧ j = k)) ∨
        (x = min b (bud b k) ∧ j = k + 1)) := by
  have hm : T (min b (bud b k)) k := by
    rcases Nat.le_total b (bud b k) with hle | hle
    · rwa [Nat.min_eq_left hle]
    · rwa [Nat.min_eq_right hle]
  have hmc : min b (bud b k) = b ∨ min b (bud b k) = bud b k := by omega
  generalize hmin : min b (bud b k) = m at *
  constructor
  · exact lists_same s _ (by simp) (by simp) rfl rfl h.lists
  · intro j hj
    simpa using h.sentinels j hj
  · exact h.nodup
  · intro x j hx
    have hxm : x ≠ m := fun e => h.T_notin_F hm j (e ▸ hx)
    simpa [hxm] using h.free_hdr x j hx
  · intro x j hx
    have hxm : x ≠ m := fun e => h.R_not_T hne hx k (e ▸ hm)
    simpa [hxm] using h.res_hdr x j hx
  · intro x j hx
    rcases hx with ⟨hx, n1, n2⟩ | ⟨rfl, rfl⟩
    · have hxm : x ≠ m := by
        intro e
        subst e
        have := h.unique (Or.inr (Or.inr hx)) (Or.inr (Or.inr hm))
        subst this
        rcases hmc with e | e
        · exact n1 ⟨e, rfl⟩
        · exact n2 ⟨e, rfl⟩
      simpa [hxm] using h.hand_hdr x j hx
    · have := h.hand_hdr x k hm
      exact ⟨by simpa using this.1, by simp, h.T_notin_F hm _⟩
  · refine Tiling.merge_blocks h.tiling (Or.inr (Or.inr hb)) (Or.inr (Or.inr hb2)) hk ?_
    intro x j
    rw [hmin]
    unfold Blk
    constructor
    · rintro (hx | hx | hx)
      · exact Or.inl ⟨Or.inl hx, fun e => h.T_notin_F hb j (e.1 ▸ hx),
          fun e => h.T_notin_F hb2 j (e.1 ▸ hx)⟩
      · exact Or.inl ⟨Or.inr (Or.inl hx), fun e => h.R_not_T hne hx k (e.1 ▸ hb),
          fun e => h.R_not_T hne hx k (e.1 ▸ hb2)⟩
      · rcases hx with ⟨hx, n1, n2⟩ | hx
        · exact Or.inl ⟨Or.inr (Or.inr hx), n1, n2⟩
        · exact Or.inr hx
    · rintro (⟨hx | hx | hx, n1, n2⟩ | hx)
      · exact Or.inl hx
      · exact Or.inr (Or.inl hx)
      · exact Or.inr (Or.inr (Or.inl ⟨hx, n1, n2⟩))
      · exact Or.inr (Or.inr (Or.inr hx))
  · exact h.nobuddy

/-- Halving the held block `b` of order `k + 1`: both halves are held. -/
theorem Inv.split (h : Inv cfg s F R T) (hne : cfg.BLOCK_AVAIL ≠ cfg.BLOCK_RESERVED)
    {b k : Nat} (hb : T b (k + 1)) :
    Inv cfg (((s.set_kval cfg (s.blk b) k).set_tag cfg (s.blk (b + 2 ^ k))
        cfg.BLOCK_AVAIL).set_kval cfg (s.blk (b + 2 ^ k)) k) F R
      (fun x j => (T x j ∧ ¬ (x = b ∧ j = k + 1)) ∨ (x = b ∧ j = k) ∨
        (x = b + 2 ^ k ∧ j = k)) := by
  have hP : 0 < 2 ^ k := Nat.two_pow_pos _
  have hS : 2 ^ (k + 1) = 2 * 2 ^ k := by rw [pow_succ]; ring
  have hbc : b ≠ b + 2 ^ k := by omega
  have hnew : ∀ x j, Blk F R T x j → x ≠ b + 2 ^ k := by
    intro x j hx e
    have hJ : 0 < 2 ^ j := Nat.two_pow_pos _
    have := h.tiling.disjoint b (k + 1) x j (Or.inr (Or.inr hb)) hx (Or.inl (by omega))
    omega
  constructor
  · exact lists_same s _ (by simp) (by simp) rfl rfl h.lists
  · intro j hj
    simpa using h.sentinels j hj
  · exact h.nodup
  · intro x j hx
    have hxb : x ≠ b := fun e => h.T_notin_F hb j (e ▸ hx)
    have hxc := hnew x j (Or.inl hx)
    simpa [hxb, hxc] using h.free_hdr x j hx
  · intro x j hx
    have hxb : x ≠ b := fun e => h.R_not_T hne hx _ (e ▸ hb)
    have hxc := hnew x j (Or.inr (Or.inl hx))
    simpa [hxb, hxc] using h.res_hdr x j hx
  · intro x j hx
    rcases hx with ⟨hx, n1⟩ | ⟨rfl, rfl⟩ | ⟨rfl, rfl⟩
    · have hxb : x ≠ b := by
        intro e
        subst e
        have := h.unique (Or.inr (Or.inr hx)) (Or.inr (Or.inr hb))
        exact n1 ⟨rfl, this⟩
      have hxc := hnew x j (Or.inr (Or.inr hx))
      simpa [hxb, hxc] using h.hand_hdr x j hx
    · have := h.hand_hdr x _ hb
      exact ⟨by simpa [hbc] using this.1, by simp [hbc], h.T_notin_F hb _⟩
    · exact ⟨by simp, by simp, fun hm => hnew _ j (Or.inl hm) rfl⟩
  · refine Tiling.split_block h.tiling (Or.inr (Or.inr hb)) ?_
    intro x j
    unfold Blk
    constructor
    · rintro (hx | hx | hx)
      · exact Or.inl ⟨Or.inl hx, fun e => h.T_notin_F hb j (e.1 ▸ hx)⟩
      · exact Or.inl ⟨Or.inr (Or.inl hx), fun e => h.R_not_T hne hx _ (e.1 ▸ hb)⟩
      · rcases hx with ⟨hx, n1⟩ | hx
        · exact Or.inl ⟨Or.inr (Or.inr hx), n1⟩
        · exact Or.inr hx
    · rintro (⟨hx | hx | hx, n1⟩ | hx)
      · exact Or.inl hx
      · exact Or.inr (Or.inl hx)
      · exact Or.inr (Or.inr (Or.inl ⟨hx, n1⟩))
      · exact Or.inr (Or.inr (Or.inr hx))
  · exact h.nobuddy

/-- Handing the held block `b` to the caller. -/
theorem Inv.reserve (h : Inv cfg s F R T) {b k : Nat} (hb : T b k) :
    Inv cfg (s.set_tag cfg (s.blk b) cfg.BLOCK_RESERVED) F
      (fun x j => R x j ∨ (x = b ∧ j = k)) (fun x j => T x j ∧ ¬ (x = b ∧ j = k)) := by
  constructor
  · exact lists_same s _ (by simp) (by simp) rfl rfl h.lists
  · intro j hj
    simpa using h.sentinels j hj
  · exact h.nodup
  · intro x j hx
    have hxb : x ≠ b := fun e => h.T_notin_F hb j (e ▸ hx)
    simpa [hxb] using h.free_hdr x j hx
  · intro x j hx
    rcases hx with hx | ⟨rfl, rfl⟩
    · have := h.res_hdr x j hx
      refine ⟨?_, by simpa using this.2⟩
      simp only [set_tag_tag, blk_inj]
      split
      · rfl
      · exact this.1
    · exact ⟨by simp, by simpa using (h.hand_hdr x j hb).2.1⟩
  · intro x j hx
    have hxb : x ≠ b := by
      intro e
      subst e
      have := h.unique (Or.inr (Or.inr hx.1)) (Or.inr (Or.inr hb))
      exact hx.2 ⟨rfl, this⟩
    simpa [hxb] using h.hand_hdr x j hx.1
  · refine h.tiling.of_iff ?_
    intro x j
    unfold Blk
    by_cases hxb : x = b ∧ j = k
    · obtain ⟨rfl, rfl⟩ := hxb
      simp [hb]
    · simp [hxb]
  · exact h.nobuddy

/-- Taking the reserved block `b` back from the caller. -/
theorem Inv.release (h : Inv cfg s F R T) (hne : cfg.BLOCK_AVAIL ≠ cfg.BLOCK_RESERVED)
    {b k : Nat} (hb : R b k) :
    Inv cfg (s.set_tag cfg (s.blk b) cfg.BLOCK_AVAIL) F
      (fun x j => R x j ∧ ¬ (x = b ∧ j = k)) (fun x j => T x j ∨ (x = b ∧ j = k)) := by
  constructor
  · exact lists_same s _ (by simp) (by simp) rfl rfl h.lists
  · intro j hj
    simpa using h.sentinels j hj
  · exact h.nodup
  · intro x j hx
    have hxb : x ≠ b := fun e => h.R_notin_F hne hb j (e ▸ hx)
    simpa [hxb] using h.free_hdr x j hx
  · intro x j hx
    have hxb : x ≠ b := by
      intro e
      subst e
      have := h.unique (Or.inr (Or.inl hx.1)) (Or.inr (Or.inl hb))
      exact hx.2 ⟨rfl, this⟩
    simpa [hxb] using h.res_hdr x j hx.1
  · intro x j hx
    rcases hx with hx | ⟨rfl, rfl⟩
    · have := h.hand_hdr x j hx
      refine ⟨?_, by simpa using this.2.1, this.2.2⟩
      simp only [set_tag_tag, blk_inj]
      split
      · rfl
      · exact this.1
    · exact ⟨by simp, by simpa using (h.res_hdr x j hb).2, h.R_notin_F hne hb j⟩
  · refine h.tiling.of_iff ?_
    intro x j
    unfold Blk
    by_cases hxb : x = b ∧ j = k
    · obtain ⟨rfl, rfl⟩ := hxb
      simp [hb]
    · simp [hxb]
  · exact h.nobuddy

end steps2

/-! ## The loops of `buddy_malloc` -/

theorem Inv.congr {cfg : Config} {s : Pool} {F : Nat → List Nat} {R T R2 T2 : Nat → Nat → Prop}
    (h : Inv cfg s F R T) (hR : ∀ o k, R2 o k ↔ R o k) (hT : ∀ o k, T2 o k ↔ T o k) :
    Inv cfg s F R2 T2 := by
  have e1 : R2 = R := by funext o k; exact propext (hR o k)
  have e2 : T2 = T := by funext o k; exact propext (hT o k)
  rw [e1, e2]; exact h

theorem Inv.lists_eq {cfg : Config} {s : Pool} {F F2 : Nat → List Nat} {R T : Nat → Nat → Prop}
    (h : Inv cfg s F R T) (hF : ∀ k, F2 k = F k) : Inv cfg s F2 R T := by
  have e1 : F2 = F := funext hF
  rw [e1]; exact h

theorem Inv.head_next {cfg : Config} {s : Pool} {F : Nat → List Nat} {R T : Nat → Nat → Prop}
    (h : Inv cfg s F R T) {k : Nat} (hk : k ≤ s.kval_m) :
    (s.hdr (Ptr.sentinel k)).next =
      match F k with
      | [] => Ptr.sentinel k
      | o :: _ => s.blk o := by
  have := seg_head s _ _ _ (h.lists k hk)
  rw [this]
  cases F k <;> simp

theorem malloc_scan_spec {cfg : Config} {s : Pool} {F : Nat → List Nat}
    {R T : Nat → Nat → Prop} (h : Inv cfg s F R T) :
    ∀ fuel k, fuel = s.kval_m + 1 - k →
      ((∀ j, k ≤ j → j ≤ s.kval_m → F j = []) ∧ malloc_scan cfg s fuel k = (s, Ptr.NULL)) ∨
      ∃ k0 o rest, k ≤ k0 ∧ k0 ≤ s.kval_m ∧ (∀ j, k ≤ j → j < k0 → F j = []) ∧
        F k0 = o :: rest ∧
        malloc_scan cfg s fuel k = (list_unlink cfg s (s.blk o), s.blk o) := by
  intro fuel
  induction fuel with
  | zero =>
    intro k hk
    left
    exact ⟨fun j h1 h2 => by omega, rfl⟩
  | succ fuel ih =>
    intro k hk
    have hkK : k ≤ s.kval_m := by omega
    unfold malloc_scan
    rw [if_pos hkK]
    have hn := h.head_next hkK
    cases hF : F k with
    | nil =>
      rw [hF] at hn
      simp only [hn, ne_eq, not_true_eq_false, if_false]
      rcases ih (k + 1) (by omega) with ⟨h1, h2⟩ | ⟨k0, o, rest, h1, h2, h3, h4, h5⟩
      · left
        refine ⟨?_, h2⟩
        intro j hj1 hj2
        by_cases e : j = k
        · rw [e, hF]
        · exact h1 j (by omega) hj2
      · right
        refine ⟨k0, o, rest, by omega, h2, ?_, h4, h5⟩
        intro j hj1 hj2
        by_cases e : j = k
        · rw [e, hF]
        · exact h3 j (by omega) hj2
    | cons o rest =>
      rw [hF] at hn
      right
      refine ⟨k, o, rest, le_refl _, hkK, fun j h1 h2 => by omega, hF, ?_⟩
      simp [hn]

theorem bud_of_aligned {o k : Nat} (h : 2 ^ (k + 1) ∣ o) : bud o k = o + 2 ^ k := by
  have hk : 2 ^ k ∣ o := Dvd.dvd.trans ⟨2, by rw [pow_succ]⟩ h
  have hP : 0 < 2 ^ k := Nat.two_pow_pos _
  rcases bud_cases o k hk with ⟨-, h2⟩ | ⟨h0, h1, -⟩
  · exact h2
  · exfalso
    have h3 : 2 ^ (k + 1) ∣ o - (o - 2 ^ k) := Nat.dvd_sub' h h1
    have h4 : o - (o - 2 ^ k) = 2 ^ k := by omega
    rw [h4] at h3
    have := Nat.le_of_dvd hP h3
    rw [pow_succ] at this
    omega

theorem malloc_split_spec {cfg : Config} (hne : cfg.BLOCK_AVAIL ≠ cfg.BLOCK_RESERVED)
    {R : Nat → Nat → Prop} (b needed : Nat) :
    ∀ fuel (s : Pool) (F : Nat → List Nat) (j : Nat), Inv cfg s F R (single b j) →
      needed ≤ j → j - needed ≤ fuel →
      Inv cfg (malloc_split cfg (s.blk b) needed fuel s) (split_lists F b needed j) R
        (single b needed) ∧
      (malloc_split cfg (s.blk b) needed fuel s).base = s.base ∧
      (malloc_split cfg (s.blk b) needed fuel s).kval_m = s.kval_m := by
  intro fuel
  induction fuel with
  | zero =>
    intro s F j h h1 h2
    have : j = needed := by omega
    subst this
    refine ⟨?_, rfl, rfl⟩
    refine h.lists_eq ?_
    intro k
    simp [split_lists]
  | succ fuel ih =>
    intro s F j h h1 h2
    have hkv : (s.hdr (s.blk b)).kval = j := (h.hand_hdr b j ⟨rfl, rfl⟩).2.1
    unfold malloc_split
    by_cases hgt : j > needed
    · rw [hkv, if_pos hgt]
      obtain ⟨i, rfl⟩ : ∃ i, j = i + 1 := ⟨j - 1, by omega⟩
      simp only [Nat.add_sub_cancel, set_kval_kval, if_true]
      have hadd : (s.blk b).add (2 ^ i) = s.blk (b + 2 ^ i) := by
        simp [Pool.blk, Ptr.add, Nat.add_assoc]
      rw [hadd]
      have h2a := h.split hne (b := b) (k := i) ⟨rfl, rfl⟩
      have hal := h.tiling.aligned b (i + 1) (Or.inr (Or.inr ⟨rfl, rfl⟩))
      have hbud : bud (b + 2 ^ i) i = b := by
        rw [← bud_of_aligned hal.1, bud_bud]
      have h3 := h2a.push (b := b + 2 ^ i) (k := i) (Or.inr (Or.inr ⟨rfl, rfl⟩)) (by
        intro _
        rw [hbud]
        exact h2a.T_notin_F (Or.inr (Or.inl ⟨rfl, rfl⟩)) i)
      have hP : 0 < 2 ^ i := Nat.two_pow_pos _
      have h5 := ih _ _ i (h3.congr (fun _ _ => Iff.rfl) (by
        intro x k
        simp only [single]
        constructor
        · rintro ⟨rfl, rfl⟩
          exact ⟨Or.inr (Or.inl ⟨rfl, rfl⟩), by omega⟩
        · rintro ⟨⟨⟨h5, h6⟩, h7⟩ | h5 | h5, h8⟩
          · exact absurd ⟨h5, h6⟩ h7
          · exact h5
          · exact absurd h5 h8)) (by omega) (by omega)
      simp only [blk_list_push, blk_set_kval, blk_set_tag, list_push_base, set_kval_base,
        set_tag_base, list_push_kval_m, set_kval_kval_m, set_tag_kval_m] at h5
      refine ⟨h5.1.lists_eq ?_, h5.2.1, h5.2.2⟩
      intro k
      simp only [split_lists, Function.update_apply]
      by_cases e : k = i
      · subst e
        have c1 : needed ≤ k ∧ k < k + 1 := ⟨by omega, by omega⟩
        have c2 : ¬ (needed ≤ k ∧ k < k) := by omega
        rw [if_pos c1, if_neg c2, if_pos rfl]
      · rw [if_neg e]
        by_cases c : needed ≤ k ∧ k < i
        · rw [if_pos c, if_pos ⟨c.1, by omega⟩]
        · rw [if_neg c, if_neg (by omega)]
    · rw [hkv, if_neg hgt]
      have : j = needed := by omega
      subst this
      refine ⟨?_, rfl, rfl⟩
      refine h.lists_eq ?_
      intro k
      simp [split_lists]

theorem needed_k_some {cfg : Config} {n nk : Nat} (h : needed_k cfg n = some nk) :
    ∃ k0, btok ((n + cfg.sizeof_avail) % 2 ^ 64) = some k0 ∧
      nk = if k0 < cfg.SMALLEST_K then cfg.SMALLEST_K else k0 := by
  unfold needed_k at h
  cases hb : btok ((n + cfg.sizeof_avail) % 2 ^ 64) with
  | none => rw [hb] at h; simp at h
  | some k0 =>
    rw [hb] at h
    simp only [Option.map_some', Option.some.injEq] at h
    exact ⟨k0, rfl, h.symm⟩

theorem malloc_undefined {cfg : Config} (s : Pool) {n : Nat} (hn : n ≠ 0)
    (h : needed_k cfg n = none) : buddy_malloc cfg s PoolPtr.valid n = none := by
  unfold needed_k at h
  simp only [Option.map_eq_none'] at h
  unfold buddy_malloc
  have hcond : ¬ (PoolPtr.valid = PoolPtr.NULL ∨ n = 0) := by simp [hn]
  rw [if_neg hcond, h]

theorem malloc_cases {cfg : Config} (hne : cfg.BLOCK_AVAIL ≠ cfg.BLOCK_RESERVED)
    {s : Pool} {F : Nat → List Nat} {R : Nat → Nat → Prop} (h : Inv cfg s F R nothing)
    {n nk : Nat} (hn : n ≠ 0) (hnk : needed_k cfg n = some nk) :
    ((s.kval_m < nk ∨ ∀ j, nk ≤ j → j ≤ s.kval_m → F j = []) ∧
      buddy_malloc cfg s PoolPtr.valid n = some ⟨s, none, some Errno.ENOMEM⟩) ∨
    ∃ k0 o rest, nk ≤ k0 ∧ k0 ≤ s.kval_m ∧ (∀ j, nk ≤ j → j < k0 → F j = []) ∧
      F k0 = o :: rest ∧
      ∃ r, buddy_malloc cfg s PoolPtr.valid n = some r ∧
        r.ret = some (s.base + o + cfg.sizeof_avail) ∧ r.errno = none ∧
        r.pool.base = s.base ∧ r.pool.kval_m = s.kval_m ∧
        Inv cfg r.pool (split_lists (Function.update F k0 rest) o nk k0)
          (fun x j => R x j ∨ (x = o ∧ j = nk)) nothing := by
  obtain ⟨kb, hb, hnk2⟩ := needed_k_some hnk
  unfold buddy_malloc
  have hcond : ¬ (PoolPtr.valid = PoolPtr.NULL ∨ n = 0) := by simp [hn]
  rw [if_neg hcond, hb]
  simp only [← hnk2]
  by_cases hgt : nk > s.kval_m
  · left
    rw [if_pos hgt]
    exact ⟨Or.inl hgt, rfl⟩
  · rw [if_neg hgt]
    rcases @malloc_scan_spec cfg _ _ _ _ h (s.kval_m + 1 - nk) nk rfl with
      ⟨h1, h2⟩ | ⟨k0, o, rest, h1, h2, h3, h4, h5⟩
    · left
      rw [h2]
      exact ⟨Or.inr h1, by simp⟩
    · right
      refine ⟨k0, o, rest, h1, h2, h3, h4, ?_⟩
      rw [h5]
      have hblk : s.blk o ≠ Ptr.NULL := by simp [Pool.blk]
      simp only [hblk, if_false]
      have ho : o ∈ F k0 := by rw [h4]; simp
      have hu := h.unlink ho
      have herase : (F k0).erase o = rest := by rw [h4, List.erase_cons_head]
      rw [herase] at hu
      have hu2 : Inv cfg (list_unlink cfg s (s.blk o)) (Function.update F k0 rest) R
          (single o k0) := hu.congr (fun _ _ => Iff.rfl) (by
        intro x j; simp [single, nothing])
      have hkv : ((list_unlink cfg s (s.blk o)).hdr (s.blk o)).kval = k0 :=
        (hu2.hand_hdr o k0 ⟨rfl, rfl⟩).2.1
      rw [hkv]
      obtain ⟨hs1, hs2, hs3⟩ := malloc_split_spec hne o nk k0 _ _ k0 hu2 h1 (by omega)
      simp only [blk_list_unlink, list_unlink_base, list_unlink_kval_m] at hs1 hs2 hs3
      have hr := hs1.reserve (b := o) (k := nk) ⟨rfl, rfl⟩
      refine ⟨_, rfl, ?_, rfl, ?_, ?_, ?_⟩
      · simp [Pool.blk, Ptr.add, Ptr.addr]
      · simpa using hs2
      · simpa using hs3
      · have hbe : (malloc_split cfg (s.blk o) nk k0 (list_unlink cfg s (s.blk o))).blk
            = s.blk := by
          funext x
          have hs4 := hs2
          simp only [Pool.blk] at hs4 ⊢
          rw [hs4]
        rw [hbe] at hr
        exact hr.congr (fun _ _ => Iff.rfl) (by
          intro x j; simp [single, nothing])

/-! ## The loop of `buddy_free` -/

theorem buddy_calc_blk (s : Pool) (b : Nat) :
    buddy_calc s PoolPtr.valid (s.blk b) = s.blk (bud b (s.hdr (s.blk b)).kval) := by
  simp [buddy_calc, Pool.blk, bud, Nat.add_comm]

theorem bud_ne {b k K : Nat} (ha : 2 ^ k ∣ b) (hin : b + 2 ^ k ≤ 2 ^ K) (hk : k < K) :
    bud b k ≠ b := by
  obtain ⟨m, -, -, -, hm⟩ := bud_spec ha hin hk
  have hP : 0 < 2 ^ k := Nat.two_pow_pos _
  omega

theorem free_loop_spec {cfg : Config} (hne : cfg.BLOCK_AVAIL ≠ cfg.BLOCK_RESERVED)
    {R : Nat → Nat → Prop} :
    ∀ fuel (s : Pool) (F : Nat → List Nat) (b k : Nat), Inv cfg s F R (single b k) →
      s.kval_m - k ≤ fuel →
      ∃ s2, free_loop cfg fuel s (s.blk b) =
          (s2, s.blk (merge_lists s.kval_m fuel F b k).2.1) ∧
        s2.base = s.base ∧ s2.kval_m = s.kval_m ∧
        Inv cfg s2 (merge_lists s.kval_m fuel F b k).1 R
          (single (merge_lists s.kval_m fuel F b k).2.1 (merge_lists s.kval_m fuel F b k).2.2) ∧
        ((merge_lists s.kval_m fuel F b k).2.2 < s.kval_m →
          bud (merge_lists s.kval_m fuel F b k).2.1 (merge_lists s.kval_m fuel F b k).2.2 ∉
            (merge_lists s.kval_m fuel F b k).1 (merge_lists s.kval_m fuel F b k).2.2) := by
  intro fuel
  induction fuel with
  | zero =>
    intro s F b k h hf
    have hB : Blk F R (single b k) b k := Or.inr (Or.inr ⟨rfl, rfl⟩)
    have hle := h.le_K hB
    refine ⟨s, rfl, rfl, rfl, h, ?_⟩
    simp only [merge_lists]
    intro hlt
    omega
  | succ fuel ih =>
    intro s F b k h hf
    have hkv : (s.hdr (s.blk b)).kval = k := (h.hand_hdr b k ⟨rfl, rfl⟩).2.1
    have hB : Blk F R (single b k) b k := Or.inr (Or.inr ⟨rfl, rfl⟩)
    unfold free_loop merge_lists
    by_cases hk : k < s.kval_m
    · rw [hkv, if_pos hk, buddy_calc_blk, hkv]
      by_cases hmem : bud b k ∈ F k
      · have hfh := h.free_hdr _ _ hmem
        have hc : ¬ ((s.hdr (s.blk (bud b k))).tag ≠ cfg.BLOCK_AVAIL ∨
            (s.hdr (s.blk (bud b k))).kval ≠ k) := by
          rw [hfh.1, hfh.2]; simp
        have hc2 : k < s.kval_m ∧ bud b k ∈ F k := ⟨hk, hmem⟩
        rw [if_neg hc, if_pos hc2]
        have hbel : (if (s.blk (bud b k)).below (s.blk b) = true then s.blk (bud b k)
            else s.blk b) = s.blk (min b (bud b k)) := by
          simp only [Pool.blk, Ptr.below, decide_eq_true_eq]
          split
          · rw [Nat.min_eq_right (by omega)]
          · rw [Nat.min_eq_left (by omega)]
        rw [hbel]
        have hu := h.unlink hmem
        have hm := hu.merge hne (b := b) (k := k) (Or.inl ⟨rfl, rfl⟩) (Or.inr ⟨rfl, rfl⟩) hk
        have hmk : ((list_unlink cfg s (s.blk (bud b k))).hdr (s.blk (min b (bud b k)))).kval
            = k := by
          rw [list_unlink_kval]
          rcases Nat.le_total b (bud b k) with hle | hle
          · rw [Nat.min_eq_left hle]; exact hkv
          · rw [Nat.min_eq_right hle]; exact hfh.2
        dsimp only
        rw [hmk]
        have hal := h.tiling.aligned b k hB
        have hbn := bud_ne hal.1 hal.2 hk
        obtain ⟨s2, e1, e2, e3, e4, e5⟩ := ih _ _ (min b (bud b k)) (k + 1)
          (hm.congr (fun _ _ => Iff.rfl) (by
            intro x j
            simp only [single]
            constructor
            · rintro ⟨rfl, rfl⟩
              exact Or.inr ⟨rfl, rfl⟩
            · rintro (⟨⟨h5, h6⟩ | h5, h7, h8⟩ | h5)
              · exact absurd ⟨h5, h6⟩ h7
              · exact absurd h5 h8
              · exact h5)) (by simp; omega)
        exact ⟨s2, e1, e2, e3, e4, e5⟩
      · have hc : (s.hdr (s.blk (bud b k))).tag ≠ cfg.BLOCK_AVAIL ∨
            (s.hdr (s.blk (bud b k))).kval ≠ k := by
          obtain ⟨k2, hk2, hb2⟩ := h.tiling.buddy_block hB hk
          rcases hb2 with hb2 | hb2 | hb2
          · right
            rw [(h.free_hdr _ _ hb2).2]
            intro e
            exact hmem (e ▸ hb2)
          · left
            rw [(h.res_hdr _ _ hb2).1]
            exact fun e => hne e.symm
          · exfalso
            have hal := h.tiling.aligned b k hB
            exact bud_ne hal.1 hal.2 hk hb2.1
        have hc2 : ¬ (k < s.kval_m ∧ bud b k ∈ F k) := fun hh => hmem hh.2
        rw [if_pos hc, if_neg hc2]
        exact ⟨s, rfl, rfl, rfl, h, fun _ => hmem⟩
    · have hc2 : ¬ (k < s.kval_m ∧ bud b k ∈ F k) := fun hh => hk hh.1
      rw [hkv, if_neg hk, if_neg hc2]
      exact ⟨s, rfl, rfl, rfl, h, fun hh => absurd hh hk⟩

theorem free_spec {cfg : Config} (hne : cfg.BLOCK_AVAIL ≠ cfg.BLOCK_RESERVED)
    {s : Pool} {F : Nat → List Nat} {R : Nat → Nat → Prop} (h : Inv cfg s F R nothing)
    {b k : Nat} (hR : R b k) :
    (buddy_free cfg s PoolPtr.valid (some (s.base + b + cfg.sizeof_avail))).base = s.base ∧
    (buddy_free cfg s PoolPtr.valid (some (s.base + b + cfg.sizeof_avail))).kval_m
      = s.kval_m ∧
    Inv cfg (buddy_free cfg s PoolPtr.valid (some (s.base + b + cfg.sizeof_avail)))
      (Function.update (merge_lists s.kval_m (s.kval_m - k) F b k).1
        (merge_lists s.kval_m (s.kval_m - k) F b k).2.2
        ((merge_lists s.kval_m (s.kval_m - k) F b k).2.1 ::
          (merge_lists s.kval_m (s.kval_m - k) F b k).1
            (merge_lists s.kval_m (s.kval_m - k) F b k).2.2))
      (fun x j => R x j ∧ ¬ (x = b ∧ j = k)) nothing := by
  unfold buddy_free
  simp only [Nat.add_sub_cancel]
  have hblk : Ptr.block (s.base + b) = s.blk b := rfl
  rw [hblk]
  have hrel : Inv cfg (s.set_tag cfg (s.blk b) cfg.BLOCK_AVAIL) F
      (fun x j => R x j ∧ ¬ (x = b ∧ j = k)) (single b k) :=
    (h.release hne hR).congr (fun _ _ => Iff.rfl) (by
      intro x j; simp [single, nothing])
  have hkv : ((s.set_tag cfg (s.blk b) cfg.BLOCK_AVAIL).hdr (s.blk b)).kval = k :=
    (hrel.hand_hdr b k ⟨rfl, rfl⟩).2.1
  rw [hkv]
  obtain ⟨s2, e1, e2, e3, e4, e5⟩ := free_loop_spec hne (s.kval_m - k) _ _ b k hrel
    (le_refl _)
  simp only [set_tag_kval_m, blk_set_tag, set_tag_base] at e1 e2 e3 e4 e5 ⊢
  rw [e1]
  simp only
  have hbe : s.blk = s2.blk := by
    funext x
    simp only [Pool.blk]
    rw [e2]
  rw [hbe]
  have hkv2 := (e4.hand_hdr _ _ ⟨rfl, rfl⟩).2.1
  rw [hkv2]
  have hp := e4.push (b := (merge_lists s.kval_m (s.kval_m - k) F b k).2.1)
    (k := (merge_lists s.kval_m (s.kval_m - k) F b k).2.2) ⟨rfl, rfl⟩ (by
      intro hlt
      exact e5 (e3 ▸ hlt))
  refine ⟨by simpa using e2, by simpa using e3, ?_⟩
  exact hp.congr (fun _ _ => Iff.rfl) (by
    intro x j; simp [single, nothing])

/-! ## The state after `buddy_init` -/

theorem init_loop_fields (cfg : Config) (kval : Nat) :
    ∀ fuel i (s : Pool),
      (init_loop cfg kval fuel i s).base = s.base ∧
      (init_loop cfg kval fuel i s).kval_m = s.kval_m ∧
      (init_loop cfg kval fuel i s).numbytes = s.numbytes ∧
      (∀ a, (init_loop cfg kval fuel i s).hdr (Ptr.block a) = s.hdr (Ptr.block a)) ∧
      (∀ j, (init_loop cfg kval fuel i s).hdr (Ptr.sentinel j) =
        if i ≤ j ∧ j ≤ kval ∧ j < i + fuel then
          ⟨cfg.BLOCK_UNUSED, j, Ptr.sentinel j, Ptr.sentinel j⟩
        else s.hdr (Ptr.sentinel j)) := by
  intro fuel
  induction fuel with
  | zero =>
    intro i s
    refine ⟨rfl, rfl, rfl, fun _ => rfl, ?_⟩
    intro j
    have : ¬ (i ≤ j ∧ j ≤ kval ∧ j < i + 0) := by omega
    rw [if_neg this]
    rfl
  | succ fuel ih =>
    intro i s
    unfold init_loop
    by_cases hi : i ≤ kval
    · rw [if_pos hi]
      dsimp only
      obtain ⟨h1, h2, h3, h4, h5⟩ := ih (i + 1)
        ((((s.set_prev cfg (Ptr.sentinel i) (Ptr.sentinel i)).set_next cfg (Ptr.sentinel i)
          (((s.set_prev cfg (Ptr.sentinel i) (Ptr.sentinel i)).hdr (Ptr.sentinel i)).prev)).set_kval
          cfg (Ptr.sentinel i) i).set_tag cfg (Ptr.sentinel i) cfg.BLOCK_UNUSED)
      refine ⟨h1, h2, h3, ?_, ?_⟩
      · intro a
        rw [h4]
        simp [Pool.set_tag, Pool.set_kval, Pool.set_next, Pool.set_prev, Pool.store]
      · intro j
        rw [h5]
        by_cases c1 : i + 1 ≤ j ∧ j ≤ kval ∧ j < i + 1 + fuel
        · rw [if_pos c1, if_pos (by omega)]
        · rw [if_neg c1]
          by_cases c2 : j = i
          · subst c2
            rw [if_pos (by omega)]
            simp [Pool.set_tag, Pool.set_kval, Pool.set_next, Pool.set_prev, Pool.store]
          · rw [if_neg (by omega)]
            simp [Pool.set_tag, Pool.set_kval, Pool.set_next, Pool.set_prev, Pool.store, c2]
    · rw [if_neg hi]
      refine ⟨rfl, rfl, rfl, fun _ => rfl, ?_⟩
      intro j
      rw [if_neg (by omega)]

/-- The free lists of a fresh pool of top order `K`. -/
theorem init_spec {cfg : Config} {base size : Nat} {s : Pool}
    (h : buddy_init cfg (some base) size = some s) :
    s.base = base ∧ s.kval_m < 64 ∧ s.numbytes = 2 ^ s.kval_m ∧
    (∀ j, j ≤ s.kval_m → (s.hdr (Ptr.sentinel j)).tag = cfg.BLOCK_UNUSED ∧
      (s.hdr (Ptr.sentinel j)).kval = j) ∧
    (∀ j, j < s.kval_m → (s.hdr (Ptr.sentinel j)).next = Ptr.sentinel j ∧
      (s.hdr (Ptr.sentinel j)).prev = Ptr.sentinel j) ∧
    (s.hdr (Ptr.sentinel s.kval_m)).next = Ptr.block base ∧
    (s.hdr (Ptr.sentinel s.kval_m)).prev = Ptr.block base ∧
    s.hdr (Ptr.block base) =
      ⟨cfg.BLOCK_AVAIL, s.kval_m, Ptr.sentinel s.kval_m, Ptr.sentinel s.kval_m⟩ := by
  unfold buddy_init at h
  cases hk0 : (if size = 0 then some cfg.DEFAULT_K else btok size) with
  | none => rw [hk0] at h; simp at h
  | some k0 =>
    rw [hk0] at h
    dsimp only at h
    generalize hK : (if (if k0 < cfg.MIN_K then cfg.MIN_K else k0) > cfg.MAX_K then
      (cfg.MAX_K + 2 ^ 64 - 1) % 2 ^ 64 else if k0 < cfg.MIN_K then cfg.MIN_K else k0) = K at h
    cases hsh : shl1 K with
    | none => rw [hsh] at h; simp at h
    | some nb =>
      rw [hsh] at h
      simp only [Option.some.injEq] at h
      unfold shl1 at hsh
      have hK64 : K < 64 := by
        by_contra hc
        rw [if_neg hc] at hsh
        simp at hsh
      rw [if_pos hK64] at hsh
      simp only [Option.some.injEq] at hsh
      obtain ⟨h1, h2, h3, h4, h5⟩ := init_loop_fields cfg K (K + 1) 0
        ⟨K, nb, base, fun _ => Avail.zero, fun _ => some 0⟩
      have hsK : ∀ j, j ≤ K → (init_loop cfg K (K + 1) 0
          ⟨K, nb, base, fun _ => Avail.zero, fun _ => some 0⟩).hdr (Ptr.sentinel j) =
          ⟨cfg.BLOCK_UNUSED, j, Ptr.sentinel j, Ptr.sentinel j⟩ := by
        intro j hj
        rw [h5, if_pos (by omega)]
      generalize init_loop cfg K (K + 1) 0
        ⟨K, nb, base, fun _ => Avail.zero, fun _ => some 0⟩ = sL at h h1 h2 h3 h4 hsK
      dsimp only at h1 h2 h3
      subst h
      have e1 : ∀ (s0 : Pool) (p v : Ptr) (q : Ptr),
          (s0.set_next cfg p v).hdr q = if q = p then { s0.hdr p with next := v } else s0.hdr q :=
        fun _ _ _ _ => rfl
      have e2 : ∀ (s0 : Pool) (p v : Ptr) (q : Ptr),
          (s0.set_prev cfg p v).hdr q = if q = p then { s0.hdr p with prev := v } else s0.hdr q :=
        fun _ _ _ _ => rfl
      have e3 : ∀ (s0 : Pool) (p : Ptr) (v : Nat) (q : Ptr),
          (s0.set_tag cfg p v).hdr q = if q = p then { s0.hdr p with tag := v } else s0.hdr q :=
        fun _ _ _ _ => rfl
      have e4 : ∀ (s0 : Pool) (p : Ptr) (v : Nat) (q : Ptr),
          (s0.set_kval cfg p v).hdr q = if q = p then { s0.hdr p with kval := v } else s0.hdr q :=
        fun _ _ _ _ => rfl
      simp only [set_next_kval_m, set_prev_kval_m, set_tag_kval_m, set_kval_kval_m, h2,
        set_next_base, set_prev_base, set_tag_base, set_kval_base, h1]
      refine ⟨trivial, hK64, ?_, ?_, ?_, ?_, ?_, ?_⟩
      · show sL.numbytes = _
        rw [h3, hsh]
      · intro j hj
        have hKK := hsK K (le_refl _)
        by_cases hjK : j = K
        · subst hjK
          simp [e1, e2, e3, e4, hKK]
        · simp [e1, e2, e3, e4, hsK j hj, hjK]
      · intro j hj
        have hjK : j ≠ K := by omega
        simp [e1, e2, e3, e4, hsK j (by omega), hjK]
      · simp [e1, e2, e3, e4, hsK K (le_refl _)]
      · simp [e1, e2, e3, e4, hsK K (le_refl _)]
      · simp [e1, e2, e3, e4, hsK K (le_refl _), h4]

theorem init_inv {cfg : Config} {base size : Nat} {s : Pool}
    (h : buddy_init cfg (some base) size = some s) :
    Inv cfg s (fun k => if k = s.kval_m then [0] else []) nothing nothing := by
  obtain ⟨h1, h2, h3, h4, h5, h6, h7, h8⟩ := init_spec h
  have hb0 : s.blk 0 = Ptr.block base := by simp [Pool.blk, h1]
  constructor
  · intro k hk
    by_cases e : k = s.kval_m
    · subst e
      simp only [if_true, List.map_cons, List.map_nil, hb0]
      exact ⟨h6, by rw [h8], by rw [h8], h7⟩
    · simp only [if_neg e, List.map_nil]
      exact h5 k (by omega)
  · exact h4
  · intro k
    by_cases e : k = s.kval_m <;> simp [e]
  · intro o k ho
    by_cases e : k = s.kval_m
    · subst e
      simp only [if_true, List.mem_singleton] at ho
      subst ho
      rw [hb0, h8]
      exact ⟨rfl, rfl⟩
    · simp [e] at ho
  · intro o k ho
    exact ho.elim
  · intro o k ho
    exact ho.elim
  · have hB : ∀ o k, Blk (fun k => if k = s.kval_m then [0] else []) nothing nothing o k ↔
        (o = 0 ∧ k = s.kval_m) := by
      intro o k
      unfold Blk nothing
      by_cases e : k = s.kval_m <;> simp [e]
    constructor
    · intro o k hb
      obtain ⟨rfl, rfl⟩ := (hB o k).1 hb
      exact ⟨dvd_zero _, by omega⟩
    · intro o k o2 k2 hb hb2 hne
      obtain ⟨rfl, rfl⟩ := (hB o k).1 hb
      obtain ⟨rfl, rfl⟩ := (hB o2 k2).1 hb2
      omega
    · intro x hx
      exact ⟨0, s.kval_m, (hB _ _).2 ⟨rfl, rfl⟩, by omega, by omega⟩
  · intro o k ho hk
    have e : k ≠ s.kval_m := by omega
    simp [e] at ho

/-! ## Reachable states -/

/-- A call of `buddy_malloc` that returns a payload keeps the state good, with the new
payload outstanding. -/
theorem good_malloc {cfg : Config} (hne : cfg.BLOCK_AVAIL ≠ cfg.BLOCK_RESERVED)
    {s : Pool} {O : List (Nat × Nat)} (hg : Good cfg s O) {n p : Nat} {r : Result}
    (hm : buddy_malloc cfg s PoolPtr.valid n = some r) (hp : r.ret = some p) :
    Good cfg r.pool ((p, n) :: O) := by
  obtain ⟨hnd, hpay, F, hinv⟩ := hg
  have hn : n ≠ 0 := by
    intro e
    subst e
    unfold buddy_malloc at hm
    simp at hm
    rw [← hm] at hp
    simp at hp
  cases hnk : needed_k cfg n with
  | none =>
    rw [malloc_undefined s hn hnk] at hm
    simp at hm
  | some nk =>
    rcases malloc_cases hne hinv hn hnk with ⟨-, h2⟩ |
      ⟨k0, o, rest, h1, h2, h3, h4, r2, h5, h6, h7, h8, h9, h10⟩
    · rw [h2] at hm
      simp only [Option.some.injEq] at hm
      rw [← hm] at hp
      simp at hp
    · rw [h5] at hm
      simp only [Option.some.injEq] at hm
      subst hm
      rw [h6] at hp
      simp only [Option.some.injEq] at hp
      subst hp
      have ho : o ∈ F k0 := by rw [h4]; simp
      have hnew : ∀ n2, (s.base + o + cfg.sizeof_avail, n2) ∉ O := by
        intro n2 hmem
        obtain ⟨o2, k2, e1, e2, -⟩ := hpay _ hmem
        simp only at e1 e2
        have : o = o2 := by omega
        subst this
        exact hinv.R_notin_F hne (k := k2) ⟨n2, hmem, e2⟩ k0 ho
      refine ⟨?_, ?_, _, h10.congr ?_ (fun _ _ => Iff.rfl)⟩
      · simp only [List.map_cons, List.nodup_cons]
        refine ⟨?_, hnd⟩
        intro hmem
        obtain ⟨⟨p2, n2⟩, hm2, e⟩ := List.mem_map.1 hmem
        simp only at e
        subst e
        exact hnew n2 hm2
      · intro pn hpn
        rcases List.mem_cons.1 hpn with rfl | hpn
        · exact ⟨o, nk, by rw [h8], hnk, hn⟩
        · rw [h8]
          exact hpay pn hpn
      · intro x j
        rw [h8]
        simp only [Rof, List.mem_cons, Prod.mk.injEq]
        constructor
        · rintro ⟨n2, ⟨e1, e2⟩ | hmem, e3⟩
          · subst e2
            right
            rw [hnk] at e3
            simp only [Option.some.injEq] at e3
            exact ⟨by omega, e3.symm⟩
          · left
            exact ⟨n2, hmem, e3⟩
        · rintro (⟨n2, hmem, e3⟩ | ⟨rfl, rfl⟩)
          · exact ⟨n2, Or.inr hmem, e3⟩
          · exact ⟨n, Or.inl ⟨rfl, rfl⟩, hnk⟩

/-- A call of `buddy_malloc` that returns `NULL` leaves the state as it was. -/
theorem malloc_null_state {cfg : Config} (hne : cfg.BLOCK_AVAIL ≠ cfg.BLOCK_RESERVED)
    {s : Pool} {O : List (Nat × Nat)} (hg : Good cfg s O) {n : Nat} {r : Result}
    (hm : buddy_malloc cfg s PoolPtr.valid n = some r) (hp : r.ret = none) :
    r.pool = s := by
  obtain ⟨hnd, hpay, F, hinv⟩ := hg
  by_cases hn : n = 0
  · subst hn
    unfold buddy_malloc at hm
    simp at hm
    rw [← hm]
  · cases hnk : needed_k cfg n with
    | none =>
      rw [malloc_undefined s hn hnk] at hm
      simp at hm
    | some nk =>
      rcases malloc_cases hne hinv hn hnk with ⟨-, h2⟩ |
        ⟨k0, o, rest, h1, h2, h3, h4, r2, h5, h6, h7, h8, h9, h10⟩
      · rw [h2] at hm
        simp only [Option.some.injEq] at hm
        rw [← hm]
      · rw [h5] at hm
        simp only [Option.some.injEq] at hm
        subst hm
        rw [h6] at hp
        simp at hp

/-- A call of `buddy_free` on an outstanding payload keeps the state good, with that
payload no longer outstanding. -/
theorem good_free {cfg : Config} (hne : cfg.BLOCK_AVAIL ≠ cfg.BLOCK_RESERVED)
    {s : Pool} {O : List (Nat × Nat)} (hg : Good cfg s O) {p n : Nat} (hmem : (p, n) ∈ O) :
    Good cfg (buddy_free cfg s PoolPtr.valid (some p)) (O.erase (p, n)) := by
  obtain ⟨hnd, hpay, F, hinv⟩ := hg
  obtain ⟨b, k, e1, e2, -⟩ := hpay _ hmem
  simp only at e1 e2
  subst e1
  have hR : Rof cfg s.base O b k := ⟨n, hmem, e2⟩
  obtain ⟨f1, f2, f3⟩ := free_spec hne hinv hR
  have hndO : O.Nodup := List.Nodup.of_map _ hnd
  refine ⟨?_, ?_, _, f3.congr ?_ (fun _ _ => Iff.rfl)⟩
  · exact List.Nodup.sublist ((List.erase_sublist _ _).map _) hnd
  · intro pn hpn
    rw [f1]
    exact hpay pn (List.mem_of_mem_erase hpn)
  · intro x j
    rw [f1]
    simp only [Rof, hndO.mem_erase_iff, Prod.mk.injEq, ne_eq]
    constructor
    · rintro ⟨n2, ⟨e3, hm2⟩, e4⟩
      refine ⟨⟨n2, hm2, e4⟩, ?_⟩
      rintro ⟨rfl, rfl⟩
      apply e3
      refine ⟨rfl, ?_⟩
      have := List.inj_on_of_nodup_map hnd hm2 hmem rfl
      simpa using this
    · rintro ⟨⟨n2, hm2, e4⟩, e5⟩
      refine ⟨n2, ⟨?_, hm2⟩, e4⟩
      rintro ⟨e6, rfl⟩
      apply e5
      rw [e2] at e4
      simp only [Option.some.injEq] at e4
      exact ⟨by omega, e4.symm⟩

theorem reach_good {cfg : Config} (hne : cfg.BLOCK_AVAIL ≠ cfg.BLOCK_RESERVED)
    {s : Pool} {O : List (Nat × Nat)} (h : Reach cfg s O) : Good cfg s O := by
  induction h with
  | init base size s hi hm =>
    refine ⟨by simp, by simp, _, (init_inv hi).congr ?_ (fun _ _ => Iff.rfl)⟩
    intro o k
    simp [Rof, nothing]
  | malloc s O n p r hr hm hp ih => exact good_malloc hne ih hm hp
  | malloc_null s O n r hr hm hp ih =>
    rw [malloc_null_state hne ih hm hp]
    exact ih
  | free s O p n hr hmem ih => exact good_free hne ih hmem

/-! ## States reached with `buddy_realloc` -/

/-- A call of `buddy_malloc` keeps the top order of the pool. -/
theorem malloc_kval_m {cfg : Config} (hne : cfg.BLOCK_AVAIL ≠ cfg.BLOCK_RESERVED)
    {s : Pool} {O : List (Nat × Nat)} (hg : Good cfg s O)
    {n : Nat} {r : Result} (hr : buddy_malloc cfg s PoolPtr.valid n = some r) :
    r.pool.kval_m = s.kval_m := by
  obtain ⟨-, -, F, h⟩ := hg
  by_cases hn : n = 0
  · subst hn
    simp [buddy_malloc] at hr
    rw [← hr]
  · cases hnk : needed_k cfg n with
    | none =>
      rw [malloc_undefined s hn hnk] at hr
      simp at hr
    | some nk =>
      rcases malloc_cases hne h hn hnk with ⟨-, h2⟩ |
        ⟨k0, o, rest, h1, h2, h3, h4, r2, h5, h6, h7, h8, h9, -⟩
      · rw [h2] at hr
        simp only [Option.some.injEq] at hr
        rw [← hr]
      · rw [h5] at hr
        simp only [Option.some.injEq] at hr
        subst hr
        exact h9

/-- A call of `buddy_free` on an outstanding payload keeps the top order of the pool. -/
theorem free_kval_m {cfg : Config} (hne : cfg.BLOCK_AVAIL ≠ cfg.BLOCK_RESERVED)
    {s : Pool} {O : List (Nat × Nat)} (hg : Good cfg s O) {p n : Nat} (hmem : (p, n) ∈ O) :
    (buddy_free cfg s PoolPtr.valid (some p)).kval_m = s.kval_m := by
  obtain ⟨-, hpay, F, hinv⟩ := hg
  obtain ⟨b, k, e1, e2, e3⟩ := hpay _ hmem
  simp only at e1 e2 e3
  have hR : Rof cfg s.base O b k := ⟨n, e1 ▸ hmem, e2⟩
  rw [e1]
  exact (free_spec hne hinv hR).2.1

/-- Copying payload bytes changes no header: the state after `memcpy` represents the same
blocks. -/
theorem good_memcpy {cfg : Config} {s : Pool} {O : List (Nat × Nat)} (hg : Good cfg s O)
    (dst src n : Nat) : Good cfg (memcpy s dst src n) O := by
  obtain ⟨hnd, hpay, F, hinv⟩ := hg
  refine ⟨hnd, hpay, F, ?_⟩
  exact ⟨fun k hk => @Seg.frame s (memcpy s dst src n) ((F k).map s.blk) _ _ (fun _ _ => rfl)
      (fun _ _ => rfl) (hinv.lists k hk),
    hinv.sentinels, hinv.nodup, hinv.free_hdr, hinv.res_hdr, hinv.hand_hdr, hinv.tiling,
    hinv.nobuddy⟩

/-- A resize with a size other than zero and at most `min_req` returns its argument and
leaves the state as it was. -/
theorem realloc_keep_spec (cfg : Config) (s : Pool) (p n : Nat) (hn : n ≠ 0)
    (hle : n ≤ min_req cfg s p) :
    buddy_realloc cfg s PoolPtr.valid (some p) n = some ⟨s, some p, none⟩ := by
  unfold buddy_realloc
  simp only [if_neg hn]
  have hnot : ¬ n > min_req cfg s p := by omega
  unfold min_req at hnot
  rw [if_neg hnot]

/-- A resize above `min_req` of an outstanding payload: either the inner `buddy_malloc`
returned `NULL` and the state is what it was, or the result is another payload `q`, the
old payload is no longer outstanding, and the state represents the remaining payloads
together with `q`. -/
theorem realloc_move_spec {cfg : Config} (hne : cfg.BLOCK_AVAIL ≠ cfg.BLOCK_RESERVED)
    {s : Pool} {O : List (Nat × Nat)} (hg : Good cfg s O) {p n0 : Nat} (hmem : (p, n0) ∈ O)
    {n : Nat} (hgt : n > min_req cfg s p) {r : Result}
    (hr : buddy_realloc cfg s PoolPtr.valid (some p) n = some r) :
    (r.ret = none ∧ r.pool = s) ∨
    ∃ q, r.ret = some q ∧ q ≠ p ∧ Good cfg r.pool ((q, n) :: O.erase (p, n0)) ∧
      r.pool.kval_m = s.kval_m := by
  have hn : n ≠ 0 := by omega
  unfold buddy_realloc at hr
  simp only [if_neg hn] at hr
  have hgt2 := hgt
  unfold min_req at hgt2
  rw [if_pos hgt2] at hr
  cases hm : buddy_malloc cfg s PoolPtr.valid n with
  | none => rw [hm] at hr; simp at hr
  | some r1 =>
    rw [hm] at hr
    simp only at hr
    cases hret : r1.ret with
    | none =>
      rw [hret] at hr
      simp only [Option.some.injEq] at hr
      left
      rw [← hr]
      exact ⟨rfl, @malloc_null_state cfg hne s O hg n r1 hm hret⟩
    | some q1 =>
      rw [hret] at hr
      simp only [Option.some.injEq] at hr
      generalize (if (2 ^ (s.hdr (Ptr.block (p - cfg.sizeof_avail))).kval + 2 ^ 64
        - cfg.sizeof_avail) % 2 ^ 64 < n then
        (2 ^ (s.hdr (Ptr.block (p - cfg.sizeof_avail))).kval + 2 ^ 64 - cfg.sizeof_avail)
          % 2 ^ 64 else n) = cs at hr
      subst hr
      right
      have hg1 := good_malloc hne hg hm hret
      have hqp : q1 ≠ p := by
        intro e
        have := hg1.nodup
        simp only [List.map_cons, List.nodup_cons] at this
        apply this.1
        rw [e]
        exact List.mem_map.2 ⟨(p, n0), hmem, rfl⟩
      have hg2 := good_memcpy hg1 q1 p cs
      have hmem2 : (p, n0) ∈ (q1, n) :: O := List.mem_cons_of_mem _ hmem
      have hg3 := good_free hne hg2 hmem2
      have herase : ((q1, n) :: O).erase (p, n0) = (q1, n) :: O.erase (p, n0) := by
        rw [List.erase_cons_tail]
        simp [hqp]
      rw [herase] at hg3
      refine ⟨q1, rfl, hqp, hg3, ?_⟩
      simp only
      rw [free_kval_m hne hg2 hmem2]
      exact malloc_kval_m hne hg hm

/-- A resize of an outstanding payload with a size other than zero that returns `NULL`
or its argument leaves the state as it was. -/
theorem realloc_same_state {cfg : Config} (hne : cfg.BLOCK_AVAIL ≠ cfg.BLOCK_RESERVED)
    {s : Pool} {O : List (Nat × Nat)} (hg : Good cfg s O) {p n0 : Nat} (hmem : (p, n0) ∈ O)
    {n : Nat} (hn : n ≠ 0) {r : Result}
    (hr : buddy_realloc cfg s PoolPtr.valid (some p) n = some r)
    (hret : r.ret = none ∨ r.ret = some p) : r.pool = s := by
  by_cases hle : n ≤ min_req cfg s p
  · rw [realloc_keep_spec cfg s p n hn hle] at hr
    simp only [Option.some.injEq] at hr
    rw [← hr]
  · rcases realloc_move_spec hne hg hmem (by omega) hr with ⟨-, h2⟩ | ⟨q, h1, h2, -⟩
    · exact h2
    · rcases hret with hret | hret
      · rw [h1] at hret
        simp at hret
      · rw [h1] at hret
        simp only [Option.some.injEq] at hret
        exact absurd hret h2

/-- Every state reached with `buddy_malloc` and `buddy_free` alone is one of the states
reached with `buddy_realloc` as well. -/
theorem reachR_of_reach {cfg : Config} {s : Pool} {O : List (Nat × Nat)}
    (h : Reach cfg s O) : ReachR cfg s O := by
  induction h with
  | init base size s hi hm => exact ReachR.init base size s hi hm
  | malloc s O n p r _ hm hp ih => exact ReachR.malloc s O n p r ih hm hp
  | malloc_null s O n r _ hm hp ih => exact ReachR.malloc_null s O n r ih hm hp
  | free s O p n _ hmem ih => exact ReachR.free s O p n ih hmem

/-- Every state reached, resizes included, is good and has a top order below 64. -/
theorem reachR_good {cfg : Config} (hne : cfg.BLOCK_AVAIL ≠ cfg.BLOCK_RESERVED)
    {s : Pool} {O : List (Nat × Nat)} (h : ReachR cfg s O) :
    Good cfg s O ∧ s.kval_m < 64 := by
  induction h with
  | init base size s hi hm =>
    exact ⟨reach_good hne (Reach.init base size s hi hm), (init_spec hi).2.1⟩
  | malloc s O n p r _ hm hp ih =>
    exact ⟨good_malloc hne ih.1 hm hp, by rw [malloc_kval_m hne ih.1 hm]; exact ih.2⟩
  | malloc_null s O n r _ hm hp ih =>
    rw [malloc_null_state hne ih.1 hm hp]
    exact ih
  | free s O p n _ hmem ih =>
    exact ⟨good_free hne ih.1 hmem, by rw [free_kval_m hne ih.1 hmem]; exact ih.2⟩
  | realloc_keep s O p n0 n r _ hmem hr hret ih =>
    have hn : n ≠ 0 := by
      intro e
      subst e
      simp [buddy_realloc] at hr
      rw [← hr] at hret
      simp at hret
    rw [realloc_same_state hne ih.1 hmem hn hr (Or.inr hret)]
    exact ih
  | realloc_null s O p n0 n r _ hmem hn hr hret ih =>
    rw [realloc_same_state hne ih.1 hmem hn hr (Or.inl hret)]
    exact ih
  | realloc_move s O p n0 n q r _ hmem hw hr hret hqp ih =>
    have hn : n ≠ 0 := by
      intro e
      subst e
      simp [buddy_realloc] at hr
      rw [← hr] at hret
      simp at hret
    by_cases hle : n ≤ min_req cfg s p
    · rw [realloc_keep_spec cfg s p n hn hle] at hr
      simp only [Option.some.injEq] at hr
      rw [← hr] at hret
      simp only [Option.some.injEq] at hret
      exact absurd hret.symm hqp
    · rcases realloc_move_spec hne ih.1 hmem (by omega) hr with ⟨h1, -⟩ | ⟨q2, h1, h2, h3, h4⟩
      · rw [h1] at hret
        simp at hret
      · rw [h1] at hret
        simp only [Option.some.injEq] at hret
        subst hret
        exact ⟨h3, by rw [h4]; exact ih.2⟩

/-! ## C1: full coalescing -/

theorem list_eq_singleton_zero {l : List Nat} (hnd : l.Nodup) (hall : ∀ x, x ∈ l → x = 0)
    (h0 : 0 ∈ l) : l = [0] := by
  cases l with
  | nil => simp at h0
  | cons a t =>
    have ha : a = 0 := hall a (List.mem_cons_self _ _)
    subst ha
    cases t with
    | nil => rfl
    | cons b t =>
      have hb : b = 0 := hall b (by simp)
      subst hb
      simp at hnd

/-- A good state with nothing outstanding has the shape of a fresh pool. -/
theorem good_empty_full {cfg : Config} {s : Pool} (hg : Good cfg s []) : IsFull cfg s := by
  obtain ⟨-, -, F, hinv⟩ := hg
  have hB : ∀ o k, Blk F (Rof cfg s.base []) nothing o k ↔ o ∈ F k := by
    intro o k
    simp [Blk, Rof, nothing]
  have ht : Tiling s.kval_m (fun o k => o ∈ F k) := hinv.tiling.of_iff (fun o k => (hB o k).symm)
  obtain ⟨h0, hall⟩ := ht.whole (fun o k ho hk => hinv.nobuddy o k ho hk)
  have hK : F s.kval_m = [0] :=
    list_eq_singleton_zero (hinv.nodup _) (fun x hx => (hall x _ hx).1) h0
  have hlow : ∀ i, i < s.kval_m → F i = [] := by
    intro i hi
    apply List.eq_nil_iff_forall_not_mem.2
    intro x hx
    have := (hall x i hx).2
    omega
  have hb0 : s.blk 0 = Ptr.block s.base := by simp [Pool.blk]
  refine ⟨?_, ?_⟩
  · intro i hi
    have hl := hinv.lists i (by omega)
    rw [hlow i hi] at hl
    exact ⟨hl.1, hl.2, hinv.sentinels i (by omega)⟩
  · have hl := hinv.lists s.kval_m (le_refl _)
    rw [hK] at hl
    simp only [List.map_cons, List.map_nil, hb0] at hl
    have hh := hinv.free_hdr 0 s.kval_m (by rw [hK]; simp)
    rw [hb0] at hh
    exact ⟨hl.1, hl.2.2.2, hh.1, hl.2.2.1, hl.2.1⟩

/-- A reachable state with nothing outstanding has the shape of a fresh pool. -/
theorem reach_empty_full (cfg : Config) (hne : cfg.BLOCK_AVAIL ≠ cfg.BLOCK_RESERVED)
    (s : Pool) (h : Reach cfg s []) : IsFull cfg s :=
  good_empty_full (reach_good hne h)

/-- C1 (full coalescing): in every state reached from `buddy_init` by calls of
`buddy_malloc` and `buddy_free` (each free on an outstanding payload), once no payload is
outstanding the pool has its freshly initialised shape: every `avail[i]` below the top
order is an empty self-loop with tag `BLOCK_UNUSED` and `kval == i`, and `avail[kval_m]`
holds exactly the block at `base`, tagged `BLOCK_AVAIL`. -/
theorem full_coalescing (cfg : Config) (hne : cfg.BLOCK_AVAIL ≠ cfg.BLOCK_RESERVED)
    (s : Pool) (h : Reach cfg s []) : IsFull cfg s :=
  reach_empty_full cfg hne s h

theorem pool0_init : buddy_init cfg0 (some 4096) (2 ^ 20) = some pool0 := by
  rfl

theorem full_coalescing_witness :
    IsFull cfg0 (buddy_free cfg0 (run_malloc cfg0 pool0 100).pool PoolPtr.valid
      ((run_malloc cfg0 pool0 100).ret)) :=
  full_coalescing cfg0 (by decide) _
    (Reach.free _ _ 4120 100
      (Reach.malloc pool0 [] 100 4120 (run_malloc cfg0 pool0 100)
        (Reach.init 4096 (2 ^ 20) pool0 pool0_init ⟨by decide, by decide⟩) (by rfl) (by rfl))
      (by simp))

/-! ## The order computed by `btok` -/

theorem btok_loop_spec (bytes : Nat) :
    ∀ fuel k r, btok_loop bytes fuel k = some r → (∀ j, j < k → 2 ^ j < bytes) →
      bytes ≤ 2 ^ r ∧ (∀ j, j < r → 2 ^ j < bytes) ∧ r < 64 := by
  intro fuel
  induction fuel with
  | zero =>
    intro k r h
    simp [btok_loop] at h
  | succ fuel ih =>
    intro k r h hlow
    unfold btok_loop shl1 at h
    by_cases hk : k < 64
    · rw [if_pos hk] at h
      dsimp only at h
      by_cases hb : bytes > 2 ^ k
      · rw [if_pos hb] at h
        refine ih (k + 1) r h ?_
        intro j hj
        by_cases e : j = k
        · rw [e]; exact hb
        · exact hlow j (by omega)
      · rw [if_neg hb] at h
        simp only [Option.some.injEq] at h
        subst h
        exact ⟨by omega, hlow, hk⟩
    · rw [if_neg hk] at h
      simp at h

theorem btok_spec {bytes r : Nat} (h : btok bytes = some r) :
    bytes ≤ 2 ^ r ∧ (∀ j, bytes ≤ 2 ^ j → r ≤ j) ∧ r < 64 := by
  unfold btok at h
  by_cases h0 : bytes = 0
  · rw [if_pos h0] at h
    simp only [Option.some.injEq] at h
    subst h
    subst h0
    exact ⟨by simp, fun j _ => Nat.zero_le _, by norm_num⟩
  · rw [if_neg h0] at h
    obtain ⟨h1, h2, h3⟩ := btok_loop_spec bytes 65 0 r h (fun j hj => by omega)
    refine ⟨h1, ?_, h3⟩
    intro j hj
    by_contra hc
    have := h2 j (by omega)
    omega

/-! ## C3: the order of the block returned -/

/-- C3 (smallest sufficient block): in a state reached from `buddy_init` by calls of
`buddy_malloc`, `buddy_free` and `buddy_realloc`, when `buddy_malloc(pool, n)` returns a
payload `p` and `n + sizeof(struct avail)` does not wrap, the header at
`p - sizeof(struct avail)` has tag `BLOCK_RESERVED` and `kval` equal to
`max(SMALLEST_K, btok(n + sizeof(struct avail)))`, which is the smallest order at or above
`SMALLEST_K` whose block holds the header and `n` bytes. -/
theorem malloc_block_order (cfg : Config) (hne : cfg.BLOCK_AVAIL ≠ cfg.BLOCK_RESERVED)
    (s : Pool) (O : List (Nat × Nat)) (h : ReachR cfg s O) (n p : Nat) (r : Result)
    (hw : n + cfg.sizeof_avail < 2 ^ 64)
    (hr : buddy_malloc cfg s PoolPtr.valid n = some r) (hp : r.ret = some p) :
    ∃ k0, btok (n + cfg.sizeof_avail) = some k0 ∧
      (r.pool.hdr (Ptr.block (p - cfg.sizeof_avail))).tag = cfg.BLOCK_RESERVED ∧
      (r.pool.hdr (Ptr.block (p - cfg.sizeof_avail))).kval = max cfg.SMALLEST_K k0 ∧
      n + cfg.sizeof_avail ≤ 2 ^ (r.pool.hdr (Ptr.block (p - cfg.sizeof_avail))).kval ∧
      ∀ j, cfg.SMALLEST_K ≤ j → n + cfg.sizeof_avail ≤ 2 ^ j →
        (r.pool.hdr (Ptr.block (p - cfg.sizeof_avail))).kval ≤ j := by
  obtain ⟨-, -, F, hinv⟩ := (reachR_good hne h).1
  have hn : n ≠ 0 := by
    intro e
    subst e
    unfold buddy_malloc at hr
    simp at hr
    rw [← hr] at hp
    simp at hp
  cases hnk : needed_k cfg n with
  | none =>
    rw [malloc_undefined s hn hnk] at hr
    simp at hr
  | some nk =>
    obtain ⟨k0, hb, hnk2⟩ := needed_k_some hnk
    rw [Nat.mod_eq_of_lt hw] at hb
    rcases malloc_cases hne hinv hn hnk with ⟨-, h2⟩ |
      ⟨k1, o, rest, h1, h2, h3, h4, r2, h5, h6, h7, h8, h9, h10⟩
    · rw [h2] at hr
      simp only [Option.some.injEq] at hr
      rw [← hr] at hp
      simp at hp
    · rw [h5] at hr
      simp only [Option.some.injEq] at hr
      subst hr
      rw [h6] at hp
      simp only [Option.some.injEq] at hp
      subst hp
      have hh := h10.res_hdr o nk (Or.inr ⟨rfl, rfl⟩)
      have hblk : Ptr.block (s.base + o + cfg.sizeof_avail - cfg.sizeof_avail) = r2.pool.blk o := by
        simp [Pool.blk, h8]
      rw [hblk, hh.1, hh.2]
      obtain ⟨b1, b2, b3⟩ := btok_spec hb
      have hmax : nk = max cfg.SMALLEST_K k0 := by
        rw [hnk2]
        split <;> omega
      refine ⟨k0, hb, rfl, hmax, ?_, ?_⟩
      · have : 2 ^ k0 ≤ 2 ^ nk := Nat.pow_le_pow_right (by norm_num) (by omega)
        omega
      · intro j hj1 hj2
        have := b2 j hj2
        omega

theorem malloc_block_order_witness :
    ∃ k0, btok (100 + cfg0.sizeof_avail) = some k0 ∧
      ((run_malloc cfg0 (run_realloc cfg0 (run_malloc cfg0 pool0 16).pool 4120 32).pool
        100).pool.hdr (Ptr.block (4248 - cfg0.sizeof_avail))).tag = cfg0.BLOCK_RESERVED ∧
      ((run_malloc cfg0 (run_realloc cfg0 (run_malloc cfg0 pool0 16).pool 4120 32).pool
        100).pool.hdr (Ptr.block (4248 - cfg0.sizeof_avail))).kval = max cfg0.SMALLEST_K k0 ∧
      100 + cfg0.sizeof_avail ≤
        2 ^ ((run_malloc cfg0 (run_realloc cfg0 (run_malloc cfg0 pool0 16).pool 4120 32).pool
          100).pool.hdr (Ptr.block (4248 - cfg0.sizeof_avail))).kval ∧
      ∀ j, cfg0.SMALLEST_K ≤ j → 100 + cfg0.sizeof_avail ≤ 2 ^ j →
        ((run_malloc cfg0 (run_realloc cfg0 (run_malloc cfg0 pool0 16).pool 4120 32).pool
          100).pool.hdr (Ptr.block (4248 - cfg0.sizeof_avail))).kval ≤ j :=
  malloc_block_order cfg0 (by decide)
    (run_realloc cfg0 (run_malloc cfg0 pool0 16).pool 4120 32).pool [(4184, 32)]
    (ReachR.realloc_move _ _ 4120 16 32 4184
      (run_realloc cfg0 (run_malloc cfg0 pool0 16).pool 4120 32)
      (ReachR.malloc pool0 [] 16 4120 (run_malloc cfg0 pool0 16)
        (ReachR.init 4096 (2 ^ 20) pool0 pool0_init ⟨by decide, by decide⟩) (by rfl) (by rfl))
      (by decide) (by decide) (by rfl) (by rfl) (by decide))
    100 4248
    (run_malloc cfg0 (run_realloc cfg0 (run_malloc cfg0 pool0 16).pool 4120 32).pool 100)
    (by decide) (by rfl) (by rfl)

/-! ## Out of memory -/

theorem btok_loop_total (bytes : Nat) (hb : bytes ≤ 2 ^ 63) :
    ∀ fuel k, k ≤ 63 → 64 - k ≤ fuel → ∃ r, btok_loop bytes fuel k = some r := by
  intro fuel
  induction fuel with
  | zero => intro k h1 h2; omega
  | succ fuel ih =>
    intro k h1 h2
    unfold btok_loop shl1
    rw [if_pos (by omega)]
    dsimp only
    by_cases hgt : bytes > 2 ^ k
    · rw [if_pos hgt]
      have hk : k < 63 := by
        by_contra hc
        have : k = 63 := by omega
        subst this
        omega
      exact ih (k + 1) (by omega) (by omega)
    · rw [if_neg hgt]
      exact ⟨k, rfl⟩

theorem btok_total {bytes : Nat} (hb : bytes ≤ 2 ^ 63) : ∃ r, btok bytes = some r := by
  unfold btok
  by_cases h0 : bytes = 0
  · rw [if_pos h0]; exact ⟨0, rfl⟩
  · rw [if_neg h0]
    exact btok_loop_total bytes hb 65 0 (by omega) (by omega)

/-- Out of memory with the order the code computes: in a reachable state (resizes
included) and for every `n >= 1`, `buddy_malloc(pool, n)` returns `NULL` with
`errno == ENOMEM` if and only if `needed_k`, the value the code computes with its wrapping
sum, exceeds `kval_m` or every list `avail[k]` with `needed_k <= k <= kval_m` is empty;
whenever the call returns `NULL` the state is what it was before the call.  The call returns whenever the sum `n + sizeof(struct avail)`, as
computed in `size_t`, is at most `2 ^ 63`; above that `btok` has no result, `needed_k`
has no value and the call does not return. -/
theorem malloc_null_iff (cfg : Config) (hne : cfg.BLOCK_AVAIL ≠ cfg.BLOCK_RESERVED)
    (s : Pool) (O : List (Nat × Nat)) (h : ReachR cfg s O) (n : Nat) (hn : 1 ≤ n) :
    ((∃ r, buddy_malloc cfg s PoolPtr.valid n = some r ∧ r.ret = none ∧
        r.errno = some Errno.ENOMEM) ↔
      ∃ nk, needed_k cfg n = some nk ∧
        (s.kval_m < nk ∨ ∀ k, nk ≤ k → k ≤ s.kval_m →
          (s.hdr (Ptr.sentinel k)).next = Ptr.sentinel k)) ∧
    (∀ r, buddy_malloc cfg s PoolPtr.valid n = some r → r.ret = none → r.pool = s) ∧
    ((n + cfg.sizeof_avail) % 2 ^ 64 ≤ 2 ^ 63 →
      ∃ r, buddy_malloc cfg s PoolPtr.valid n = some r) := by
  obtain ⟨-, -, F, hinv⟩ := (reachR_good hne h).1
  have hn0 : n ≠ 0 := by omega
  cases hnk : needed_k cfg n with
  | none =>
    have hm := @malloc_undefined cfg s n hn0 hnk
    refine ⟨?_, ?_, ?_⟩
    · rw [hm]
      simp
    · intro r hr
      rw [hm] at hr
      simp at hr
    · intro hb
      obtain ⟨k0, hk0⟩ := btok_total hb
      unfold needed_k at hnk
      rw [hk0] at hnk
      simp at hnk
  | some nk =>
    rcases malloc_cases hne hinv hn0 hnk with ⟨h1, h2⟩ |
      ⟨k1, o, rest, h1, h2, h3, h4, r2, h5, h6, h7, h8, h9, h10⟩
    · refine ⟨?_, ?_, fun _ => ⟨_, h2⟩⟩
      · rw [h2]
        simp only [Option.some.injEq, exists_eq_left', true_and, true_iff]
        rcases h1 with h1 | h1
        · exact Or.inl h1
        · right
          intro k hk1 hk2
          rw [hinv.head_next hk2, h1 k hk1 hk2]
      · intro r hr _
        rw [h2] at hr
        simp only [Option.some.injEq] at hr
        rw [← hr]
    · refine ⟨?_, ?_, fun _ => ⟨_, h5⟩⟩
      · rw [h5]
        simp only [Option.some.injEq, exists_eq_left', h6, reduceCtorEq, false_and, false_iff,
          not_exists, not_and, not_or, not_forall]
        refine ⟨by omega, k1, h1, h2, ?_⟩
        rw [hinv.head_next h2, h4]
        simp
      · intro r hr hnone
        rw [h5] at hr
        simp only [Option.some.injEq] at hr
        subst hr
        rw [h6] at hnone
        simp at hnone

theorem malloc_null_iff_witness :
    ((∃ r, buddy_malloc cfg0 pool0 PoolPtr.valid (2 ^ 20) = some r ∧ r.ret = none ∧
        r.errno = some Errno.ENOMEM) ↔
      ∃ nk, needed_k cfg0 (2 ^ 20) = some nk ∧
        (pool0.kval_m < nk ∨ ∀ k, nk ≤ k → k ≤ pool0.kval_m →
          (pool0.hdr (Ptr.sentinel k)).next = Ptr.sentinel k)) ∧
    (∀ r, buddy_malloc cfg0 pool0 PoolPtr.valid (2 ^ 20) = some r → r.ret = none →
      r.pool = pool0) ∧
    ((2 ^ 20 + cfg0.sizeof_avail) % 2 ^ 64 ≤ 2 ^ 63 →
      ∃ r, buddy_malloc cfg0 pool0 PoolPtr.valid (2 ^ 20) = some r) :=
  malloc_null_iff cfg0 (by decide) pool0 []
    (ReachR.init 4096 (2 ^ 20) pool0 pool0_init ⟨by decide, by decide⟩) (2 ^ 20) (by decide)

/-! ## C6: allocate, free, allocate again -/

theorem malloc_first {cfg : Config} (hne : cfg.BLOCK_AVAIL ≠ cfg.BLOCK_RESERVED)
    {s : Pool} {F : Nat → List Nat} {R : Nat → Nat → Prop} (h : Inv cfg s F R nothing)
    {n nk k0 o : Nat} {rest : List Nat} (hn : n ≠ 0) (hnk : needed_k cfg n = some nk)
    (h1 : nk ≤ k0) (h2 : k0 ≤ s.kval_m) (h3 : ∀ j, nk ≤ j → j < k0 → F j = [])
    (h4 : F k0 = o :: rest) :
    ∃ r, buddy_malloc cfg s PoolPtr.valid n = some r ∧
      r.ret = some (s.base + o + cfg.sizeof_avail) := by
  rcases malloc_cases hne h hn hnk with ⟨g1, g2⟩ |
    ⟨k1, o1, rest1, g1, g2, g3, g4, r2, g5, g6, -⟩
  · exfalso
    rcases g1 with g1 | g1
    · omega
    · have := g1 k0 h1 h2
      rw [h4] at this
      simp at this
  · have hk : k1 = k0 := by
      by_contra hc
      rcases Nat.lt_or_gt_of_ne hc with hlt | hgt
      · have := h3 k1 g1 hlt
        rw [g4] at this
        simp at this
      · have := g3 k0 h1 hgt
        rw [h4] at this
        simp at this
    subst hk
    rw [h4] at g4
    simp only [List.cons.injEq] at g4
    rw [g4.1]
    exact ⟨r2, g5, g6⟩

theorem merge_split_lists {K o k0 : Nat} (hk0 : k0 ≤ K) (ha : 2 ^ k0 ∣ o)
    (G : Nat → List Nat) (hstop : k0 < K → bud o k0 ∉ G k0) :
    ∀ d j fuel, j + d = k0 → K - j ≤ fuel →
      merge_lists K fuel (split_lists G o j k0) o j = (G, o, k0) := by
  intro d
  induction d with
  | zero =>
    intro j fuel hj hf
    have : j = k0 := by omega
    subst this
    have hG : split_lists G o j j = G := by
      funext i
      simp [split_lists]
    rw [hG]
    cases fuel with
    | zero => rfl
    | succ fuel =>
      unfold merge_lists
      have hc : ¬ (j < K ∧ bud o j ∈ G j) := fun hh => hstop hh.1 hh.2
      rw [if_neg hc]
  | succ d ih =>
    intro j fuel hj hf
    obtain ⟨f, rfl⟩ : ∃ f, fuel = f + 1 := ⟨fuel - 1, by omega⟩
    have ha2 : 2 ^ (j + 1) ∣ o :=
      Dvd.dvd.trans (pow_dvd_pow 2 (by omega)) ha
    have hb : bud o j = o + 2 ^ j := bud_of_aligned ha2
    have hsj : split_lists G o j k0 j = (o + 2 ^ j) :: G j := by
      simp only [split_lists]
      rw [if_pos ⟨le_refl _, by omega⟩]
    unfold merge_lists
    have hc : j < K ∧ bud o j ∈ split_lists G o j k0 j := by
      refine ⟨by omega, ?_⟩
      rw [hsj, hb]
      simp
    rw [if_pos hc, hb, hsj, List.erase_cons_head, Nat.min_eq_left (by omega)]
    have hG : Function.update (split_lists G o j k0) j (G j) = split_lists G o (j + 1) k0 := by
      funext i
      simp only [Function.update_apply, split_lists]
      by_cases e : i = j
      · subst e
        rw [if_pos rfl, if_neg (by omega)]
      · rw [if_neg e]
        by_cases c : j ≤ i ∧ i < k0
        · rw [if_pos c, if_pos ⟨by omega, c.2⟩]
        · rw [if_neg c, if_neg (by omega)]
    rw [hG]
    exact ih (j + 1) f (by omega) (by omega)

/-- C6 (LIFO round trip): in a reachable state, when `buddy_malloc(pool, n)` returns a
payload `p1`, then after `buddy_free(pool, p1)` the next `buddy_malloc(pool, n)` returns,
and what it returns is `p1`. -/
theorem lifo_round_trip (cfg : Config) (hne : cfg.BLOCK_AVAIL ≠ cfg.BLOCK_RESERVED)
    (s : Pool) (O : List (Nat × Nat)) (h : Reach cfg s O) (n p1 : Nat) (r1 : Result)
    (hr : buddy_malloc cfg s PoolPtr.valid n = some r1) (hp : r1.ret = some p1) :
    ∃ r2, buddy_malloc cfg (buddy_free cfg r1.pool PoolPtr.valid (some p1)) PoolPtr.valid n
        = some r2 ∧ r2.ret = some p1 := by
  obtain ⟨-, -, F, hinv⟩ := reach_good hne h
  have hn : n ≠ 0 := by
    intro e
    subst e
    unfold buddy_malloc at hr
    simp at hr
    rw [← hr] at hp
    simp at hp
  cases hnk : needed_k cfg n with
  | none =>
    rw [malloc_undefined s hn hnk] at hr
    simp at hr
  | some nk =>
    rcases malloc_cases hne hinv hn hnk with ⟨-, h2⟩ |
      ⟨k0, o, rest, h1, h2, h3, h4, r2, h5, h6, h7, h8, h9, h10⟩
    · rw [h2] at hr
      simp only [Option.some.injEq] at hr
      rw [← hr] at hp
      simp at hp
    · rw [h5] at hr
      simp only [Option.some.injEq] at hr
      subst hr
      rw [h6] at hp
      simp only [Option.some.injEq] at hp
      subst hp
      have ho : o ∈ F k0 := by rw [h4]; simp
      have hal := hinv.tiling.aligned o k0 (Or.inl ho)
      obtain ⟨f1, f2, f3⟩ := free_spec hne h10 (b := o) (k := nk) (Or.inr ⟨rfl, rfl⟩)
      rw [h8] at f1 f2 f3
      rw [h9] at f2 f3
      have hstop : k0 < s.kval_m → bud o k0 ∉ Function.update F k0 rest k0 := by
        intro hk hm
        rw [Function.update_same] at hm
        apply hinv.nobuddy o k0 ho hk
        rw [h4]
        exact List.mem_cons_of_mem _ hm
      have hm := merge_split_lists h2 hal.1 (Function.update F k0 rest) hstop (k0 - nk) nk
        (s.kval_m - nk) (by omega) (le_refl _)
      rw [hm] at f3
      simp only at f3
      have hF : Function.update (Function.update F k0 rest) k0
          (o :: Function.update F k0 rest k0) = F := by
        funext i
        simp only [Function.update_apply]
        by_cases e : i = k0
        · subst e
          simp [h4]
        · simp [e]
      rw [hF] at f3
      obtain ⟨r3, g1, g2⟩ := malloc_first hne f3 hn hnk h1 (by rw [f2]; exact h2) h3 h4
      rw [f1] at g2
      exact ⟨r3, g1, g2⟩

theorem lifo_round_trip_witness :
    ∃ r2, buddy_malloc cfg0
        (buddy_free cfg0 (run_malloc cfg0 pool0 1).pool PoolPtr.valid (some 4120))
        PoolPtr.valid 1 = some r2 ∧ r2.ret = some 4120 :=
  lifo_round_trip cfg0 (by decide) pool0 []
    (Reach.init 4096 (2 ^ 20) pool0 pool0_init ⟨by decide, by decide⟩) 1 4120
    (run_malloc cfg0 pool0 1) (by rfl) (by rfl)

/-! ## C7: reuse of a block just freed -/

/-- C7, as stated, fails: in the state `pool_gap` the payloads 4120 and 4312 are
outstanding, both from `buddy_malloc(pool, 1)`; `buddy_free(pool, 4120)` merges the block
with its free buddy, and the next `buddy_malloc(pool, 1)` returns 4248. -/
theorem reuse_fails_after_merge :
    Reach cfg0 pool_gap [(4312, 1), (4120, 1)] ∧
    (buddy_malloc cfg0 (buddy_free cfg0 pool_gap PoolPtr.valid (some 4120)) PoolPtr.valid 1).map
      (fun r => r.ret) = some (some 4248) ∧ 4248 ≠ 4120 := by
  refine ⟨?_, by decide!, by decide⟩
  have h0 : Reach cfg0 pool0 [] :=
    Reach.init 4096 (2 ^ 20) pool0 pool0_init ⟨by decide, by decide⟩
  have h1 := Reach.malloc pool0 [] 1 4120 (run_malloc cfg0 pool0 1) h0 (by rfl) (by rfl)
  have h2 := Reach.malloc _ _ 1 4184 (run_malloc cfg0 (run_malloc cfg0 pool0 1).pool 1) h1
    (by rfl) (by rfl)
  have h3 := Reach.malloc _ _ 1 4248
    (run_malloc cfg0 (run_malloc cfg0 (run_malloc cfg0 pool0 1).pool 1).pool 1) h2
    (by rfl) (by rfl)
  have h4 := Reach.malloc _ _ 1 4312
    (run_malloc cfg0 (run_malloc cfg0 (run_malloc cfg0 (run_malloc cfg0 pool0 1).pool 1).pool
      1).pool 1) h3 (by rfl) (by rfl)
  have h5 := Reach.free _ _ 4248 1 h4 (by decide)
  have h6 := Reach.free _ _ 4184 1 h5 (by decide)
  exact h6

theorem merge_lists_stop {K fuel b k : Nat} {F : Nat → List Nat}
    (h : ¬ (k < K ∧ bud b k ∈ F k)) : merge_lists K fuel F b k = (F, b, k) := by
  cases fuel with
  | zero => rfl
  | succ fuel =>
    unfold merge_lists
    rw [if_neg h]

/-- C7 as amended: in a reachable state, for an outstanding payload `p` obtained from
`buddy_malloc(pool, n)` whose block `buddy_free` does not merge (the block has the top
order, or the header at its buddy address is not `BLOCK_AVAIL` with the same order),
`buddy_free(pool, p)` followed by `buddy_malloc(pool, n)` returns `p` again. -/
theorem reuse_without_merge (cfg : Config) (hne : cfg.BLOCK_AVAIL ≠ cfg.BLOCK_RESERVED)
    (s : Pool) (O : List (Nat × Nat)) (h : Reach cfg s O) (p n : Nat) (hmem : (p, n) ∈ O)
    (hstop : (s.hdr (Ptr.block (p - cfg.sizeof_avail))).kval < s.kval_m →
      (s.hdr (buddy_calc s PoolPtr.valid (Ptr.block (p - cfg.sizeof_avail)))).tag
          ≠ cfg.BLOCK_AVAIL ∨
      (s.hdr (buddy_calc s PoolPtr.valid (Ptr.block (p - cfg.sizeof_avail)))).kval
          ≠ (s.hdr (Ptr.block (p - cfg.sizeof_avail))).kval) :
    ∃ r, buddy_malloc cfg (buddy_free cfg s PoolPtr.valid (some p)) PoolPtr.valid n = some r ∧
      r.ret = some p := by
  obtain ⟨-, hpay, F, hinv⟩ := reach_good hne h
  obtain ⟨b, k, e1, e2, e3⟩ := hpay _ hmem
  simp only at e1 e2 e3
  subst e1
  have hR : Rof cfg s.base O b k := ⟨n, hmem, e2⟩
  have hblk : Ptr.block (s.base + b + cfg.sizeof_avail - cfg.sizeof_avail) = s.blk b := by
    simp [Pool.blk]
  rw [hblk, buddy_calc_blk, (hinv.res_hdr b k hR).2] at hstop
  have hle : k ≤ s.kval_m := hinv.le_K (Or.inr (Or.inl hR))
  have hc : ¬ (k < s.kval_m ∧ bud b k ∈ F k) := by
    rintro ⟨hk, hb⟩
    have := hinv.free_hdr _ _ hb
    rcases hstop hk with g | g
    · exact g this.1
    · exact g this.2
  obtain ⟨f1, f2, f3⟩ := free_spec hne hinv hR
  rw [merge_lists_stop hc] at f3
  simp only at f3
  have hhead : Function.update F k (b :: F k) k = b :: F k := by rw [Function.update_same]
  obtain ⟨r, g1, g2⟩ := malloc_first hne f3 e3 e2 (le_refl _)
    (by rw [f2]; exact hle) (fun j h1 h2 => by omega) hhead
  rw [f1] at g2
  exact ⟨r, g1, g2⟩

theorem reuse_without_merge_witness :
    ∃ r, buddy_malloc cfg0
        (buddy_free cfg0 (run_malloc cfg0 (run_malloc cfg0 pool0 1).pool 1).pool PoolPtr.valid
          (some 4184)) PoolPtr.valid 1 = some r ∧ r.ret = some 4184 :=
  reuse_without_merge cfg0 (by decide) _ _
    (Reach.malloc _ _ 1 4184 (run_malloc cfg0 (run_malloc cfg0 pool0 1).pool 1)
      (Reach.malloc pool0 [] 1 4120 (run_malloc cfg0 pool0 1)
        (Reach.init 4096 (2 ^ 20) pool0 pool0_init ⟨by decide, by decide⟩) (by rfl) (by rfl))
      (by rfl) (by rfl))
    4184 1 (by decide) (by decide)

/-! ## C10: a failed resize changes nothing -/

/-- C10 (resize failure is atomic): in a state reached from `buddy_init` by calls of
`buddy_malloc`, `buddy_free` and `buddy_realloc`, for an outstanding payload `p` and a
size `n > 0` above `min_req`, when the inner `buddy_malloc(pool, n)` returns `NULL` then
`buddy_realloc(pool, p, n)` returns `NULL` and leaves the state as it was: the block of
`p` is still `BLOCK_RESERVED` with its order, and no header or list has changed. -/
theorem realloc_failure_atomic (cfg : Config) (hne : cfg.BLOCK_AVAIL ≠ cfg.BLOCK_RESERVED)
    (s : Pool) (O : List (Nat × Nat)) (h : ReachR cfg s O) (p n0 : Nat) (hmem : (p, n0) ∈ O)
    (n : Nat) (hn : n ≠ 0) (hgt : n > min_req cfg s p) (r : Result)
    (hm : buddy_malloc cfg s PoolPtr.valid n = some r) (hnull : r.ret = none) :
    ∃ r2, buddy_realloc cfg s PoolPtr.valid (some p) n = some r2 ∧ r2.ret = none ∧
      r2.pool = s ∧
      (r2.pool.hdr (Ptr.block (p - cfg.sizeof_avail))).tag = cfg.BLOCK_RESERVED ∧
      (r2.pool.hdr (Ptr.block (p - cfg.sizeof_avail))).kval
        = (s.hdr (Ptr.block (p - cfg.sizeof_avail))).kval := by
  obtain ⟨-, hpay, F, hinv⟩ := (reachR_good hne h).1
  obtain ⟨b, k, e1, e2, e3⟩ := hpay _ hmem
  simp only at e1 e2 e3
  have hR : Rof cfg s.base O b k := ⟨n0, e1 ▸ hmem, e2⟩
  have hblk : Ptr.block (p - cfg.sizeof_avail) = s.blk b := by
    rw [e1]; simp [Pool.blk]
  have hpool : r.pool = s := by
    cases hnk : needed_k cfg n with
    | none =>
      rw [malloc_undefined s hn hnk] at hm
      simp at hm
    | some nk =>
      rcases malloc_cases hne hinv hn hnk with ⟨-, h2⟩ |
        ⟨k0, o, rest, h1, h2, h3, h4, r2, h5, h6, -⟩
      · rw [h2] at hm
        simp only [Option.some.injEq] at hm
        rw [← hm]
      · rw [h5] at hm
        simp only [Option.some.injEq] at hm
        subst hm
        rw [h6] at hnull
        simp at hnull
  refine ⟨⟨r.pool, none, r.errno⟩, ?_, rfl, hpool, ?_, ?_⟩
  · unfold buddy_realloc
    simp only [if_neg hn]
    unfold min_req at hgt
    rw [if_pos hgt, hm]
    simp only [hnull]
  · simp only [hpool, hblk]
    exact (hinv.res_hdr b k hR).1
  · simp only [hpool]

theorem realloc_failure_atomic_witness :
    ∃ r2, buddy_realloc cfg0 (run_realloc cfg0 (run_malloc cfg0 pool0 16).pool 4120 32).pool
        PoolPtr.valid (some 4184) (2 ^ 20) = some r2 ∧ r2.ret = none ∧
      r2.pool = (run_realloc cfg0 (run_malloc cfg0 pool0 16).pool 4120 32).pool ∧
      (r2.pool.hdr (Ptr.block (4184 - cfg0.sizeof_avail))).tag = cfg0.BLOCK_RESERVED ∧
      (r2.pool.hdr (Ptr.block (4184 - cfg0.sizeof_avail))).kval
        = ((run_realloc cfg0 (run_malloc cfg0 pool0 16).pool 4120 32).pool.hdr
          (Ptr.block (4184 - cfg0.sizeof_avail))).kval :=
  realloc_failure_atomic cfg0 (by decide)
    (run_realloc cfg0 (run_malloc cfg0 pool0 16).pool 4120 32).pool [(4184, 32)]
    (ReachR.realloc_move _ _ 4120 16 32 4184
      (run_realloc cfg0 (run_malloc cfg0 pool0 16).pool 4120 32)
      (ReachR.malloc pool0 [] 16 4120 (run_malloc cfg0 pool0 16)
        (ReachR.init 4096 (2 ^ 20) pool0 pool0_init ⟨by decide, by decide⟩) (by rfl) (by rfl))
      (by decide) (by decide) (by rfl) (by rfl) (by decide))
    4184 32 (by decide) (2 ^ 20) (by decide) (by decide!)
    (run_malloc cfg0 (run_realloc cfg0 (run_malloc cfg0 pool0 16).pool 4120 32).pool (2 ^ 20))
    (by rfl) (by rfl)

/-! ## The unchecked sum `size + sizeof(struct avail)`: C2, C4, C9 -/

/-- C4 fails on the code: on the fresh pool `pool0` (top order 20, header of 24 bytes) the
request `n = 2 ^ 64 - 1` exceeds the capacity `2 ^ 20 - 24`, yet `buddy_malloc` returns the
payload 4120, because `n + 24` wraps to 23. -/
theorem capacity_wraps :
    buddy_init cfg0 (some 4096) (2 ^ 20) = some pool0 ∧
    2 ^ pool0.kval_m - cfg0.sizeof_avail < 2 ^ 64 - 1 ∧
    (buddy_malloc cfg0 pool0 PoolPtr.valid (2 ^ 64 - 1)).map (fun r => (r.ret, r.errno))
      = some (some 4120, none) :=
  ⟨pool0_init, by decide, by decide!⟩

/-- C2 fails on the code: after `buddy_malloc(pool, 2 ^ 64 - 1)` on the fresh pool `pool0`
the payload 4120 with its requested size is outstanding, and its byte range ends far
behind the end `base + 2 ^ kval_m` of the pool. -/
theorem payload_leaves_pool :
    Reach cfg0 (run_malloc cfg0 pool0 (2 ^ 64 - 1)).pool [(4120, 2 ^ 64 - 1)] ∧
    (run_malloc cfg0 pool0 (2 ^ 64 - 1)).pool.base +
        2 ^ (run_malloc cfg0 pool0 (2 ^ 64 - 1)).pool.kval_m < 4120 + (2 ^ 64 - 1) := by
  refine ⟨?_, by decide!⟩
  exact Reach.malloc pool0 [] (2 ^ 64 - 1) 4120 (run_malloc cfg0 pool0 (2 ^ 64 - 1))
    (Reach.init 4096 (2 ^ 20) pool0 pool0_init ⟨by decide, by decide⟩) (by rfl) (by rfl)

/-- C8 fails on the code: on a fresh pool whose base `2 ^ 20` is aligned to its size,
`buddy_malloc(pool, 16)` returns `2 ^ 20 + 24`, which is 8 modulo 16. -/
theorem payload_not_aligned :
    buddy_init cfg0 (some (2 ^ 20)) (2 ^ 20) = some pool_aligned ∧
    pool_aligned.base % 2 ^ pool_aligned.kval_m = 0 ∧
    (buddy_malloc cfg0 pool_aligned PoolPtr.valid 16).map (fun r => r.ret)
      = some (some (2 ^ 20 + 24)) ∧
    (2 ^ 20 + 24) % 16 = 8 :=
  ⟨by rfl, by decide!, by decide!, by decide⟩

/-- C9 fails on the code: in the state `pool_resize` the payload 4376 (block of order 7,
104 payload bytes) is outstanding; `buddy_realloc(pool, 4376, 2 ^ 64 - 1)` gets the block
of order 6 at offset 64 from the inner `buddy_malloc`, returns its payload 4184 and copies
104 bytes there, over the header of the free block at offset 128 (address 4224); the later
`buddy_free` stores the `prev` link of that header, so byte 56 of the new payload is no
longer the byte that was at offset 56 of the old one. -/
theorem realloc_overruns :
    Reach cfg0 pool_resize [(4504, 100), (4376, 100), (4120, 1)] ∧
    (pool_resize.hdr (Ptr.block (4376 - cfg0.sizeof_avail))).kval = 7 ∧
    (buddy_realloc cfg0 pool_resize PoolPtr.valid (some 4376) (2 ^ 64 - 1)).map
      (fun r => (r.ret, r.pool.data (4184 + 56))) = some (some 4184, none) ∧
    pool_resize.data (4376 + 56) = some 0 ∧
    56 < min (2 ^ 7 - cfg0.sizeof_avail) (2 ^ 64 - 1) := by
  refine ⟨?_, by decide!, by decide!, by decide!, by decide⟩
  have h0 : Reach cfg0 pool0 [] :=
    Reach.init 4096 (2 ^ 20) pool0 pool0_init ⟨by decide, by decide⟩
  have h1 := Reach.malloc pool0 [] 1 4120 (run_malloc cfg0 pool0 1) h0 (by rfl) (by rfl)
  have h2 := Reach.malloc _ _ 1 4184 (run_malloc cfg0 (run_malloc cfg0 pool0 1).pool 1) h1
    (by rfl) (by rfl)
  have h3 := Reach.malloc _ _ 100 4248
    (run_malloc cfg0 (run_malloc cfg0 (run_malloc cfg0 pool0 1).pool 1).pool 100) h2
    (by rfl) (by rfl)
  have h4 := Reach.malloc _ _ 100 4376
    (run_malloc cfg0 (run_malloc cfg0 (run_malloc cfg0 (run_malloc cfg0 pool0 1).pool 1).pool
      100).pool 100) h3 (by rfl) (by rfl)
  have h5 := Reach.malloc _ _ 100 4504
    (run_malloc cfg0 (run_malloc cfg0 (run_malloc cfg0 (run_malloc cfg0 (run_malloc cfg0 pool0
      1).pool 1).pool 100).pool 100).pool 100) h4 (by rfl) (by rfl)
  have h6 := Reach.free _ _ 4248 100 h5 (by decide)
  have h7 := Reach.free _ _ 4184 1 h6 (by decide)
  exact h7

/-! ## What holds when the sum does not wrap

The three failures above come from one place, the sum `size + sizeof(struct avail)` of
line 65.  For requests whose sum stays below `2 ^ 64` the capacity bound and the
separation of the payloads hold, as the next theorems show; the alignment of payloads
fails for every header size, not only for the stock one. -/

theorem btok_eq {bytes K : Nat} (hK : K ≤ 63) (h1 : bytes ≤ 2 ^ K)
    (h2 : ∀ j, j < K → 2 ^ j < bytes) : btok bytes = some K := by
  have hle : bytes ≤ 2 ^ 63 := le_trans h1 (Nat.pow_le_pow_right (by norm_num) hK)
  obtain ⟨r, hr⟩ := btok_total hle
  obtain ⟨g1, g2, -⟩ := btok_spec hr
  have hrK : r ≤ K := g2 K h1
  have : ¬ r < K := by
    intro hlt
    have := h2 r hlt
    omega
  have : r = K := by omega
  rw [hr, this]

/-- On a fresh pool a request whose sum with the header size stays in `size_t` range of
`btok` succeeds exactly when it fits the pool. -/
theorem fresh_capacity (cfg : Config) (hne : cfg.BLOCK_AVAIL ≠ cfg.BLOCK_RESERVED)
    (base size : Nat) (s : Pool) (hi : buddy_init cfg (some base) size = some s)
    (hS : cfg.SMALLEST_K ≤ s.kval_m) (n : Nat) (hn : 1 ≤ n)
    (hw : n + cfg.sizeof_avail ≤ 2 ^ 63) :
    ∃ r, buddy_malloc cfg s PoolPtr.valid n = some r ∧
      (r.ret ≠ none ↔ n + cfg.sizeof_avail ≤ 2 ^ s.kval_m) ∧
      (r.ret = none → r.errno = some Errno.ENOMEM ∧ r.pool = s) := by
  obtain ⟨-, hK64, -⟩ := init_spec hi
  have hinv := init_inv hi
  obtain ⟨k0, hk0⟩ := btok_total hw
  obtain ⟨b1, b2, b3⟩ := btok_spec hk0
  have hmod : (n + cfg.sizeof_avail) % 2 ^ 64 = n + cfg.sizeof_avail :=
    Nat.mod_eq_of_lt (lt_of_le_of_lt hw (by norm_num))
  have hnk : needed_k cfg n = some (if k0 < cfg.SMALLEST_K then cfg.SMALLEST_K else k0) := by
    unfold needed_k
    rw [hmod, hk0]
    rfl
  generalize hnkd : (if k0 < cfg.SMALLEST_K then cfg.SMALLEST_K else k0) = nk at hnk
  have hfit : nk ≤ s.kval_m ↔ n + cfg.sizeof_avail ≤ 2 ^ s.kval_m := by
    constructor
    · intro hle
      have : 2 ^ k0 ≤ 2 ^ s.kval_m := Nat.pow_le_pow_right (by norm_num) (by
        rw [← hnkd] at hle
        split at hle <;> omega)
      omega
    · intro hle
      have := b2 _ hle
      rw [← hnkd]
      split <;> omega
  rcases malloc_cases hne hinv (by omega : n ≠ 0) hnk with ⟨h1, h2⟩ |
    ⟨k1, o, rest, h1, h2, h3, h4, r2, h5, h6, -⟩
  · refine ⟨_, h2, ?_, fun _ => ⟨rfl, rfl⟩⟩
    simp only [ne_eq, not_true_eq_false, false_iff]
    rw [← hfit]
    rcases h1 with h1 | h1
    · omega
    · intro hle
      have := h1 s.kval_m hle (le_refl _)
      simp at this
  · refine ⟨r2, h5, ?_, ?_⟩
    · rw [h6]
      simp only [ne_eq, reduceCtorEq, not_false_eq_true, true_iff]
      exact hfit.1 (by omega)
    · intro hnone
      rw [h6] at hnone
      simp at hnone

/-- In a reachable state whose outstanding requests did not wrap, every payload range
lies inside the pool behind the first header, and two outstanding payloads do not
overlap. -/
theorem payloads_separate (cfg : Config) (hne : cfg.BLOCK_AVAIL ≠ cfg.BLOCK_RESERVED)
    (s : Pool) (O : List (Nat × Nat)) (h : Reach cfg s O)
    (hw : ∀ pn, pn ∈ O → pn.2 + cfg.sizeof_avail < 2 ^ 64) :
    (∀ pn, pn ∈ O → s.base + cfg.sizeof_avail ≤ pn.1 ∧ pn.1 + pn.2 ≤ s.base + 2 ^ s.kval_m) ∧
    (∀ pn qm, pn ∈ O → qm ∈ O → pn ≠ qm → pn.1 + pn.2 ≤ qm.1 ∨ qm.1 + qm.2 ≤ pn.1) := by
  obtain ⟨hnd, hpay, F, hinv⟩ := reach_good hne h
  have key : ∀ pn, pn ∈ O → ∃ b k, pn.1 = s.base + b + cfg.sizeof_avail ∧
      Rof cfg s.base O b k ∧ pn.2 + cfg.sizeof_avail ≤ 2 ^ k := by
    intro pn hpn
    obtain ⟨b, k, e1, e2, -⟩ := hpay pn hpn
    refine ⟨b, k, e1, ⟨pn.2, by rw [← e1]; exact hpn, e2⟩, ?_⟩
    obtain ⟨k0, hk0, hk⟩ := needed_k_some e2
    rw [Nat.mod_eq_of_lt (hw pn hpn)] at hk0
    obtain ⟨b1, -, -⟩ := btok_spec hk0
    have : 2 ^ k0 ≤ 2 ^ k := Nat.pow_le_pow_right (by norm_num) (by
      rw [hk]; split <;> omega)
    omega
  constructor
  · intro pn hpn
    obtain ⟨b, k, e1, hR, hfit⟩ := key pn hpn
    have := (hinv.tiling.aligned b k (Or.inr (Or.inl hR))).2
    omega
  · intro pn qm hpn hqm hneq
    obtain ⟨b, k, e1, hR, hfit⟩ := key pn hpn
    obtain ⟨b2, k2, e2, hR2, hfit2⟩ := key qm hqm
    have hb : b ≠ b2 := by
      intro e
      apply hneq
      have h1 : pn.1 = qm.1 := by omega
      exact List.inj_on_of_nodup_map hnd hpn hqm h1
    have := hinv.tiling.disjoint b k b2 k2 (Or.inr (Or.inl hR)) (Or.inr (Or.inl hR2))
      (Or.inl hb)
    omega

/-- Whatever the header size `H` with `0 < H < 2 ^ (kval_m - 1)`: on a fresh pool with an
aligned base the request `n = 2 ^ (kval_m - 1)` is served with the payload `base + H`,
which is `H` modulo `n`. -/
theorem payload_offset (cfg : Config) (hne : cfg.BLOCK_AVAIL ≠ cfg.BLOCK_RESERVED)
    (base size : Nat) (s : Pool) (hi : buddy_init cfg (some base) size = some s)
    (hS : cfg.SMALLEST_K ≤ s.kval_m) (hK : 1 ≤ s.kval_m) (hH : 0 < cfg.sizeof_avail)
    (hH2 : cfg.sizeof_avail < 2 ^ (s.kval_m - 1)) (hb : base % 2 ^ s.kval_m = 0) :
    ∃ r, buddy_malloc cfg s PoolPtr.valid (2 ^ (s.kval_m - 1)) = some r ∧
      r.ret = some (base + cfg.sizeof_avail) ∧
      (base + cfg.sizeof_avail) % 2 ^ (s.kval_m - 1) = cfg.sizeof_avail := by
  obtain ⟨hbase, hK64, -⟩ := init_spec hi
  have hinv := init_inv hi
  obtain ⟨j, hj⟩ : ∃ j, s.kval_m = j + 1 := ⟨s.kval_m - 1, by omega⟩
  rw [hj] at hH2 hb
  simp only [Nat.add_sub_cancel] at hH2
  have hpow : 2 ^ (j + 1) = 2 * 2 ^ j := by rw [pow_succ]; ring
  have hbt : btok (2 ^ j + cfg.sizeof_avail) = some s.kval_m := by
    apply btok_eq (by omega)
    · rw [hj, hpow]; omega
    · intro i hi2
      have : 2 ^ i ≤ 2 ^ j := Nat.pow_le_pow_right (by norm_num) (by omega)
      omega
  have h63 : 2 ^ s.kval_m ≤ 2 ^ 63 := Nat.pow_le_pow_right (by norm_num) (by omega)
  have hmod : (2 ^ j + cfg.sizeof_avail) % 2 ^ 64 = 2 ^ j + cfg.sizeof_avail := by
    apply Nat.mod_eq_of_lt
    rw [hj, hpow] at h63
    have : (2 : Nat) ^ 63 < 2 ^ 64 := by norm_num
    omega
  have hnk : needed_k cfg (2 ^ j) = some s.kval_m := by
    unfold needed_k
    rw [hmod, hbt]
    simp only [Option.map_some', Option.some.injEq]
    rw [if_neg (by omega)]
  have hP : 0 < 2 ^ j := Nat.two_pow_pos _
  have hhead : (fun k => if k = s.kval_m then [0] else []) s.kval_m = 0 :: [] := by simp
  obtain ⟨r, g1, g2⟩ := malloc_first hne hinv (by omega : 2 ^ j ≠ 0) hnk (le_refl _)
    (le_refl _) (fun i h1 h2 => by omega) hhead
  rw [hj, Nat.add_sub_cancel]
  rw [hbase] at g2
  refine ⟨r, g1, by simpa using g2, ?_⟩
  have hdiv : 2 ^ j ∣ base := by
    have h1 : 2 ^ (j + 1) ∣ base := Nat.dvd_of_mod_eq_zero hb
    exact Dvd.dvd.trans ⟨2, by rw [hpow]; ring⟩ h1
  obtain ⟨c, rfl⟩ := hdiv
  rw [Nat.mul_add_mod, Nat.mod_eq_of_lt hH2]

/-! ## C13: the order function -/

/-- Above `2 ^ 63` the loop of `btok` reaches the shift count 64, where
`UINT64_C(1) << k_val` is undefined, and has no result. -/
theorem btok_none_of_large {n : Nat} (h : 2 ^ 63 < n) : btok n = none := by
  cases hb : btok n with
  | none => rfl
  | some r =>
    obtain ⟨h1, -, h3⟩ := btok_spec hb
    have : 2 ^ r ≤ 2 ^ 63 := Nat.pow_le_pow_right (by norm_num) (by omega)
    omega

/-- Up to `2 ^ 63` the function `btok` returns, and what it returns is the least `k`
with `n <= 2 ^ k`. -/
theorem btok_least {n : Nat} (h : n ≤ 2 ^ 63) :
    ∃ k, btok n = some k ∧ n ≤ 2 ^ k ∧ ∀ j, n ≤ 2 ^ j → k ≤ j := by
  obtain ⟨k, hk⟩ := btok_total h
  obtain ⟨h1, h2, -⟩ := btok_spec hk
  exact ⟨k, hk, h1, h2⟩

/-- The values that `test_btok` checks. -/
theorem btok_tests :
    btok 0 = some 0 ∧ btok 1 = some 0 ∧ btok 2 = some 1 ∧ btok 3 = some 2 ∧
    btok 4 = some 2 ∧ btok 5 = some 3 ∧ btok 1024 = some 10 ∧ btok 1048576 = some 20 := by
  decide

/-- C13 (order function): for the 64-bit byte counts `2 ^ 63 + 1` and `2 ^ 64 - 1` the
function `btok` has no result: the loop reaches the shift `UINT64_C(1) << 64`, while the
smallest `k` with `2 ^ k >= n` is 64. -/
theorem btok_undefined_above :
    btok (2 ^ 63 + 1) = none ∧ btok (2 ^ 64 - 1) = none ∧
    (∀ j, 2 ^ 63 + 1 ≤ 2 ^ j ↔ 64 ≤ j) := by
  refine ⟨btok_none_of_large (by norm_num), btok_none_of_large (by norm_num), ?_⟩
  intro j
  constructor
  · intro h
    by_contra hc
    have : 2 ^ j ≤ 2 ^ 63 := Nat.pow_le_pow_right (by norm_num) (by omega)
    omega
  · intro h
    have : 2 ^ 64 ≤ 2 ^ j := Nat.pow_le_pow_right (by norm_num) h
    omega

/-! ## C16: the clamp of the top order -/

/-- The top order that `buddy_init` stores: the target order raised to `MIN_K`, and
replaced by `MAX_K - 1` (computed in 64 bits) when that exceeds `MAX_K`; the value
`MAX_K` itself passes the test `kval > MAX_K` unchanged. -/
theorem init_kval_m {cfg : Config} {base size : Nat} {s : Pool}
    (h : buddy_init cfg (some base) size = some s) :
    ∃ t, (if size = 0 then some cfg.DEFAULT_K else btok size) = some t ∧
      s.kval_m = if max t cfg.MIN_K > cfg.MAX_K then (cfg.MAX_K + 2 ^ 64 - 1) % 2 ^ 64
        else max t cfg.MIN_K := by
  unfold buddy_init at h
  cases hk0 : (if size = 0 then some cfg.DEFAULT_K else btok size) with
  | none => rw [hk0] at h; simp at h
  | some k0 =>
    rw [hk0] at h
    dsimp only at h
    have hmax : (if k0 < cfg.MIN_K then cfg.MIN_K else k0) = max k0 cfg.MIN_K := by
      split <;> omega
    rw [hmax] at h
    generalize hK : (if max k0 cfg.MIN_K > cfg.MAX_K then
      (cfg.MAX_K + 2 ^ 64 - 1) % 2 ^ 64 else max k0 cfg.MIN_K) = K at h
    cases hsh : shl1 K with
    | none => rw [hsh] at h; simp at h
    | some nb =>
      rw [hsh] at h
      simp only [Option.some.injEq] at h
      obtain ⟨-, h2, -⟩ := init_loop_fields cfg K (K + 1) 0
        ⟨K, nb, base, fun _ => Avail.zero, fun _ => some 0⟩
      generalize init_loop cfg K (K + 1) 0
        ⟨K, nb, base, fun _ => Avail.zero, fun _ => some 0⟩ = sL at h h2
      dsimp only at h2
      subst h
      simp only [set_next_kval_m, set_prev_kval_m, set_tag_kval_m, set_kval_kval_m, h2]
      exact ⟨k0, rfl, hK.symm⟩

/-- When `btok` has a result for the size and the constants are shift counts, the call
`buddy_init` returns. -/
theorem init_total (cfg : Config) (base size : Nat) (hs : size ≤ 2 ^ 63)
    (h1 : cfg.MIN_K < 64) (h2 : size = 0 → cfg.DEFAULT_K < 64) (h3 : 0 < cfg.MAX_K) :
    ∃ s, buddy_init cfg (some base) size = some s := by
  have ht : ∃ t, (if size = 0 then some cfg.DEFAULT_K else btok size) = some t ∧ t < 64 := by
    by_cases h0 : size = 0
    · rw [if_pos h0]; exact ⟨_, rfl, h2 h0⟩
    · rw [if_neg h0]
      obtain ⟨r, hr⟩ := btok_total hs
      exact ⟨r, hr, (btok_spec hr).2.2⟩
  obtain ⟨t, ht1, ht2⟩ := ht
  unfold buddy_init
  rw [ht1]
  dsimp only
  have hK : (if (if t < cfg.MIN_K then cfg.MIN_K else t) > cfg.MAX_K then
      (cfg.MAX_K + 2 ^ 64 - 1) % 2 ^ 64 else if t < cfg.MIN_K then cfg.MIN_K else t) < 64 := by
    have hk1 : (if t < cfg.MIN_K then cfg.MIN_K else t) < 64 := by split <;> omega
    generalize (if t < cfg.MIN_K then cfg.MIN_K else t) = k1 at hk1
    by_cases hgt : k1 > cfg.MAX_K
    · rw [if_pos hgt]
      have e : cfg.MAX_K + 2 ^ 64 - 1 = (cfg.MAX_K - 1) + 2 ^ 64 := by omega
      rw [e, Nat.add_mod_right]
      have : (cfg.MAX_K - 1) % 2 ^ 64 ≤ cfg.MAX_K - 1 := Nat.mod_le _ _
      omega
    · rw [if_neg hgt]; exact hk1
  generalize (if (if t < cfg.MIN_K then cfg.MIN_K else t) > cfg.MAX_K then
      (cfg.MAX_K + 2 ^ 64 - 1) % 2 ^ 64 else if t < cfg.MIN_K then cfg.MIN_K else t) = K at hK
  simp only [shl1, if_pos hK]
  exact ⟨_, rfl⟩

/-- The target order `MAX_K` passes the clamp: for constants with
`MIN_K <= MAX_K < 64` the call `buddy_init(pool, 2 ^ MAX_K)` returns with
`kval_m == MAX_K`, one above `MAX_K - 1`. -/
theorem init_clamp_passes_max (cfg : Config) (base : Nat) (h1 : cfg.MIN_K ≤ cfg.MAX_K)
    (h2 : 0 < cfg.MAX_K) (h3 : cfg.MAX_K < 64) :
    ∃ s, buddy_init cfg (some base) (2 ^ cfg.MAX_K) = some s ∧ s.kval_m = cfg.MAX_K := by
  have hpos : 2 ^ cfg.MAX_K ≠ 0 := by positivity
  have hle : 2 ^ cfg.MAX_K ≤ 2 ^ 63 := Nat.pow_le_pow_right (by norm_num) (by omega)
  obtain ⟨s, hs⟩ := init_total cfg base (2 ^ cfg.MAX_K) hle (by omega)
    (fun h => absurd h hpos) h2
  obtain ⟨t, ht, hk⟩ := init_kval_m hs
  rw [if_neg hpos, btok_eq (by omega) (le_refl _)
    (fun j hj => Nat.pow_lt_pow_right (by norm_num) hj)] at ht
  simp only [Option.some.injEq] at ht
  subst ht
  refine ⟨s, hs, ?_⟩
  rw [hk, if_neg (by omega)]
  omega

/-- C16 (init order clamp): under the stock constants (`MIN_K` 20, `MAX_K` 48) the call
`buddy_init(pool, 2 ^ 48)` has the target order `btok(2 ^ 48) == 48 == MAX_K`, which the
test `kval > MAX_K` lets through: it stores `kval_m == 48`, above `MAX_K - 1 == 47`. -/
theorem init_clamp_off_by_one :
    btok (2 ^ 48) = some cfg0.MAX_K ∧
    Option.map Pool.kval_m (buddy_init cfg0 (some 4096) (2 ^ 48)) = some 48 ∧
    min (max 48 cfg0.MIN_K) (cfg0.MAX_K - 1) = 47 := by
  decide

/-! ## C17: invalid arguments -/

/-- C17 (invalid inputs are rejected without touching the pool): `buddy_malloc(NULL, n)`
and `buddy_malloc(pool, 0)` return `NULL` with `errno == EINVAL` and the state they were
given, for every `n` and every pool; `buddy_free(NULL, p)` and `buddy_free(pool, NULL)`
return the state they were given. -/
theorem invalid_inputs_rejected (cfg : Config) (s : Pool) (pool : PoolPtr) (n : Nat)
    (p : Option Nat) :
    buddy_malloc cfg s PoolPtr.NULL n = some ⟨s, none, some Errno.EINVAL⟩ ∧
    buddy_malloc cfg s pool 0 = some ⟨s, none, some Errno.EINVAL⟩ ∧
    buddy_free cfg s PoolPtr.NULL p = s ∧
    buddy_free cfg s pool none = s := by
  refine ⟨?_, ?_, ?_, ?_⟩
  · simp [buddy_malloc]
  · simp [buddy_malloc]
  · rfl
  · cases pool <;> rfl

/-! ## C20: resizing the null pointer -/

/-- C20 (resize of `NULL` is allocation): for every state of a non-null pool and every
`n`, zero included, `buddy_realloc(pool, NULL, n)` is `buddy_malloc(pool, n)`: the same
pointer, the same `errno`, the same state afterwards, and no result exactly when
`buddy_malloc` has none. -/
theorem realloc_null_is_malloc (cfg : Config) (s : Pool) (n : Nat) :
    buddy_realloc cfg s PoolPtr.valid none n = buddy_malloc cfg s PoolPtr.valid n := by
  rfl

/-! ## C11: a resize that keeps the block -/

/-- The variable `min_req` of `buddy_realloc` for a block of order `k > 0` when the
subtraction `2 ^ (k - 1) - sizeof(struct avail) + 1` does not go below zero. -/
theorem min_req_eq {cfg : Config} {s : Pool} {p k : Nat}
    (hkv : (s.hdr (Ptr.block (p - cfg.sizeof_avail))).kval = k) (hk : 0 < k) (hk64 : k ≤ 63)
    (hH : cfg.sizeof_avail ≤ 2 ^ (k - 1) + 1) :
    min_req cfg s p = 2 ^ (k - 1) + 1 - cfg.sizeof_avail := by
  have hX : 2 ^ (k - 1) ≤ 2 ^ 62 := Nat.pow_le_pow_right (by norm_num) (by omega)
  unfold min_req
  rw [hkv, if_pos hk]
  generalize 2 ^ (k - 1) = X at hX hH
  have e : X + 2 ^ 64 - cfg.sizeof_avail + 1 = (X + 1 - cfg.sizeof_avail) + 2 ^ 64 := by
    omega
  rw [e, Nat.add_mod_right]
  apply Nat.mod_eq_of_lt
  omega

/-- When the header is no larger than `2 ^ (SMALLEST_K - 1) + 1` bytes, as under the stock
constants, the variable `min_req` of the code does not wrap for an outstanding payload of
a reachable state (resizes included): a size at most `min_req` is at most
`2 ^ (k - 1) - sizeof(struct avail) + 1`. -/
theorem min_req_exact (cfg : Config) (hne : cfg.BLOCK_AVAIL ≠ cfg.BLOCK_RESERVED)
    (s : Pool) (O : List (Nat × Nat)) (h : ReachR cfg s O) (p n0 : Nat) (hmem : (p, n0) ∈ O)
    (hH : cfg.sizeof_avail ≤ 2 ^ (cfg.SMALLEST_K - 1) + 1)
    (hk : 0 < (s.hdr (Ptr.block (p - cfg.sizeof_avail))).kval)
    (n : Nat) (hle : n ≤ min_req cfg s p) :
    n + cfg.sizeof_avail ≤ 2 ^ ((s.hdr (Ptr.block (p - cfg.sizeof_avail))).kval - 1) + 1 := by
  obtain ⟨⟨-, hpay, F, hinv⟩, hK⟩ := reachR_good hne h
  obtain ⟨b, k, e1, e2, e3⟩ := hpay _ hmem
  simp only at e1 e2 e3
  have hR : Rof cfg s.base O b k := ⟨n0, e1 ▸ hmem, e2⟩
  have hblk : Ptr.block (p - cfg.sizeof_avail) = s.blk b := by
    rw [e1]; simp [Pool.blk]
  have hh := hinv.res_hdr b k hR
  have hkK : k ≤ s.kval_m := hinv.le_K (Or.inr (Or.inl hR))
  have hkv : (s.hdr (Ptr.block (p - cfg.sizeof_avail))).kval = k := by rw [hblk]; exact hh.2
  rw [hkv] at hk ⊢
  have hS : cfg.SMALLEST_K ≤ k := by
    obtain ⟨k0, -, e⟩ := needed_k_some e2
    rw [e]
    split <;> omega
  have hpow : 2 ^ (cfg.SMALLEST_K - 1) ≤ 2 ^ (k - 1) :=
    Nat.pow_le_pow_right (by norm_num) (by omega)
  have hH2 : cfg.sizeof_avail ≤ 2 ^ (k - 1) + 1 := by omega
  rw [min_req_eq hkv hk (by omega) hH2] at hle
  omega

/-- C11 (resize keeps the block in place): in a state reached from `buddy_init` by calls
of `buddy_malloc`, `buddy_free` and `buddy_realloc`, for an outstanding
payload `p` whose block has order `k > 0` and every `n` with `0 < n` and
`n <= 2 ^ (k - 1) - sizeof(struct avail) + 1`: the variable `min_req` of the code has
that value, `buddy_realloc(pool, p, n)` returns exactly `p`, the state is unchanged, the
block keeps order `k` and tag `BLOCK_RESERVED`, and `n <= 2 ^ k - sizeof(struct avail)`. -/
theorem realloc_keeps_in_place (cfg : Config) (hne : cfg.BLOCK_AVAIL ≠ cfg.BLOCK_RESERVED)
    (s : Pool) (O : List (Nat × Nat)) (h : ReachR cfg s O) (p n0 : Nat) (hmem : (p, n0) ∈ O)
    (n : Nat) (hn : 0 < n)
    (hk : 0 < (s.hdr (Ptr.block (p - cfg.sizeof_avail))).kval)
    (hle : n + cfg.sizeof_avail ≤
      2 ^ ((s.hdr (Ptr.block (p - cfg.sizeof_avail))).kval - 1) + 1) :
    min_req cfg s p =
      2 ^ ((s.hdr (Ptr.block (p - cfg.sizeof_avail))).kval - 1) + 1 - cfg.sizeof_avail ∧
    n ≤ min_req cfg s p ∧
    ∃ r, buddy_realloc cfg s PoolPtr.valid (some p) n = some r ∧ r.ret = some p ∧
      r.pool = s ∧
      (r.pool.hdr (Ptr.block (p - cfg.sizeof_avail))).tag = cfg.BLOCK_RESERVED ∧
      (r.pool.hdr (Ptr.block (p - cfg.sizeof_avail))).kval
        = (s.hdr (Ptr.block (p - cfg.sizeof_avail))).kval ∧
      n + cfg.sizeof_avail ≤ 2 ^ (r.pool.hdr (Ptr.block (p - cfg.sizeof_avail))).kval := by
  obtain ⟨⟨-, hpay, F, hinv⟩, hK⟩ := reachR_good hne h
  obtain ⟨b, k, e1, e2, e3⟩ := hpay _ hmem
  simp only at e1 e2 e3
  have hR : Rof cfg s.base O b k := ⟨n0, e1 ▸ hmem, e2⟩
  have hblk : Ptr.block (p - cfg.sizeof_avail) = s.blk b := by
    rw [e1]; simp [Pool.blk]
  have hh := hinv.res_hdr b k hR
  have hkK : k ≤ s.kval_m := hinv.le_K (Or.inr (Or.inl hR))
  rw [hblk, hh.2] at hk hle ⊢
  have hX : 2 ^ (k - 1) ≤ 2 ^ 62 := Nat.pow_le_pow_right (by norm_num) (by omega)
  have hXX : 2 ^ k = 2 * 2 ^ (k - 1) := by
    obtain ⟨j, rfl⟩ : ∃ j, k = j + 1 := ⟨k - 1, by omega⟩
    simp [pow_succ, Nat.mul_comm]
  have hmin : min_req cfg s p = 2 ^ (k - 1) + 1 - cfg.sizeof_avail :=
    min_req_eq (by rw [hblk]; exact hh.2) hk (by omega) (by omega)
  have hnle : n ≤ min_req cfg s p := by rw [hmin]; omega
  refine ⟨hmin, hnle, ⟨s, some p, none⟩, ?_, rfl, rfl, ?_, ?_, ?_⟩
  · unfold buddy_realloc
    have hn0 : n ≠ 0 := by omega
    simp only [if_neg hn0]
    have hnot : ¬ n > min_req cfg s p := by omega
    unfold min_req at hnot
    rw [if_neg hnot]
  · show (s.hdr (s.blk b)).tag = _
    exact hh.1
  · show (s.hdr (s.blk b)).kval = _
    exact hh.2
  · show n + cfg.sizeof_avail ≤ 2 ^ (s.hdr (s.blk b)).kval
    rw [hh.2, hXX]
    clear hmin hnle hX
    have hpos : 0 < 2 ^ (k - 1) := Nat.two_pow_pos _
    generalize 2 ^ (k - 1) = X at hle hpos ⊢
    omega

theorem realloc_keeps_in_place_witness :
    min_req cfg0 (run_realloc cfg0 (run_malloc cfg0 pool0 16).pool 4120 32).pool 4184 =
      2 ^ (((run_realloc cfg0 (run_malloc cfg0 pool0 16).pool 4120 32).pool.hdr
        (Ptr.block (4184 - cfg0.sizeof_avail))).kval - 1) + 1 - cfg0.sizeof_avail ∧
    8 ≤ min_req cfg0 (run_realloc cfg0 (run_malloc cfg0 pool0 16).pool 4120 32).pool 4184 ∧
    ∃ r, buddy_realloc cfg0 (run_realloc cfg0 (run_malloc cfg0 pool0 16).pool 4120 32).pool
        PoolPtr.valid (some 4184) 8 = some r ∧ r.ret = some 4184 ∧
      r.pool = (run_realloc cfg0 (run_malloc cfg0 pool0 16).pool 4120 32).pool ∧
      (r.pool.hdr (Ptr.block (4184 - cfg0.sizeof_avail))).tag = cfg0.BLOCK_RESERVED ∧
      (r.pool.hdr (Ptr.block (4184 - cfg0.sizeof_avail))).kval
        = ((run_realloc cfg0 (run_malloc cfg0 pool0 16).pool 4120 32).pool.hdr
          (Ptr.block (4184 - cfg0.sizeof_avail))).kval ∧
      8 + cfg0.sizeof_avail ≤ 2 ^ (r.pool.hdr (Ptr.block (4184 - cfg0.sizeof_avail))).kval :=
  realloc_keeps_in_place cfg0 (by decide) _ [(4184, 32)]
    (ReachR.realloc_move _ _ 4120 16 32 4184
      (run_realloc cfg0 (run_malloc cfg0 pool0 16).pool 4120 32)
      (ReachR.malloc pool0 [] 16 4120 (run_malloc cfg0 pool0 16)
        (ReachR.init 4096 (2 ^ 20) pool0 pool0_init ⟨by decide, by decide⟩) (by rfl) (by rfl))
      (by decide) (by decide) (by rfl) (by rfl) (by decide))
    4184 32 (by decide) 8 (by decide) (by decide!) (by decide!)

/-! ## C12: a resize that moves the block -/

/-- When the sum `n + sizeof(struct avail)` does not wrap, a resize above `min_req` that
returns a payload `q` returns a block other than the old one, `BLOCK_RESERVED` and of an
order at least the old order; the old payload is no longer outstanding, the state is
again a reachable one and represents the remaining payloads together with `q`. -/
theorem realloc_relocates (cfg : Config) (hne : cfg.BLOCK_AVAIL ≠ cfg.BLOCK_RESERVED)
    (s : Pool) (O : List (Nat × Nat)) (h : ReachR cfg s O) (p n0 : Nat) (hmem : (p, n0) ∈ O)
    (n : Nat) (hgt : n > min_req cfg s p) (hw : n + cfg.sizeof_avail < 2 ^ 64)
    (r : Result) (hr : buddy_realloc cfg s PoolPtr.valid (some p) n = some r)
    (q : Nat) (hq : r.ret = some q) :
    q ≠ p ∧
    (r.pool.hdr (Ptr.block (q - cfg.sizeof_avail))).tag = cfg.BLOCK_RESERVED ∧
    (s.hdr (Ptr.block (p - cfg.sizeof_avail))).kval
      ≤ (r.pool.hdr (Ptr.block (q - cfg.sizeof_avail))).kval ∧
    ReachR cfg r.pool ((q, n) :: O.erase (p, n0)) ∧
    Good cfg r.pool ((q, n) :: O.erase (p, n0)) := by
  obtain ⟨hg, hK⟩ := reachR_good hne h
  rcases realloc_move_spec hne hg hmem hgt hr with ⟨h1, -⟩ | ⟨q1, h1, hqp, hg3, -⟩
  · rw [h1] at hq
    simp at hq
  rw [h1] at hq
  simp only [Option.some.injEq] at hq
  subst hq
  have hreach := ReachR.realloc_move s O p n0 n q1 r h hmem hw hr h1 hqp
  generalize r.pool = s3 at hg3 hreach ⊢
  obtain ⟨-, hpay3, F3, hinv3⟩ := id hg3
  obtain ⟨-, hpay0, F0, hinv0⟩ := hg
  obtain ⟨o, nk, e1, e2, -⟩ := hpay3 (q1, n) (List.mem_cons_self _ _)
  simp only at e1 e2
  have hR3 : Rof cfg s3.base ((q1, n) :: O.erase (p, n0)) o nk :=
    ⟨n, by rw [← e1]; exact List.mem_cons_self _ _, e2⟩
  have hh3 := hinv3.res_hdr o nk hR3
  have hblk3 : Ptr.block (q1 - cfg.sizeof_avail) = s3.blk o := by
    rw [e1]; simp [Pool.blk]
  rw [hblk3, hh3.1, hh3.2]
  obtain ⟨b, k, e3, e4, -⟩ := hpay0 _ hmem
  simp only at e3 e4
  have hR0 : Rof cfg s.base O b k := ⟨n0, e3 ▸ hmem, e4⟩
  have hblk0 : Ptr.block (p - cfg.sizeof_avail) = s.blk b := by
    rw [e3]; simp [Pool.blk]
  have hh0 := hinv0.res_hdr b k hR0
  have hkK : k ≤ s.kval_m := hinv0.le_K (Or.inr (Or.inl hR0))
  have hkv : (s.hdr (Ptr.block (p - cfg.sizeof_avail))).kval = k := by
    rw [hblk0]; exact hh0.2
  rw [hkv]
  refine ⟨hqp, rfl, ?_, hreach, hg3⟩
  obtain ⟨k0, hb, hnk⟩ := needed_k_some e2
  rw [Nat.mod_eq_of_lt hw] at hb
  obtain ⟨b1, b2, b3⟩ := btok_spec hb
  by_cases hk0 : k = 0
  · omega
  · have hkpos : 0 < k := by omega
    have hk0nk : k0 ≤ nk := by rw [hnk]; split <;> omega
    have hX : 2 ^ (k - 1) ≤ 2 ^ 62 := Nat.pow_le_pow_right (by norm_num) (by omega)
    by_cases hH : cfg.sizeof_avail ≤ 2 ^ (k - 1) + 1
    · rw [min_req_eq hkv hkpos (by omega) hH] at hgt
      have hlt : 2 ^ (k - 1) < 2 ^ k0 := by omega
      have := (Nat.pow_lt_pow_iff_right (by norm_num : 1 < 2)).1 hlt
      omega
    · exfalso
      unfold min_req at hgt
      rw [hkv, if_pos hkpos] at hgt
      generalize 2 ^ (k - 1) = X at hX hH hgt
      have e : (X + 2 ^ 64 - cfg.sizeof_avail + 1) % 2 ^ 64
          = X + 2 ^ 64 - cfg.sizeof_avail + 1 := Nat.mod_eq_of_lt (by omega)
      rw [e] at hgt
      omega

theorem realloc_relocates_witness :
    (4184 : Nat) ≠ 4120 ∧
    ((run_realloc cfg0 (run_malloc cfg0 pool0 16).pool 4120 32).pool.hdr
      (Ptr.block (4184 - cfg0.sizeof_avail))).tag = cfg0.BLOCK_RESERVED ∧
    ((run_malloc cfg0 pool0 16).pool.hdr (Ptr.block (4120 - cfg0.sizeof_avail))).kval
      ≤ ((run_realloc cfg0 (run_malloc cfg0 pool0 16).pool 4120 32).pool.hdr
        (Ptr.block (4184 - cfg0.sizeof_avail))).kval ∧
    ReachR cfg0 (run_realloc cfg0 (run_malloc cfg0 pool0 16).pool 4120 32).pool
      ((4184, 32) :: [((4120 : Nat), (16 : Nat))].erase (4120, 16)) ∧
    Good cfg0 (run_realloc cfg0 (run_malloc cfg0 pool0 16).pool 4120 32).pool
      ((4184, 32) :: [((4120 : Nat), (16 : Nat))].erase (4120, 16)) :=
  realloc_relocates cfg0 (by decide) _ _
    (ReachR.malloc pool0 [] 16 4120 (run_malloc cfg0 pool0 16)
      (ReachR.init 4096 (2 ^ 20) pool0 pool0_init ⟨by decide, by decide⟩) (by rfl) (by rfl))
    4120 16 (by decide) 32 (by decide) (by decide)
    (run_realloc cfg0 (run_malloc cfg0 pool0 16).pool 4120 32) (by rfl) 4184 (by rfl)

/-- C12 fails on the code: after `buddy_malloc(pool, 100)` on the fresh pool `pool0` the
payload 4120 is outstanding in a block of order 7 and `min_req` is 41;
`buddy_realloc(pool, 4120, 2 ^ 64 - 1)` computes `n + 24` as 23, takes a block of order 6
and returns its payload 4248: the block of the result is `BLOCK_RESERVED` with order 6,
below the order 7 of the block given. -/
theorem realloc_shrinks_on_wrap :
    Reach cfg0 (run_malloc cfg0 pool0 100).pool [(4120, 100)] ∧
    ((run_malloc cfg0 pool0 100).pool.hdr (Ptr.block (4120 - cfg0.sizeof_avail))).kval = 7 ∧
    min_req cfg0 (run_malloc cfg0 pool0 100).pool 4120 = 41 ∧
    (buddy_realloc cfg0 (run_malloc cfg0 pool0 100).pool PoolPtr.valid (some 4120)
      (2 ^ 64 - 1)).map (fun r => (r.ret,
        (r.pool.hdr (Ptr.block (4248 - cfg0.sizeof_avail))).tag,
        (r.pool.hdr (Ptr.block (4248 - cfg0.sizeof_avail))).kval))
      = some (some 4248, cfg0.BLOCK_RESERVED, 6) := by
  refine ⟨?_, by decide!, by decide!, by decide!⟩
  exact Reach.malloc pool0 [] 100 4120 (run_malloc cfg0 pool0 100)
    (Reach.init 4096 (2 ^ 20) pool0 pool0_init ⟨by decide, by decide⟩) (by rfl) (by rfl)

/-! ## C15: the state after `buddy_init` -/

/-- C15 (init postcondition): whenever `buddy_init(pool, size)` returns, with
`K = kval_m`: `numbytes == 2 ^ K`; every `avail[i]` with `i < K` is an empty circular
list with tag `BLOCK_UNUSED` and `kval == i`; `avail[K]` has tag `BLOCK_UNUSED`,
`kval == K` and exactly one element, the block at `base`, which has tag `BLOCK_AVAIL`,
`kval == K` and `next == prev == &avail[K]`; so `check_buddy_pool_full` passes.  The call
returns for every size up to `2 ^ 63` when `mmap` succeeds, `MIN_K` is below 64,
`MAX_K` is not zero and, for size zero, `DEFAULT_K` is below 64. -/
theorem init_postcondition (cfg : Config) (base size : Nat) :
    (∀ s, buddy_init cfg (some base) size = some s → InitPost cfg base s ∧ IsFull cfg s) ∧
    (size ≤ 2 ^ 63 → cfg.MIN_K < 64 → (size = 0 → cfg.DEFAULT_K < 64) → 0 < cfg.MAX_K →
      ∃ s, buddy_init cfg (some base) size = some s) := by
  refine ⟨?_, init_total cfg base size⟩
  intro s h
  obtain ⟨h1, h2, h3, h4, h5, h6, h7, h8⟩ := init_spec h
  have hI : InitPost cfg base s := by
    refine ⟨h1, h3, ?_, (h4 _ (le_refl _)).1, (h4 _ (le_refl _)).2, h6, h7, ?_, ?_, ?_, ?_⟩
    · intro i hi
      exact ⟨(h5 i hi).1, (h5 i hi).2, (h4 i (by omega)).1, (h4 i (by omega)).2⟩
    all_goals rw [h8]
  refine ⟨hI, ?_⟩
  obtain ⟨g1, g2, g3, g4, g5, g6, g7, g8, g9, g10, g11⟩ := hI
  rw [← g1] at g6 g7 g8 g10 g11
  exact ⟨g3, g6, g7, g8, g10, g11⟩

theorem init_postcondition_witness :
    (InitPost cfg0 4096 pool0 ∧ IsFull cfg0 pool0) ∧
    ∃ s, buddy_init cfg0 (some 4096) (2 ^ 20) = some s :=
  ⟨(init_postcondition cfg0 4096 (2 ^ 20)).1 pool0 pool0_init,
   (init_postcondition cfg0 4096 (2 ^ 20)).2 (by norm_num) (by decide) (by decide)
     (by decide)⟩

/-! ## C19: resizing to zero -/

/-- C19 (resize to zero is free): in a state reached from `buddy_init` by calls of
`buddy_malloc`, `buddy_free` and `buddy_realloc`, for an outstanding payload `p`,
`buddy_realloc(pool, p, 0)` returns `NULL` and leaves exactly the state that
`buddy_free(pool, p)` leaves from the same state; when `p` is the only outstanding
payload that state passes `check_buddy_pool_full`. -/
theorem realloc_zero_is_free (cfg : Config) (hne : cfg.BLOCK_AVAIL ≠ cfg.BLOCK_RESERVED)
    (s : Pool) (O : List (Nat × Nat)) (h : ReachR cfg s O) (p n0 : Nat) (hmem : (p, n0) ∈ O) :
    ∃ r, buddy_realloc cfg s PoolPtr.valid (some p) 0 = some r ∧ r.ret = none ∧
      r.pool = buddy_free cfg s PoolPtr.valid (some p) ∧
      (O = [(p, n0)] → IsFull cfg r.pool) := by
  refine ⟨⟨buddy_free cfg s PoolPtr.valid (some p), none, none⟩, ?_, rfl, rfl, ?_⟩
  · simp [buddy_realloc]
  · intro hO
    subst hO
    have hf := good_free hne (reachR_good hne h).1 hmem
    simp only [List.erase_cons_head] at hf
    exact good_empty_full hf

theorem realloc_zero_is_free_witness :
    ∃ r, buddy_realloc cfg0 (run_realloc cfg0 (run_malloc cfg0 pool0 16).pool 4120 32).pool
        PoolPtr.valid (some 4184) 0 = some r ∧ r.ret = none ∧
      r.pool = buddy_free cfg0 (run_realloc cfg0 (run_malloc cfg0 pool0 16).pool 4120 32).pool
        PoolPtr.valid (some 4184) ∧
      ([((4184 : Nat), (32 : Nat))] = [(4184, 32)] → IsFull cfg0 r.pool) :=
  realloc_zero_is_free cfg0 (by decide) _ [(4184, 32)]
    (ReachR.realloc_move _ _ 4120 16 32 4184
      (run_realloc cfg0 (run_malloc cfg0 pool0 16).pool 4120 32)
      (ReachR.malloc pool0 [] 16 4120 (run_malloc cfg0 pool0 16)
        (ReachR.init 4096 (2 ^ 20) pool0 pool0_init ⟨by decide, by decide⟩) (by rfl) (by rfl))
      (by decide) (by decide) (by rfl) (by rfl) (by decide))
    4184 32 (by decide)

/-! ## C14: the buddy of the buddy -/

/-- C18 (split keeps the lower half): on a fresh pool of top order `K` with
`SMALLEST_K <= K`, for every `n` with `1 <= n <= 2 ^ K - sizeof(struct avail)` and
`needed_k = max(SMALLEST_K, btok(n + sizeof(struct avail)))`, `buddy_malloc(pool, n)`
returns `base + sizeof(struct avail)`; afterwards every list `avail[j]` with
`needed_k <= j < K` holds exactly one block, at `base + 2 ^ j`, with tag `BLOCK_AVAIL`
and `kval == j`, and `avail[K]` and every list below `needed_k` are empty self-loops; the
sentinels keep tag `BLOCK_UNUSED` and their order. -/
theorem split_keeps_lower_half (cfg : Config) (hne : cfg.BLOCK_AVAIL ≠ cfg.BLOCK_RESERVED)
    (base size : Nat) (s : Pool) (hi : buddy_init cfg (some base) size = some s)
    (hS : cfg.SMALLEST_K ≤ s.kval_m) (n : Nat) (hn : 1 ≤ n)
    (hfit : n + cfg.sizeof_avail ≤ 2 ^ s.kval_m) :
    ∃ k0 r, btok (n + cfg.sizeof_avail) = some k0 ∧
      buddy_malloc cfg s PoolPtr.valid n = some r ∧
      r.ret = some (base + cfg.sizeof_avail) ∧
      r.pool.kval_m = s.kval_m ∧
      (∀ j, max cfg.SMALLEST_K k0 ≤ j → j < s.kval_m →
        (r.pool.hdr (Ptr.sentinel j)).next = Ptr.block (base + 2 ^ j) ∧
        (r.pool.hdr (Ptr.sentinel j)).prev = Ptr.block (base + 2 ^ j) ∧
        (r.pool.hdr (Ptr.block (base + 2 ^ j))).next = Ptr.sentinel j ∧
        (r.pool.hdr (Ptr.block (base + 2 ^ j))).prev = Ptr.sentinel j ∧
        (r.pool.hdr (Ptr.block (base + 2 ^ j))).tag = cfg.BLOCK_AVAIL ∧
        (r.pool.hdr (Ptr.block (base + 2 ^ j))).kval = j) ∧
      (∀ j, j ≤ s.kval_m → (j < max cfg.SMALLEST_K k0 ∨ j = s.kval_m) →
        (r.pool.hdr (Ptr.sentinel j)).next = Ptr.sentinel j ∧
        (r.pool.hdr (Ptr.sentinel j)).prev = Ptr.sentinel j) ∧
      (∀ j, j ≤ s.kval_m → (r.pool.hdr (Ptr.sentinel j)).tag = cfg.BLOCK_UNUSED ∧
        (r.pool.hdr (Ptr.sentinel j)).kval = j) := by
  obtain ⟨hbase, hK64, -⟩ := init_spec hi
  have hinv := init_inv hi
  have hw : n + cfg.sizeof_avail ≤ 2 ^ 63 :=
    le_trans hfit (Nat.pow_le_pow_right (by norm_num) (by omega))
  obtain ⟨k0, hk0⟩ := btok_total hw
  obtain ⟨b1, b2, b3⟩ := btok_spec hk0
  have hmod : (n + cfg.sizeof_avail) % 2 ^ 64 = n + cfg.sizeof_avail :=
    Nat.mod_eq_of_lt (lt_of_le_of_lt hw (by norm_num))
  have hmax : (if k0 < cfg.SMALLEST_K then cfg.SMALLEST_K else k0) = max cfg.SMALLEST_K k0 := by
    split <;> omega
  have hnk : needed_k cfg n = some (max cfg.SMALLEST_K k0) := by
    unfold needed_k
    rw [hmod, hk0, ← hmax]
    rfl
  have hk0K : k0 ≤ s.kval_m := b2 _ hfit
  obtain ⟨nk, hnkd⟩ : ∃ nk, nk = max cfg.SMALLEST_K k0 := ⟨_, rfl⟩
  rw [← hnkd] at hnk
  have hnkK : nk ≤ s.kval_m := by
    obtain ⟨k0b, e1, e2⟩ := needed_k_some hnk
    rw [hmod, hk0] at e1
    simp only [Option.some.injEq] at e1
    subst e1
    rw [e2]
    split <;> omega
  rcases malloc_cases hne hinv (by omega : n ≠ 0) hnk with ⟨h1, h2⟩ |
    ⟨k1, o, rest, h1, h2, h3, h4, r2, h5, h6, h7, h8, h9, h10⟩
  · exfalso
    rcases h1 with h1 | h1
    · omega
    · have := h1 s.kval_m hnkK (le_refl _)
      simp at this
  · have hk1 : k1 = s.kval_m := by
      by_contra hc
      simp [hc] at h4
    subst hk1
    simp only [if_true, List.cons.injEq] at h4
    obtain ⟨ho, hrest⟩ := h4
    subst ho
    subst hrest
    have hb : r2.pool.base = base := by rw [h8, hbase]
    refine ⟨k0, r2, hk0, h5, ?_, h9, ?_, ?_, ?_⟩
    · rw [h6, hbase, Nat.add_zero]
    · intro j hj1 hj2
      rw [← hnkd] at hj1
      have hF : split_lists (Function.update (fun k => if k = s.kval_m then [0] else [])
          s.kval_m []) 0 nk s.kval_m j = [2 ^ j] := by
        have hjK : j ≠ s.kval_m := by omega
        simp [split_lists, hj1, hj2, Function.update, hjK]
      have hl := h10.lists j (by omega)
      rw [hF] at hl
      have hh := h10.free_hdr (2 ^ j) j (by rw [hF]; simp)
      have hblk : r2.pool.blk (2 ^ j) = Ptr.block (base + 2 ^ j) := by
        simp [Pool.blk, hb]
      simp only [List.map_cons, List.map_nil, hblk] at hl
      rw [hblk] at hh
      exact ⟨hl.1, hl.2.2.2, hl.2.2.1, hl.2.1, hh.1, hh.2⟩
    · intro j hj1 hj2
      rw [← hnkd] at hj2
      have hF : split_lists (Function.update (fun k => if k = s.kval_m then [0] else [])
          s.kval_m []) 0 nk s.kval_m j = [] := by
        have hc : ¬ (nk ≤ j ∧ j < s.kval_m) := by omega
        simp only [split_lists, if_neg hc, Function.update]
        by_cases hjK : j = s.kval_m
        · simp [hjK]
        · simp [hjK]
      have hl := h10.lists j (by omega)
      rw [hF] at hl
      exact ⟨hl.1, hl.2⟩
    · intro j hj
      exact h10.sentinels j (by omega)

theorem split_keeps_lower_half_witness :
    ∃ k0 r, btok (100 + cfg0.sizeof_avail) = some k0 ∧
      buddy_malloc cfg0 pool0 PoolPtr.valid 100 = some r ∧
      r.ret = some (4096 + cfg0.sizeof_avail) ∧
      r.pool.kval_m = pool0.kval_m ∧
      (∀ j, max cfg0.SMALLEST_K k0 ≤ j → j < pool0.kval_m →
        (r.pool.hdr (Ptr.sentinel j)).next = Ptr.block (4096 + 2 ^ j) ∧
        (r.pool.hdr (Ptr.sentinel j)).prev = Ptr.block (4096 + 2 ^ j) ∧
        (r.pool.hdr (Ptr.block (4096 + 2 ^ j))).next = Ptr.sentinel j ∧
        (r.pool.hdr (Ptr.block (4096 + 2 ^ j))).prev = Ptr.sentinel j ∧
        (r.pool.hdr (Ptr.block (4096 + 2 ^ j))).tag = cfg0.BLOCK_AVAIL ∧
        (r.pool.hdr (Ptr.block (4096 + 2 ^ j))).kval = j) ∧
      (∀ j, j ≤ pool0.kval_m → (j < max cfg0.SMALLEST_K k0 ∨ j = pool0.kval_m) →
        (r.pool.hdr (Ptr.sentinel j)).next = Ptr.sentinel j ∧
        (r.pool.hdr (Ptr.sentinel j)).prev = Ptr.sentinel j) ∧
      (∀ j, j ≤ pool0.kval_m → (r.pool.hdr (Ptr.sentinel j)).tag = cfg0.BLOCK_UNUSED ∧
        (r.pool.hdr (Ptr.sentinel j)).kval = j) :=
  split_keeps_lower_half cfg0 (by decide) 4096 (2 ^ 20) pool0 pool0_init (by decide) 100
    (by decide) (by decide)

/-! ## C21: the blocks tile the region -/

/-- In a good state the lists and the reserved blocks of the outstanding payloads tile
the region. -/
theorem good_tiling {cfg : Config} {s : Pool} {O : List (Nat × Nat)} (hg : Good cfg s O) :
    ∃ F : Nat → List Nat,
      (∀ k, k ≤ s.kval_m → Seg s (Ptr.sentinel k) ((F k).map s.blk) (Ptr.sentinel k)) ∧
      (∀ k, (F k).Nodup) ∧
      (∀ o k, o ∈ F k → k ≤ s.kval_m ∧ (s.hdr (s.blk o)).tag = cfg.BLOCK_AVAIL ∧
        (s.hdr (s.blk o)).kval = k) ∧
      (∀ p n, (p, n) ∈ O → ∃ o, p = s.base + o + cfg.sizeof_avail ∧
        (s.hdr (s.blk o)).tag = cfg.BLOCK_RESERVED) ∧
      Tiling s.kval_m (PoolBlock cfg s O F) := by
  obtain ⟨-, hpay, F, hinv⟩ := hg
  refine ⟨F, hinv.lists, hinv.nodup, ?_, ?_, ?_⟩
  · intro o k ho
    exact ⟨hinv.le_K (Or.inl ho), hinv.free_hdr o k ho⟩
  · intro p n hmem
    obtain ⟨o, k, e1, e2, -⟩ := hpay _ hmem
    simp only at e1 e2
    exact ⟨o, e1, (hinv.res_hdr o k ⟨n, e1 ▸ hmem, e2⟩).1⟩
  · refine hinv.tiling.of_iff ?_
    intro o k
    constructor
    · rintro (ho | ⟨⟨n, hmem⟩, hk⟩)
      · exact Or.inl ho
      · obtain ⟨o2, k2, e1, e2, -⟩ := hpay _ hmem
        simp only at e1 e2
        have : o = o2 := by omega
        subst this
        have hR : Rof cfg s.base O o k2 := ⟨n, hmem, e2⟩
        have := (hinv.res_hdr o k2 hR).2
        rw [hk] at this
        subst this
        exact Or.inr (Or.inl hR)
    · rintro (ho | hR | hT)
      · exact Or.inl ho
      · obtain ⟨n, hmem, e2⟩ := hR
        exact Or.inr ⟨⟨n, hmem⟩, (hinv.res_hdr o k ⟨n, hmem, e2⟩).2⟩
      · exact absurd hT (by simp [nothing])

/-- C21 (tiling by self-aligned blocks): in every state reached from `buddy_init` by
calls of `buddy_malloc` and `buddy_free` (each free on an outstanding payload) there are
offsets `F k` such that following `next` from `&avail[k]` visits exactly the blocks at
the offsets `F k` and comes back to `&avail[k]`, every one of them with tag `BLOCK_AVAIL`
and `kval == k`; every outstanding payload has a `BLOCK_RESERVED` block; and these blocks
tile the region: every block's offset is a multiple of `2 ^ kval`, the block lies inside
`[base, base + 2 ^ kval_m)`, two different blocks do not overlap, and every byte of the
region is in a block. -/
theorem tiling_invariant (cfg : Config) (hne : cfg.BLOCK_AVAIL ≠ cfg.BLOCK_RESERVED)
    (s : Pool) (O : List (Nat × Nat)) (h : Reach cfg s O) :
    ∃ F : Nat → List Nat,
      (∀ k, k ≤ s.kval_m → Seg s (Ptr.sentinel k) ((F k).map s.blk) (Ptr.sentinel k)) ∧
      (∀ k, (F k).Nodup) ∧
      (∀ o k, o ∈ F k → k ≤ s.kval_m ∧ (s.hdr (s.blk o)).tag = cfg.BLOCK_AVAIL ∧
        (s.hdr (s.blk o)).kval = k) ∧
      (∀ p n, (p, n) ∈ O → ∃ o, p = s.base + o + cfg.sizeof_avail ∧
        (s.hdr (s.blk o)).tag = cfg.BLOCK_RESERVED) ∧
      Tiling s.kval_m (PoolBlock cfg s O F) :=
  good_tiling (reach_good hne h)

/-- The same holds of the states reached with `buddy_realloc` as well. -/
theorem tiling_with_realloc (cfg : Config) (hne : cfg.BLOCK_AVAIL ≠ cfg.BLOCK_RESERVED)
    (s : Pool) (O : List (Nat × Nat)) (h : ReachR cfg s O) :
    ∃ F : Nat → List Nat,
      (∀ k, k ≤ s.kval_m → Seg s (Ptr.sentinel k) ((F k).map s.blk) (Ptr.sentinel k)) ∧
      (∀ k, (F k).Nodup) ∧
      (∀ o k, o ∈ F k → k ≤ s.kval_m ∧ (s.hdr (s.blk o)).tag = cfg.BLOCK_AVAIL ∧
        (s.hdr (s.blk o)).kval = k) ∧
      (∀ p n, (p, n) ∈ O → ∃ o, p = s.base + o + cfg.sizeof_avail ∧
        (s.hdr (s.blk o)).tag = cfg.BLOCK_RESERVED) ∧
      Tiling s.kval_m (PoolBlock cfg s O F) :=
  good_tiling (reachR_good hne h).1

theorem tiling_invariant_witness :
    ∃ F : Nat → List Nat,
      (∀ k, k ≤ pool_gap.kval_m →
        Seg pool_gap (Ptr.sentinel k) ((F k).map pool_gap.blk) (Ptr.sentinel k)) ∧
      (∀ k, (F k).Nodup) ∧
      (∀ o k, o ∈ F k → k ≤ pool_gap.kval_m ∧
        (pool_gap.hdr (pool_gap.blk o)).tag = cfg0.BLOCK_AVAIL ∧
        (pool_gap.hdr (pool_gap.blk o)).kval = k) ∧
      (∀ p n, (p, n) ∈ [((4312 : Nat), (1 : Nat)), (4120, 1)] →
        ∃ o, p = pool_gap.base + o + cfg0.sizeof_avail ∧
          (pool_gap.hdr (pool_gap.blk o)).tag = cfg0.BLOCK_RESERVED) ∧
      Tiling pool_gap.kval_m (PoolBlock cfg0 pool_gap [(4312, 1), (4120, 1)] F) :=
  tiling_invariant cfg0 (by decide) pool_gap [(4312, 1), (4120, 1)]
    (Reach.free _ _ 4184 1
      (Reach.free _ _ 4248 1
        (Reach.malloc _ _ 1 4312
          (run_malloc cfg0 (run_malloc cfg0 (run_malloc cfg0 (run_malloc cfg0 pool0 1).pool
            1).pool 1).pool 1)
          (Reach.malloc _ _ 1 4248
            (run_malloc cfg0 (run_malloc cfg0 (run_malloc cfg0 pool0 1).pool 1).pool 1)
            (Reach.malloc _ _ 1 4184 (run_malloc cfg0 (run_malloc cfg0 pool0 1).pool 1)
              (Reach.malloc pool0 [] 1 4120 (run_malloc cfg0 pool0 1)
                (Reach.init 4096 (2 ^ 20) pool0 pool0_init ⟨by decide, by decide⟩)
                (by rfl) (by rfl))
              (by rfl) (by rfl))
            (by rfl) (by rfl))
          (by rfl) (by rfl))
        (by decide))
      (by decide))

/-! ## C22: termination -/

/-- Above `2 ^ 63` no number of rounds brings the loop of `btok` to an end: the round
with `k_val == 64` evaluates the undefined shift. -/
theorem btok_loop_none_of_large {n : Nat} (h : 2 ^ 63 < n) :
    ∀ fuel k, k ≤ 64 → btok_loop n fuel k = none := by
  intro fuel
  induction fuel with
  | zero => intro k _; rfl
  | succ fuel ih =>
    intro k hk
    unfold btok_loop shl1
    by_cases hk64 : k < 64
    · rw [if_pos hk64]
      dsimp only
      have hp : 2 ^ k ≤ 2 ^ 63 := Nat.pow_le_pow_right (by norm_num) (by omega)
      rw [if_pos (by omega)]
      exact ih (k + 1) (by omega)
    · rw [if_neg hk64]

/-- Above `2 ^ 63` the loop of `btok` does not end on a machine that masks the shift
count either: `mult` never exceeds `2 ^ 63`. -/
theorem btok_loop_masked_none {n : Nat} (h : 2 ^ 63 < n) :
    ∀ fuel k, btok_loop_masked n fuel k = none := by
  intro fuel
  induction fuel with
  | zero => intro k; rfl
  | succ fuel ih =>
    intro k
    unfold btok_loop_masked
    have hp : 2 ^ (k % 64) ≤ 2 ^ 63 :=
      Nat.pow_le_pow_right (by norm_num) (by omega)
    rw [if_pos (by omega)]
    exact ih _

/-- Up to `2 ^ 63` the loop of `btok` ends after `k` rounds, `k` being the value
returned, which is at most 63. -/
theorem btok_loop_rounds (n : Nat) (h : n ≤ 2 ^ 63) :
    ∀ d k0, 63 - k0 = d → k0 ≤ 63 → (∀ j, j < k0 → 2 ^ j < n) →
      ∃ k, k ≤ 63 ∧ k0 ≤ k ∧ ∀ fuel, k - k0 < fuel → btok_loop n fuel k0 = some k := by
  intro d
  induction d with
  | zero =>
    intro k0 hd hk0 hlow
    have : k0 = 63 := by omega
    subst this
    refine ⟨63, le_refl _, le_refl _, ?_⟩
    intro fuel hf
    obtain ⟨f, rfl⟩ : ∃ f, fuel = f + 1 := ⟨fuel - 1, by omega⟩
    unfold btok_loop shl1
    rw [if_pos (by norm_num)]
    dsimp only
    rw [if_neg (by omega)]
  | succ d ih =>
    intro k0 hd hk0 hlow
    by_cases hgt : n > 2 ^ k0
    · obtain ⟨k, h1, h2, h3⟩ := ih (k0 + 1) (by omega) (by omega) (by
        intro j hj
        by_cases e : j = k0
        · rw [e]; exact hgt
        · exact hlow j (by omega))
      refine ⟨k, h1, by omega, ?_⟩
      intro fuel hf
      obtain ⟨f, rfl⟩ : ∃ f, fuel = f + 1 := ⟨fuel - 1, by omega⟩
      unfold btok_loop shl1
      rw [if_pos (by omega)]
      dsimp only
      rw [if_pos hgt]
      exact h3 f (by omega)
    · refine ⟨k0, hk0, le_refl _, ?_⟩
      intro fuel hf
      obtain ⟨f, rfl⟩ : ∃ f, fuel = f + 1 := ⟨fuel - 1, by omega⟩
      unfold btok_loop shl1
      rw [if_pos (by omega)]
      dsimp only
      rw [if_neg hgt]

/-- The search loop of `buddy_malloc` started at order `k` ends after at most
`kval_m + 1 - k` rounds, in every state. -/
theorem malloc_scan_rounds_bound (s : Pool) :
    ∀ fuel k, s.kval_m + 1 - k < fuel →
      ∃ r, malloc_scan_rounds s fuel k = some r ∧ r ≤ s.kval_m + 1 - k := by
  intro fuel
  induction fuel with
  | zero => intro k hk; omega
  | succ fuel ih =>
    intro k hk
    unfold malloc_scan_rounds
    by_cases hkK : k ≤ s.kval_m
    · rw [if_pos hkK]
      dsimp only
      by_cases hne : (s.hdr (Ptr.sentinel k)).next ≠ Ptr.sentinel k
      · rw [if_pos hne]
        exact ⟨1, rfl, by omega⟩
      · rw [if_neg hne]
        obtain ⟨r, h1, h2⟩ := ih (k + 1) (by omega)
        rw [h1]
        exact ⟨r + 1, rfl, by omega⟩
    · rw [if_neg hkK]
      exact ⟨0, rfl, by omega⟩

/-- The split loop of `buddy_malloc` ends after `block->kval - needed_k` rounds, in
every state. -/
theorem malloc_split_rounds_eq (cfg : Config) (block : Ptr) (needed_k : Nat) :
    ∀ fuel (s : Pool), (s.hdr block).kval - needed_k < fuel →
      malloc_split_rounds cfg block needed_k fuel s = some ((s.hdr block).kval - needed_k) := by
  intro fuel
  induction fuel with
  | zero => intro s hs; omega
  | succ fuel ih =>
    intro s hs
    unfold malloc_split_rounds
    by_cases hgt : (s.hdr block).kval > needed_k
    · rw [if_pos hgt]
      dsimp only
      have hkv : ((list_push cfg
          (((s.set_kval cfg block ((s.hdr block).kval - 1)).set_tag cfg
            (block.add (2 ^ ((s.set_kval cfg block ((s.hdr block).kval - 1)).hdr block).kval))
            cfg.BLOCK_AVAIL).set_kval cfg
            (block.add (2 ^ ((s.set_kval cfg block ((s.hdr block).kval - 1)).hdr block).kval))
            ((s.set_kval cfg block ((s.hdr block).kval - 1)).hdr block).kval)
          ((s.set_kval cfg block ((s.hdr block).kval - 1)).hdr block).kval
          (block.add (2 ^ ((s.set_kval cfg block ((s.hdr block).kval - 1)).hdr block).kval))).hdr
          block).kval = (s.hdr block).kval - 1 := by
        simp
      rw [ih _ (by rw [hkv]; omega), hkv]
      simp only [Option.map_some', Option.some.injEq]
      omega
    · rw [if_neg hgt]
      congr 1
      omega

/-- The coalescing loop of `buddy_free` ends after at most `kval_m - block->kval`
rounds, in every state. -/
theorem free_loop_rounds_bound (cfg : Config) :
    ∀ fuel (s : Pool) (block : Ptr), s.kval_m - (s.hdr block).kval < fuel →
      ∃ r, free_loop_rounds cfg fuel s block = some r ∧
        r ≤ s.kval_m - (s.hdr block).kval := by
  intro fuel
  induction fuel with
  | zero => intro s block hs; omega
  | succ fuel ih =>
    intro s block hs
    unfold free_loop_rounds
    by_cases hlt : (s.hdr block).kval < s.kval_m
    · rw [if_pos hlt]
      dsimp only
      by_cases hbr : (s.hdr (buddy_calc s PoolPtr.valid block)).tag ≠ cfg.BLOCK_AVAIL ∨
          (s.hdr (buddy_calc s PoolPtr.valid block)).kval ≠ (s.hdr block).kval
      · rw [if_pos hbr]
        exact ⟨1, rfl, by omega⟩
      · rw [if_neg hbr]
        have hsame : (s.hdr (buddy_calc s PoolPtr.valid block)).kval = (s.hdr block).kval := by
          by_contra hc
          exact hbr (Or.inr hc)
        generalize hb1 : (if (buddy_calc s PoolPtr.valid block).below block then
          buddy_calc s PoolPtr.valid block else block) = block1
        have hk1 : (s.hdr block1).kval = (s.hdr block).kval := by
          rw [← hb1]
          split
          · exact hsame
          · rfl
        obtain ⟨r, h1, h2⟩ := ih
          ((list_unlink cfg s (buddy_calc s PoolPtr.valid block)).set_kval cfg block1
            (((list_unlink cfg s (buddy_calc s PoolPtr.valid block)).hdr block1).kval + 1))
          block1 (by simp [hk1]; omega)
        rw [h1]
        refine ⟨r + 1, rfl, ?_⟩
        simp [hk1] at h2
        omega
    · rw [if_neg hlt]
      exact ⟨0, rfl, by omega⟩

/-- In a reachable state, with `SMALLEST_K >= 1`, the search loop of
`buddy_malloc(pool, n)` and, when the search has found a block, the split loop each end
after at most `kval_m` rounds. -/
theorem malloc_loops_bounded (cfg : Config) (hne : cfg.BLOCK_AVAIL ≠ cfg.BLOCK_RESERVED)
    (s : Pool) (O : List (Nat × Nat)) (h : ReachR cfg s O) (hS : 1 ≤ cfg.SMALLEST_K)
    (n nk : Nat) (hnk : needed_k cfg n = some nk) :
    (∀ fuel, s.kval_m < fuel →
      ∃ r, malloc_scan_rounds s fuel nk = some r ∧ r ≤ s.kval_m) ∧
    ((malloc_scan cfg s (s.kval_m + 1 - nk) nk).2 ≠ Ptr.NULL → ∀ fuel, s.kval_m < fuel →
      ∃ r, malloc_split_rounds cfg (malloc_scan cfg s (s.kval_m + 1 - nk) nk).2 nk fuel
        (malloc_scan cfg s (s.kval_m + 1 - nk) nk).1 = some r ∧ r ≤ s.kval_m) := by
  obtain ⟨⟨-, -, F, hinv⟩, -⟩ := reachR_good hne h
  have hnk1 : 1 ≤ nk := by
    obtain ⟨k0, -, e⟩ := needed_k_some hnk
    rw [e]
    split <;> omega
  constructor
  · intro fuel hf
    obtain ⟨r, h1, h2⟩ := malloc_scan_rounds_bound s fuel nk (by omega)
    exact ⟨r, h1, by omega⟩
  · intro hfound fuel hf
    have hkv : ((malloc_scan cfg s (s.kval_m + 1 - nk) nk).1.hdr
        (malloc_scan cfg s (s.kval_m + 1 - nk) nk).2).kval ≤ s.kval_m ∨
        (malloc_scan cfg s (s.kval_m + 1 - nk) nk) = (s, Ptr.NULL) := by
      rcases malloc_scan_spec hinv (s.kval_m + 1 - nk) nk rfl with
        ⟨-, h2⟩ | ⟨k0, o, rest, h1, h2, h3, h4, h5⟩
      · exact Or.inr h2
      · left
        rw [h5]
        simp only [list_unlink_kval]
        rw [(hinv.free_hdr o k0 (by rw [h4]; simp)).2]
        exact h2
    rcases hkv with hkv | hnull
    · refine ⟨_, malloc_split_rounds_eq cfg _ nk fuel _ (by omega), by omega⟩
    · rw [hnull] at hfound
      exact absurd rfl hfound

/-- The coalescing loop of `buddy_free(pool, p)` ends after at most `kval_m` rounds, in
every state. -/
theorem free_loop_bounded (cfg : Config) (s : Pool) (p : Nat) :
    ∀ fuel, s.kval_m < fuel →
      ∃ r, free_loop_rounds cfg fuel
        (s.set_tag cfg (Ptr.block (p - cfg.sizeof_avail)) cfg.BLOCK_AVAIL)
        (Ptr.block (p - cfg.sizeof_avail)) = some r ∧ r ≤ s.kval_m := by
  intro fuel hf
  obtain ⟨r, h1, h2⟩ := free_loop_rounds_bound cfg fuel
    (s.set_tag cfg (Ptr.block (p - cfg.sizeof_avail)) cfg.BLOCK_AVAIL)
    (Ptr.block (p - cfg.sizeof_avail)) (by simp only [set_tag_kval_m]; omega)
  exact ⟨r, h1, by simp only [set_tag_kval_m] at h2; omega⟩

/-- C22 fails on the code: for the 64-bit input `n = 2 ^ 63 + 1` no number of rounds
brings the loop of `btok` to an end (after the round with `mult == 2 ^ 63` the next shift
is `UINT64_C(1) << 64`), so `buddy_init(pool, 2 ^ 63 + 1)` never reaches its clamp; and
under the stock constants `buddy_malloc(pool, 2 ^ 63)`, whose sum with the header size is
above `2 ^ 63`, does not return either. -/
theorem btok_loop_never_returns :
    (∀ fuel, btok_loop (2 ^ 63 + 1) fuel 0 = none) ∧
    (∀ cfg mmap, buddy_init cfg mmap (2 ^ 63 + 1) = none) ∧
    (∀ s, buddy_malloc cfg0 s PoolPtr.valid (2 ^ 63) = none) := by
  refine ⟨fun fuel => btok_loop_none_of_large (by norm_num) fuel 0 (by norm_num), ?_, ?_⟩
  · intro cfg mmap
    have hb : btok (2 ^ 63 + 1) = none := btok_none_of_large (by norm_num)
    unfold buddy_init
    rw [if_neg (by norm_num), hb]
  · intro s
    apply malloc_undefined s (by norm_num)
    unfold needed_k
    have hb : btok ((2 ^ 63 + cfg0.sizeof_avail) % 2 ^ 64) = none :=
      btok_none_of_large (by decide)
    rw [hb]
    rfl

/-! ## C5: out of memory, with the order of the specification -/

/-- When the sum `n + sizeof(struct avail)` is at most `2 ^ 63` the code computes the
order of the specification. -/
theorem needed_k_eq_spec {cfg : Config} {n : Nat} (h : n + cfg.sizeof_avail ≤ 2 ^ 63) :
    needed_k cfg n = some (needed_k_spec cfg n) := by
  have hmod : (n + cfg.sizeof_avail) % 2 ^ 64 = n + cfg.sizeof_avail :=
    Nat.mod_eq_of_lt (lt_of_le_of_lt h (by norm_num))
  have hc : Nat.clog 2 (n + cfg.sizeof_avail) ≤ 63 :=
    (Nat.le_pow_iff_clog_le (by norm_num)).1 h
  have hb : btok (n + cfg.sizeof_avail) = some (Nat.clog 2 (n + cfg.sizeof_avail)) :=
    btok_eq hc (Nat.le_pow_clog (by norm_num) _)
      (fun j hj => (Nat.pow_lt_iff_lt_clog (by norm_num)).2 hj)
  unfold needed_k needed_k_spec
  rw [hmod, hb]
  simp only [Option.map_some', Option.some.injEq]
  split <;> omega

/-- In a reachable state, for every `n >= 1` whose sum with the header size is at most
`2 ^ 63`, `buddy_malloc(pool, n)` returns, and it returns `NULL` with `errno == ENOMEM`
if and only if `needed_k` exceeds `kval_m` or every list `avail[k]` with
`needed_k <= k <= kval_m` is empty; a `NULL` return leaves the state as it was. -/
theorem malloc_null_iff_spec (cfg : Config) (hne : cfg.BLOCK_AVAIL ≠ cfg.BLOCK_RESERVED)
    (s : Pool) (O : List (Nat × Nat)) (h : ReachR cfg s O) (n : Nat) (hn : 1 ≤ n)
    (hw : n + cfg.sizeof_avail ≤ 2 ^ 63) :
    ∃ r, buddy_malloc cfg s PoolPtr.valid n = some r ∧
      ((r.ret = none ∧ r.errno = some Errno.ENOMEM) ↔
        (s.kval_m < needed_k_spec cfg n ∨ ∀ k, needed_k_spec cfg n ≤ k → k ≤ s.kval_m →
          (s.hdr (Ptr.sentinel k)).next = Ptr.sentinel k)) ∧
      (r.ret = none → r.pool = s) := by
  obtain ⟨h1, h2, h3⟩ := malloc_null_iff cfg hne s O h n hn
  have hmod : (n + cfg.sizeof_avail) % 2 ^ 64 = n + cfg.sizeof_avail :=
    Nat.mod_eq_of_lt (lt_of_le_of_lt hw (by norm_num))
  obtain ⟨r, hr⟩ := h3 (by rw [hmod]; exact hw)
  refine ⟨r, hr, ?_, h2 r hr⟩
  have hk := @needed_k_eq_spec cfg n hw
  constructor
  · rintro ⟨e1, e2⟩
    obtain ⟨nk, g1, g2⟩ := h1.1 ⟨r, hr, e1, e2⟩
    rw [hk] at g1
    simp only [Option.some.injEq] at g1
    rw [g1]
    exact g2
  · intro hx
    obtain ⟨r2, g1, g2, g3⟩ := h1.2 ⟨_, hk, hx⟩
    rw [hr] at g1
    simp only [Option.some.injEq] at g1
    subst g1
    exact ⟨g2, g3⟩

/-- C5 fails on the code: on the fresh pool `pool0` (top order 20) the requests
`n = 2 ^ 64 - 1` and `n = 2 ^ 63` both need an order above 20, so no block fits and
`NULL` with `ENOMEM` is due; for the first the sum `n + 24` wraps to 23 and
`buddy_malloc` returns the payload 4120 without touching `errno`, for the second `btok`
has no result and the call does not return. -/
theorem enomem_missed_on_wrap :
    Reach cfg0 pool0 [] ∧
    pool0.kval_m < needed_k_spec cfg0 (2 ^ 64 - 1) ∧
    (buddy_malloc cfg0 pool0 PoolPtr.valid (2 ^ 64 - 1)).map (fun r => (r.ret, r.errno))
      = some (some 4120, none) ∧
    pool0.kval_m < needed_k_spec cfg0 (2 ^ 63) ∧
    buddy_malloc cfg0 pool0 PoolPtr.valid (2 ^ 63) = none := by
  have hK : pool0.kval_m = 20 := by decide
  refine ⟨Reach.init 4096 (2 ^ 20) pool0 pool0_init ⟨by decide, by decide⟩, ?_, by decide!,
    ?_, ?_⟩
  · rw [hK]
    unfold needed_k_spec
    exact lt_max_of_lt_right ((Nat.pow_lt_iff_lt_clog (by norm_num)).1 (by decide))
  · rw [hK]
    unfold needed_k_spec
    exact lt_max_of_lt_right ((Nat.pow_lt_iff_lt_clog (by norm_num)).1 (by decide))
  · apply malloc_undefined pool0 (by norm_num)
    unfold needed_k
    have hb : btok ((2 ^ 63 + cfg0.sizeof_avail) % 2 ^ 64) = none :=
      btok_none_of_large (by decide)
    rw [hb]
    rfl

/-! ## C14, amended: when the buddy of the buddy is the block -/

end Buddy
